import Mathlib

/-!
# esql: binding query rows to records

A shallow embedding of the row binder of `orm.go`, of the name and field-list
helpers of `strings.go` and of `DB.Transaction` of `sql.go`, followed by
theorems about them.

Conventions of the embedding

* A Go value the binder inspects through `reflect` is a tree (`Value`): a leaf
  of some basic kind, a pointer, or a struct with its ordered fields.  Each
  struct field carries the `reflect.StructField` data the code reads (name,
  visibility, the value of the `esql` tag key, the embedded flag).  The type of
  a value is the shape of its tree, so a nil pointer still carries the shape
  of its element type.  Pointers own their target (two fields never share a
  target) and record types are finite (no embedded pointer cycle).
* A `reflect.Value` handle is a tree together with its location below the
  destination and its permission flags (`flagAddr`, `flagStickyRO`,
  `flagEmbedRO`), which `Field`, `Elem` and `Addr` propagate as package
  `reflect` does.
* A function that mutates the record returns the new tree next to its result.
  A Go panic is the result `Res.panic`.
* A slice is not a `Value`: a slice-typed field is a leaf of kind `Slice`, and
  the slice `unmarshalRows` appends to is a `SliceValue` next to the value held
  by the interface.  The loops of `unmarshalRows` take one unit of fuel per
  visited row and return `none` when the fuel runs out.
* The Unicode tables of the Go library (`unicode.IsUpper`, `unicode.ToLower`,
  `unicode.IsSpace`) are a parameter `U : Unicode`; `ascii` is their
  restriction to ASCII, used for concrete inputs written in ASCII.
-/

namespace Esql

/-! ## Errors and results -/

/-- An error value of the cursor (`database/sql`), opaque to the binder. -/
structure CursorError where
  msg : String
deriving DecidableEq, Repr

/-- The errors `orm.go` returns: its own sentinels, and the errors of the
cursor, which it passes through. -/
inductive Error where
  | ErrNotMatchDestination
  | ErrNotReadableValue
  | ErrNotSettable
  | ErrUnsupportedValueType
  | ErrRecordNotFound
  /-- The result of `fmt.Errorf("not a valid pointer: %v", v)` in `ValidatePtr`. -/
  | notValidPointer
  /-- An error produced by the cursor (`rowsScanner`), passed through. -/
  | cursor (e : CursorError)
deriving DecidableEq, Repr

/-- Result of a Go call that may return an error or panic. -/
inductive Res (α : Type) where
  | ok (a : α)
  | err (e : Error)
  | panic
deriving DecidableEq, Repr

/-! ## Unicode tables -/

/-- The tables of Go's `unicode` package used by `strings.go` and `orm.go`. -/
structure Unicode where
  /-- The predicate `unicode.IsUpper`. -/
  IsUpper : Char → Bool
  /-- The map `unicode.ToLower` (what `strings.ToLower` applies to each rune). -/
  ToLower : Char → Char
  /-- The predicate `unicode.IsSpace` (what `strings.TrimSpace` trims). -/
  IsSpace : Char → Bool

/-- The tables restricted to ASCII; they agree with Go's on every ASCII rune. -/
def ascii : Unicode where
  IsUpper := fun c => decide ('A'.toNat ≤ c.toNat ∧ c.toNat ≤ 'Z'.toNat)
  ToLower := fun c =>
    if 'A'.toNat ≤ c.toNat ∧ c.toNat ≤ 'Z'.toNat then Char.ofNat (c.toNat + 32) else c
  IsSpace := fun c => c == ' ' || c == '\t' || c == '\n' || c == '\r' ||
    c.toNat == 11 || c.toNat == 12

/-! ## strings.go -/

/-- The first loop of `ConvertCamelToSnake`: the state is `(words, lastIndex)`
and the step at index `i` closes the current word when `rs[i]` is upper case
and `i > 0`. -/
def splitStep (U : Unicode) (rs : List Char) (st : List (List Char) × Nat) (i : Nat) :
    List (List Char) × Nat :=
  if 0 < i ∧ U.IsUpper (rs.getD i ' ') = true then
    (st.1 ++ [(rs.take i).drop st.2], i)
  else st

/-- The words of `ConvertCamelToSnake` after both `append`s. -/
def camelWords (U : Unicode) (rs : List Char) : List (List Char) :=
  let st := (List.range rs.length).foldl (splitStep U rs) ([], 0)
  st.1 ++ [rs.drop st.2]

/-- The second loop of `ConvertCamelToSnake`: `result += "_"` when `k > 0`,
then `result += strings.ToLower(word)`. -/
def joinStep (U : Unicode) (result : List Char) (kw : Nat × List Char) : List Char :=
  (if 0 < kw.1 then result ++ ['_'] else result) ++ kw.2.map U.ToLower

/-- The runes of `ConvertCamelToSnake(s)` for the runes `rs` of `s`. -/
def convertCamelToSnakeRunes (U : Unicode) (rs : List Char) : List Char :=
  (camelWords U rs).enum.foldl (joinStep U) []

/-- `ConvertCamelToSnake` of `strings.go`. -/
def ConvertCamelToSnake (U : Unicode) (s : String) : String :=
  String.mk (convertCamelToSnakeRunes U s.toList)

/-- The transform in the words of the specification: scan the characters in
order and emit an underscore before each upper-case character at an index
greater than zero, then the character lowercased. -/
def literalSnake (U : Unicode) (rs : List Char) : List Char :=
  rs.enum.flatMap fun ic =>
    if 0 < ic.1 ∧ U.IsUpper ic.2 = true then ['_', U.ToLower ic.2] else [U.ToLower ic.2]

/-- Number of upper-case characters of `rs` at an index greater than zero. -/
def upperAfterFirst (U : Unicode) (rs : List Char) : Nat :=
  (rs.enum.filter fun ic => decide (0 < ic.1 ∧ U.IsUpper ic.2 = true)).length

/-! ## reflect: kinds, struct fields, values -/

/-- The kinds of `reflect.Kind`. -/
inductive Kind where
  | Invalid | Bool | Int | Int8 | Int16 | Int32 | Int64
  | Uint | Uint8 | Uint16 | Uint32 | Uint64 | Uintptr
  | Float32 | Float64 | Complex64 | Complex128
  | Array | Chan | Func | Interface | Map | Ptr | Slice | String | Struct | UnsafePointer
deriving DecidableEq, Repr

/-- The kinds of the leaves of a record: every kind except `Ptr` and `Struct`
(which have constructors of their own in `Value`) and `Invalid`. -/
inductive BasicKind where
  | Bool | Int | Int8 | Int16 | Int32 | Int64
  | Uint | Uint8 | Uint16 | Uint32 | Uint64 | Uintptr
  | Float32 | Float64 | Complex64 | Complex128
  | Array | Chan | Func | Interface | Map | Slice | String | UnsafePointer
deriving DecidableEq, Repr

/-- The `reflect.Kind` of a leaf kind. -/
def BasicKind.toKind : BasicKind → Kind
  | .Bool => .Bool | .Int => .Int | .Int8 => .Int8 | .Int16 => .Int16
  | .Int32 => .Int32 | .Int64 => .Int64
  | .Uint => .Uint | .Uint8 => .Uint8 | .Uint16 => .Uint16 | .Uint32 => .Uint32
  | .Uint64 => .Uint64 | .Uintptr => .Uintptr
  | .Float32 => .Float32 | .Float64 => .Float64
  | .Complex64 => .Complex64 | .Complex128 => .Complex128
  | .Array => .Array | .Chan => .Chan | .Func => .Func | .Interface => .Interface
  | .Map => .Map | .Slice => .Slice | .String => .String
  | .UnsafePointer => .UnsafePointer

/-- The content of a leaf: what a cursor writes into it. -/
inductive Val where
  | null
  | bool (b : Bool)
  | int (n : Int)
  | str (s : String)
deriving DecidableEq, Repr

/-- The data of `reflect.StructField` the binder reads. `Tag` is the value of
`field.Tag.Get("esql")`; `Exported` is `field.IsExported()` (empty `PkgPath`). -/
structure StructField where
  Name : String
  Exported : Bool
  Tag : String
  Anonymous : Bool
deriving DecidableEq, Repr

mutual
/-- A Go value as `reflect` sees it.  `ptr isNil target`: a pointer; when
`isNil` holds the pointer is nil and `target` only records the type of the
element: nothing reads its content, and an allocation installs the zero value
of that type (`Value.zero`). -/
inductive Value where
  | basic (k : BasicKind) (data : Val)
  | ptr (isNil : Bool) (target : Value)
  | struct (fields : FieldVals)
deriving DecidableEq, Repr
/-- The fields of a struct value, in declaration order. -/
inductive FieldVals where
  | nil
  | cons (f : StructField) (v : Value) (rest : FieldVals)
deriving DecidableEq, Repr
end

/-- The method `Value.Kind()`. -/
def Value.Kind : Value → Esql.Kind
  | .basic k _ => k.toKind
  | .ptr _ _ => .Ptr
  | .struct _ => .Struct

/-- The kind of `Deref(t)`, for `t` the type of the value: `Deref` of
`orm.go` removes every pointer layer of a type. -/
def Value.DerefKind : Value → Esql.Kind
  | .basic k _ => k.toKind
  | .ptr _ e => e.DerefKind
  | .struct _ => .Struct

/-- Number of fields. -/
def FieldVals.length : FieldVals → Nat
  | .nil => 0
  | .cons _ _ rest => rest.length + 1

/-- The call `Deref(v.Type()).NumField()`; `none` when the dereferenced type
is not a struct, where `NumField` panics. -/
def Value.DerefNumField : Value → Option Nat
  | .basic _ _ => none
  | .ptr _ e => e.DerefNumField
  | .struct fs => some fs.length

/-- One step of a location: a struct field, or the target of a pointer. -/
inductive Step where
  | field (i : Nat)
  | elem
deriving DecidableEq, Repr

/-- The location of a value below the destination record. -/
abbrev Loc := List Step

/-- The permission bits of a `reflect.Value`. -/
structure Flag where
  flagAddr : Bool
  flagStickyRO : Bool
  flagEmbedRO : Bool
deriving DecidableEq, Repr

/-- The mask `flagRO = flagStickyRO | flagEmbedRO` is set. -/
def Flag.RO (fl : Flag) : Bool := fl.flagStickyRO || fl.flagEmbedRO

/-- The method `CanSet`: addressable and not read-only. -/
def Flag.CanSet (fl : Flag) : Bool := fl.flagAddr && !fl.RO

/-- The method `CanInterface`: not read-only. -/
def Flag.CanInterface (fl : Flag) : Bool := !fl.RO

/-- The method `CanAddr`. -/
def Flag.CanAddr (fl : Flag) : Bool := fl.flagAddr

/-- Flags of `v.Field(i)`: the bits of `v` without `flagEmbedRO`; an unexported
field adds `flagEmbedRO` when embedded and `flagStickyRO` otherwise. -/
def Flag.Field (fl : Flag) (f : StructField) : Flag where
  flagAddr := fl.flagAddr
  flagStickyRO := fl.flagStickyRO || (!f.Exported && !f.Anonymous)
  flagEmbedRO := !f.Exported && f.Anonymous

/-- Flags of `v.Elem()` for a pointer `v`: the read-only bits of `v`, addressable. -/
def Flag.Elem (fl : Flag) : Flag where
  flagAddr := true
  flagStickyRO := fl.flagStickyRO
  flagEmbedRO := fl.flagEmbedRO

/-- Flags of `v.Addr()`: the read-only bits of `v`. -/
def Flag.Addr (fl : Flag) : Flag where
  flagAddr := false
  flagStickyRO := fl.flagStickyRO
  flagEmbedRO := fl.flagEmbedRO

/-- Flags of the record handed to the binder: `rv.Elem()` of the destination
pointer in `unmarshalRow`, `reflect.New(base)` dereferenced in `unmarshalRows`. -/
def Flag.root : Flag where
  flagAddr := true
  flagStickyRO := false
  flagEmbedRO := false

/-- A slot handed to `Scan`: the address of a location of the record, or the
address of the throwaway variable `anonymous` declared for column `i`. -/
inductive Slot where
  | addr (loc : Loc)
  | anonymous (i : Nat)
deriving DecidableEq, Repr

/-- An element of the `[]reflect.Value` returned by `unwrapFields`. -/
structure FieldRef where
  loc : Loc
  fl : Flag
deriving DecidableEq, Repr

/-- The map `map[string]interface{}` of `getTaggedFieldValueMap`, as an
association list with pairwise distinct keys. -/
abbrev TaggedMap := List (String × Slot)

/-- The assignment `m[key] = val`. -/
def TaggedMap.set (m : TaggedMap) (key : String) (val : Slot) : TaggedMap :=
  (key, val) :: m.filter fun e => e.1 != key

/-- The lookup `m[key]` with its `ok` flag. -/
def TaggedMap.get (m : TaggedMap) (key : String) : Option Slot :=
  m.lookup key

/-- The loop `for key, val := range inner { result[key] = val }`; the keys of
`inner` are distinct, so the resulting map does not depend on the order. -/
def TaggedMap.merge (result inner : TaggedMap) : TaggedMap :=
  inner.foldl (fun r e => r.set e.1 e.2) result

/-! ## orm.go -/

/-- The constant `tagName` is the key whose value `StructField.Tag` holds. -/
def tagName : String := "esql"

/-- The call `strings.TrimSpace`. -/
def TrimSpace (U : Unicode) (rs : List Char) : List Char :=
  ((rs.dropWhile U.IsSpace).reverse.dropWhile U.IsSpace).reverse

/-- `parseTagName` of `orm.go`: the tag value up to its first comma, trimmed. -/
def parseTagName (U : Unicode) (field : StructField) : String :=
  let key := field.Tag
  if key.length = 0 then ""
  else String.mk (TrimSpace U (key.toList.takeWhile fun c => c != ','))

/-- The content of the zero value of a leaf kind (`0`, `false`, the empty
string; nil for the kinds whose content is not tracked). -/
def zeroVal : BasicKind → Val
  | .Bool => .bool false
  | .String => .str ""
  | .Int | .Int8 | .Int16 | .Int32 | .Int64
  | .Uint | .Uint8 | .Uint16 | .Uint32 | .Uint64 | .Uintptr
  | .Float32 | .Float64 | .Complex64 | .Complex128 => .int 0
  | _ => .null

mutual
/-- The zero value of the type of a value (`reflect.Zero(v.Type())`): zero
leaves, nil pointers. -/
def Value.zero : Value → Value
  | .basic k _ => .basic k (zeroVal k)
  | .ptr _ target => .ptr true target.zero
  | .struct fs => .struct fs.zero
/-- The fields of the zero value of a struct type. -/
def FieldVals.zero : FieldVals → FieldVals
  | .nil => .nil
  | .cons f v rest => .cons f v.zero rest.zero
end

mutual
/-- The number of nodes of a value. -/
def Value.nodes : Value → Nat
  | .basic _ _ => 1
  | .ptr _ target => target.nodes + 1
  | .struct fs => fs.nodes + 1
/-- The number of nodes of the fields of a record. -/
def FieldVals.nodes : FieldVals → Nat
  | .nil => 1
  | .cons _ v rest => v.nodes + rest.nodes + 1
end

/-- `getValueInterface` of `orm.go`, on the handle `(value, loc, fl)`.  It
returns the value after the call (a nil pointer is replaced by a pointer to
the zero value of its element type, `reflect.New`) and the interface handed
to `Scan`. -/
def getValueInterface (value : Value) (loc : Loc) (fl : Flag) : Value × Res Slot :=
  match value with
  | .ptr isNil target =>
    if !fl.CanInterface then (value, .err .ErrNotReadableValue)
    else if isNil then
      -- value.Set(reflect.New(Deref(value.Type()))) panics when the handle is
      -- not assignable or when the element type is itself a pointer type
      if !fl.CanSet || target.Kind == .Ptr then (value, .panic)
      else (.ptr false target.zero, .ok (.addr (loc ++ [.elem])))
    else (value, .ok (.addr (loc ++ [.elem])))
  | _ =>
    if !fl.CanAddr || !fl.Addr.CanInterface then (value, .err .ErrNotReadableValue)
    else (value, .ok (.addr loc))

mutual
/-- `unwrapFields` of `orm.go` on the value that `reflect.New` has just
created for the type of `v`: the same traversal, every field holding the
zero value of its type (each pointer nil).  It is `unwrapFields` on `v.zero`
(`unwrapFresh_eq`), written by recursion on the type because the record
`reflect.New` creates is not a part of the record the nil pointer is in. -/
def unwrapFresh : Value → Loc → Flag → Value × Res (List FieldRef)
  | .struct fs, loc, fl =>
    let r := unwrapFreshLoop fs loc fl 0
    (.struct r.1, r.2)
  | .ptr _ target, _, _ => (.ptr true target.zero, .panic)
  | .basic k _, _, _ => (.basic k (zeroVal k), .panic)
/-- The loop of `unwrapFields` from index `i` on, over the fields of a value
that `reflect.New` has just created for the type of these fields. -/
def unwrapFreshLoop : FieldVals → Loc → Flag → Nat → FieldVals × Res (List FieldRef)
  | .nil, _, _, _ => (.nil, .ok [])
  | .cons f child rest, loc, fl, i =>
    let cfl := fl.Field f
    let cloc := loc ++ [Step.field i]
    if !cfl.CanSet then
      let r := unwrapFreshLoop rest loc fl (i + 1)
      (.cons f child.zero r.1, r.2)
    else
      match child with
      | .ptr _ target =>
        -- the field is nil: child.Set(reflect.New(Deref(child.Type())))
        if target.Kind == .Ptr then (.cons f (.ptr true target.zero) rest.zero, .panic)
        else if f.Tag = "-" then
          let r := unwrapFreshLoop rest loc fl (i + 1)
          (.cons f (.ptr false target.zero) r.1, r.2)
        else if target.Kind == .Struct && f.Anonymous then
          let c := unwrapFresh target (cloc ++ [.elem]) cfl.Elem
          match c.2 with
          | .ok inner =>
            let r := unwrapFreshLoop rest loc fl (i + 1)
            (.cons f (.ptr false c.1) r.1,
              match r.2 with
              | .ok out => .ok (inner ++ out)
              | .err e => .err e
              | .panic => .panic)
          | .err e => (.cons f (.ptr false c.1) rest.zero, .err e)
          | .panic => (.cons f (.ptr false c.1) rest.zero, .panic)
        else
          let r := unwrapFreshLoop rest loc fl (i + 1)
          (.cons f (.ptr false target.zero) r.1,
            match r.2 with
            | .ok out => .ok ({ loc := cloc ++ [.elem], fl := cfl.Elem } :: out)
            | .err e => .err e
            | .panic => .panic)
      | .struct fs =>
        if f.Tag = "-" then
          let r := unwrapFreshLoop rest loc fl (i + 1)
          (.cons f (.struct fs.zero) r.1, r.2)
        else if f.Anonymous then
          let c := unwrapFreshLoop fs cloc cfl 0
          match c.2 with
          | .ok inner =>
            let r := unwrapFreshLoop rest loc fl (i + 1)
            (.cons f (.struct c.1) r.1,
              match r.2 with
              | .ok out => .ok (inner ++ out)
              | .err e => .err e
              | .panic => .panic)
          | .err e => (.cons f (.struct c.1) rest.zero, .err e)
          | .panic => (.cons f (.struct c.1) rest.zero, .panic)
        else
          let r := unwrapFreshLoop rest loc fl (i + 1)
          (.cons f (.struct fs.zero) r.1,
            match r.2 with
            | .ok out => .ok ({ loc := cloc, fl := cfl } :: out)
            | .err e => .err e
            | .panic => .panic)
      | .basic k _ =>
        if f.Tag = "-" then
          let r := unwrapFreshLoop rest loc fl (i + 1)
          (.cons f (.basic k (zeroVal k)) r.1, r.2)
        else
          let r := unwrapFreshLoop rest loc fl (i + 1)
          (.cons f (.basic k (zeroVal k)) r.1,
            match r.2 with
            | .ok out => .ok ({ loc := cloc, fl := cfl } :: out)
            | .err e => .err e
            | .panic => .panic)
end

mutual
/-- `unwrapFields` of `orm.go`, on the handle `(v, loc, fl)`. -/
def unwrapFields : Value → Loc → Flag → Value × Res (List FieldRef)
  | .struct fs, loc, fl =>
    let r := unwrapFieldsLoop fs loc fl 0
    (.struct r.1, r.2)
  | .ptr isNil target, loc, fl =>
    -- indirect := reflect.Indirect(v)
    if isNil then (.ptr isNil target, .panic)
    else
      match target with
      | .struct fs =>
        let r := unwrapFieldsLoop fs (loc ++ [.elem]) fl.Elem 0
        (.ptr false (.struct r.1), r.2)
      | t => (.ptr isNil t, .panic)
  | .basic k d, _, _ => (.basic k d, .panic)
/-- The loop of `unwrapFields` from index `i` on, over the fields of
`indirect` (at `loc`, with flags `fl`) that remain. -/
def unwrapFieldsLoop : FieldVals → Loc → Flag → Nat → FieldVals × Res (List FieldRef)
  | .nil, _, _, _ => (.nil, .ok [])
  | .cons f child rest, loc, fl, i =>
    let cfl := fl.Field f
    let cloc := loc ++ [Step.field i]
    if !cfl.CanSet then
      let r := unwrapFieldsLoop rest loc fl (i + 1)
      (.cons f child r.1, r.2)
    else
      match child with
      | .ptr isNil target =>
        -- child.Set(reflect.New(Deref(child.Type()))) for a nil pointer
        if isNil && target.Kind == .Ptr then (.cons f (.ptr isNil target) rest, .panic)
        else if f.Tag = "-" then
          let r := unwrapFieldsLoop rest loc fl (i + 1)
          (.cons f (.ptr false (if isNil then target.zero else target)) r.1, r.2)
        else if target.Kind == .Struct && f.Anonymous then
          let c :=
            if isNil then unwrapFresh target (cloc ++ [.elem]) cfl.Elem
            else unwrapFields target (cloc ++ [.elem]) cfl.Elem
          match c.2 with
          | .ok inner =>
            let r := unwrapFieldsLoop rest loc fl (i + 1)
            (.cons f (.ptr false c.1) r.1,
              match r.2 with
              | .ok out => .ok (inner ++ out)
              | .err e => .err e
              | .panic => .panic)
          | .err e => (.cons f (.ptr false c.1) rest, .err e)
          | .panic => (.cons f (.ptr false c.1) rest, .panic)
        else
          let r := unwrapFieldsLoop rest loc fl (i + 1)
          (.cons f (.ptr false (if isNil then target.zero else target)) r.1,
            match r.2 with
            | .ok out => .ok ({ loc := cloc ++ [.elem], fl := cfl.Elem } :: out)
            | .err e => .err e
            | .panic => .panic)
      | .struct fs =>
        if f.Tag = "-" then
          let r := unwrapFieldsLoop rest loc fl (i + 1)
          (.cons f (.struct fs) r.1, r.2)
        else if f.Anonymous then
          let c := unwrapFieldsLoop fs cloc cfl 0
          match c.2 with
          | .ok inner =>
            let r := unwrapFieldsLoop rest loc fl (i + 1)
            (.cons f (.struct c.1) r.1,
              match r.2 with
              | .ok out => .ok (inner ++ out)
              | .err e => .err e
              | .panic => .panic)
          | .err e => (.cons f (.struct c.1) rest, .err e)
          | .panic => (.cons f (.struct c.1) rest, .panic)
        else
          let r := unwrapFieldsLoop rest loc fl (i + 1)
          (.cons f (.struct fs) r.1,
            match r.2 with
            | .ok out => .ok ({ loc := cloc, fl := cfl } :: out)
            | .err e => .err e
            | .panic => .panic)
      | .basic k d =>
        if f.Tag = "-" then
          let r := unwrapFieldsLoop rest loc fl (i + 1)
          (.cons f (.basic k d) r.1, r.2)
        else
          let r := unwrapFieldsLoop rest loc fl (i + 1)
          (.cons f (.basic k d) r.1,
            match r.2 with
            | .ok out => .ok ({ loc := cloc, fl := cfl } :: out)
            | .err e => .err e
            | .panic => .panic)
end

/-- The key of a field in `getTaggedFieldValueMap`: `parseTagName(field)`, and
`ConvertCamelToSnake(field.Name)` when that is empty. -/
def fieldKey (U : Unicode) (field : StructField) : String :=
  let key := parseTagName U field
  if key.length = 0 then ConvertCamelToSnake U field.Name else key

mutual
/-- `getTaggedFieldValueMap` of `orm.go`, on the handle `(v, loc, fl)`. -/
def getTaggedFieldValueMap (U : Unicode) : Value → Loc → Flag → Value × Res TaggedMap
  | .struct fs, loc, fl =>
    let r := getTaggedLoop U fs loc fl 0 []
    (.struct r.1, r.2)
  | .ptr isNil target, loc, fl =>
    -- size := Deref(v.Type()).NumField()
    match target.DerefNumField with
    | none => (.ptr isNil target, .panic)
    | some 0 => (.ptr isNil target, .ok [])
    | some (_ + 1) =>
      -- reflect.Indirect(v).Field(0) panics unless Indirect(v) is a struct
      if isNil then (.ptr isNil target, .panic)
      else
        match target with
        | .struct fs =>
          let r := getTaggedLoop U fs (loc ++ [.elem]) fl.Elem 0 []
          (.ptr false (.struct r.1), r.2)
        | t => (.ptr isNil t, .panic)
  | .basic k d, _, _ => (.basic k d, .panic)
/-- The loop of `getTaggedFieldValueMap` from index `i` on, with the map
`result` built so far, over the fields of `reflect.Indirect(v)` (at `loc`,
with flags `fl`) that remain. -/
def getTaggedLoop (U : Unicode) :
    FieldVals → Loc → Flag → Nat → TaggedMap → FieldVals × Res TaggedMap
  | .nil, _, _, _, result => (.nil, .ok result)
  | .cons field child rest, loc, fl, i, result =>
    if field.Anonymous && child.DerefKind == .Struct then
      let c := getTaggedFieldValueMap U child (loc ++ [Step.field i]) (fl.Field field)
      match c.2 with
      | .ok inner =>
        let r := getTaggedLoop U rest loc fl (i + 1) (result.merge inner)
        (.cons field c.1 r.1, r.2)
      | .err e => (.cons field c.1 rest, .err e)
      | .panic => (.cons field c.1 rest, .panic)
    else
      let key := fieldKey U field
      let c := getValueInterface child (loc ++ [Step.field i]) (fl.Field field)
      match c.2 with
      | .ok valueData =>
        let r := getTaggedLoop U rest loc fl (i + 1) (result.set key valueData)
        (.cons field c.1 r.1, r.2)
      | .err e => (.cons field c.1 rest, .err e)
      | .panic => (.cons field c.1 rest, .panic)
end

mutual
/-- The value stored at a location below `v`, if the location exists. -/
def Value.load : Value → Loc → Option Value
  | v, [] => some v
  | .ptr false target, .elem :: l => target.load l
  | .struct fs, .field i :: l => fs.load i l
  | _, _ => none
/-- The value stored at a location below field `i`. -/
def FieldVals.load : FieldVals → Nat → Loc → Option Value
  | .nil, _, _ => none
  | .cons _ v _, 0, l => v.load l
  | .cons _ _ rest, i + 1, l => rest.load i l
end

mutual
/-- Replace the value stored at a location below `v` by `f` of it. -/
def Value.modify (f : Value → Value) : Value → Loc → Value
  | v, [] => f v
  | .ptr false target, .elem :: l => .ptr false (target.modify f l)
  | .struct fs, .field i :: l => .struct (fs.modify f i l)
  | v, _ => v
/-- Replace the value stored at a location below field `i`. -/
def FieldVals.modify (f : Value → Value) : FieldVals → Nat → Loc → FieldVals
  | .nil, _, _ => .nil
  | .cons g v rest, 0, l => .cons g (v.modify f l) rest
  | .cons g v rest, i + 1, l => .cons g v (rest.modify f i l)
end

/-- The positional loop of `mapStructFieldsIntoSlice`: for the handles
`fields[i]`, `i < len(values)`, call `getValueInterface` on the record `root`
and collect the results. -/
def positionalLoop (root : Value) : List FieldRef → Value × Res (List Slot)
  | [] => (root, .ok [])
  | valueField :: rest =>
    match root.load valueField.loc with
    | none => (root, .panic)
    | some value =>
      let c := getValueInterface value valueField.loc valueField.fl
      let root1 := root.modify (fun _ => c.1) valueField.loc
      match c.2 with
      | .ok valueData =>
        let r := positionalLoop root1 rest
        (r.1,
          match r.2 with
          | .ok out => .ok (valueData :: out)
          | .err e => .err e
          | .panic => .panic)
      | .err e => (root1, .err e)
      | .panic => (root1, .panic)

/-- The loop of `mapStructFieldsIntoSlice` over the columns when the map is
not empty, from column index `i` on. -/
def taggedLoop (taggedMap : TaggedMap) : List String → Nat → List Slot
  | [], _ => []
  | column :: rest, i =>
    (match taggedMap.get column with
      | some tagged => tagged
      | none => Slot.anonymous i) :: taggedLoop taggedMap rest (i + 1)

/-- `mapStructFieldsIntoSlice` of `orm.go`, on the record `v` with flags `fl`;
locations are relative to `v`. -/
def mapStructFieldsIntoSlice (U : Unicode) (v : Value) (fl : Flag)
    (columns : List String) (strict : Bool) : Value × Res (List Slot) :=
  let u := unwrapFields v [] fl
  match u.2 with
  | .err e => (u.1, .err e)
  | .panic => (u.1, .panic)
  | .ok fields =>
    if strict && decide (columns.length < fields.length) then
      (u.1, .err .ErrNotMatchDestination)
    else
      let t := getTaggedFieldValueMap U u.1 [] fl
      match t.2 with
      | .err e => (t.1, .err e)
      | .panic => (t.1, .panic)
      | .ok taggedMap =>
        if taggedMap.length = 0 then
          if fields.length < columns.length then (t.1, .err .ErrNotMatchDestination)
          else positionalLoop t.1 (fields.take columns.length)
        else (t.1, .ok (taggedLoop taggedMap columns 0))

/-- The interface `rowsScanner` of `orm.go` over a cursor state `σ`; every
method returns the state after the call.  `Scan` receives the slots and
reports, slot by slot, the value it stored through it (`none`: nothing
stored), next to its error. -/
structure rowsScanner (σ : Type) where
  Columns : σ → σ × Except CursorError (List String)
  Err : σ → σ × Option CursorError
  Next : σ → σ × Bool
  Scan : σ → List Slot → σ × List (Option Val) × Option CursorError

/-- A call made on the cursor. -/
inductive Call where
  | Next
  | Err
  | Columns
  | Scan (slots : List Slot)
deriving DecidableEq, Repr

/-- Replace the content of a leaf. -/
def Value.withData (x : Val) : Value → Value
  | .basic k _ => .basic k x
  | v => v

/-- A store of `x` through the address of `loc`; the content of a target that
is not a leaf is not tracked. -/
def Value.store (v : Value) (loc : Loc) (x : Val) : Value :=
  v.modify (Value.withData x) loc

/-- The effect on the record of what `Scan` stored through the slots; a store
through a throwaway variable is lost. -/
def applyScan (v : Value) : List Slot → List (Option Val) → Value
  | .addr loc :: slots, some x :: xs => applyScan (v.store loc x) slots xs
  | _ :: slots, _ :: xs => applyScan v slots xs
  | _, _ => v

/-- What a call of `unmarshalRow` leaves behind: the value held by the
interface `v`, the cursor, the returned error (`ok ()` for `nil`) and the
calls made on the cursor, in order. -/
structure Outcome (σ : Type) where
  dest : Option Value
  cursor : σ
  result : Res Unit
  calls : List Call

/-- The result of a cursor call as a Go error value. -/
def errorResult : Option CursorError → Res Unit
  | none => .ok ()
  | some e => .err (.cursor e)

/-- `ValidatePtr` of `orm.go`; the interface holds `v` (`none`: a nil interface,
for which `reflect.ValueOf` is the invalid value). -/
def ValidatePtr : Option Value → Option Error
  | some (.ptr false _) => none
  | _ => some .notValidPointer

/-- The kinds of the first case of the switch of `unmarshalRow` and
`unmarshalRows`. -/
def isScalarKind : Kind → Bool
  | .Bool | .Int | .Int8 | .Int16 | .Int32 | .Int64
  | .Uint | .Uint8 | .Uint16 | .Uint32 | .Uint64
  | .Float32 | .Float64 | .String => true
  | _ => false

/-- `unmarshalRow` of `orm.go`: `v` is the value held by the interface `v`,
`s` the state of `scanner`. -/
def unmarshalRow {σ : Type} (U : Unicode) (v : Option Value) (scanner : rowsScanner σ)
    (s : σ) (strict : Bool) : Outcome σ :=
  let n := scanner.Next s
  if !n.2 then
    let e := scanner.Err n.1
    match e.2 with
    | some err =>
      { dest := v, cursor := e.1, result := .err (.cursor err), calls := [.Next, .Err] }
    | none =>
      { dest := v, cursor := e.1, result := .err .ErrRecordNotFound, calls := [.Next, .Err] }
  else
    match ValidatePtr v with
    | some err => { dest := v, cursor := n.1, result := .err err, calls := [.Next] }
    | none =>
      match v with
      | some (.ptr false rve) =>
        if isScalarKind rve.Kind then
          if !Flag.root.CanSet then
            { dest := v, cursor := n.1, result := .err .ErrNotSettable, calls := [.Next] }
          else
            let sc := scanner.Scan n.1 [.addr []]
            { dest := some (.ptr false (applyScan rve [.addr []] sc.2.1)), cursor := sc.1,
              result := errorResult sc.2.2, calls := [.Next, .Scan [.addr []]] }
        else if rve.Kind = .Struct then
          let c := scanner.Columns n.1
          match c.2 with
          | .error err =>
            { dest := v, cursor := c.1, result := .err (.cursor err),
              calls := [.Next, .Columns] }
          | .ok columns =>
            let m := mapStructFieldsIntoSlice U rve Flag.root columns strict
            match m.2 with
            | .err err =>
              { dest := some (.ptr false m.1), cursor := c.1, result := .err err,
                calls := [.Next, .Columns] }
            | .panic =>
              { dest := some (.ptr false m.1), cursor := c.1, result := .panic,
                calls := [.Next, .Columns] }
            | .ok values =>
              let sc := scanner.Scan c.1 values
              { dest := some (.ptr false (applyScan m.1 values sc.2.1)), cursor := sc.1,
                result := errorResult sc.2.2, calls := [.Next, .Columns, .Scan values] }
        else
          { dest := v, cursor := n.1, result := .err .ErrUnsupportedValueType, calls := [.Next] }
      | _ => { dest := v, cursor := n.1, result := .err .notValidPointer, calls := [.Next] }

/-- An in-memory cursor: the column names, the rows not yet visited and the
current row. -/
structure MemRows where
  columns : List String
  pending : List (List Val)
  current : Option (List Val)
deriving DecidableEq, Repr

/-- The in-memory cursor as a `rowsScanner`: `Next` moves to the next pending
row, `Scan` stores the values of the current row through the slots in order
and fails when there is no current row or the counts differ. -/
def memRows : rowsScanner MemRows where
  Columns := fun s => (s, .ok s.columns)
  Err := fun s => (s, none)
  Next := fun s =>
    match s.pending with
    | [] => ({ s with current := none }, false)
    | row :: rest => ({ s with pending := rest, current := some row }, true)
  Scan := fun s slots =>
    match s.current with
    | none => (s, [], some ⟨"sql: Scan called without calling Next"⟩)
    | some row =>
      if row.length = slots.length then (s, row.map some, none)
      else (s, [], some ⟨"sql: wrong number of destination arguments in Scan"⟩)

/-! ## The catalog as a list of entries -/

/-- The slot of a leaf field stored at `loc`: the pointer held by a pointer
field, the address of any other field. -/
def leafSlot (child : Value) (loc : Loc) : Slot :=
  match child with
  | .ptr _ _ => .addr (loc ++ [.elem])
  | _ => .addr loc

mutual
/-- The flat catalog of the record `v` stored at `loc`, entry by entry: one
entry per field that is not an embedded record, in declaration order, the
fields of an embedded record hoisted in place with no name before them; an
entry is the external name of the field (`fieldKey`) and its slot.  A field
tagged `-` has the entry named `-`: `getTaggedFieldValueMap` does not skip it. -/
def flatCatalog (U : Unicode) : Value → Loc → List (String × Slot)
  | .struct fs, loc => flatCatalogFields U fs loc 0
  | .ptr _ target, loc =>
    match target with
    | .struct fs => flatCatalogFields U fs (loc ++ [.elem]) 0
    | _ => []
  | .basic _ _, _ => []
/-- The entries of the fields from index `i` on. -/
def flatCatalogFields (U : Unicode) : FieldVals → Loc → Nat → List (String × Slot)
  | .nil, _, _ => []
  | .cons field child rest, loc, i =>
    (if field.Anonymous && child.DerefKind == .Struct then
        flatCatalog U child (loc ++ [Step.field i])
      else [(fieldKey U field, leafSlot child (loc ++ [Step.field i]))]) ++
      flatCatalogFields U rest loc (i + 1)
end

/-- The entry a name resolves to when several fields carry it: the one
declared last. -/
def lastEntry (entries : List (String × Slot)) (key : String) : Option Slot :=
  entries.reverse.lookup key

/-- The keys of a map are pairwise distinct. -/
def NodupKeys (m : TaggedMap) : Prop := (m.map Prod.fst).Nodup

/-- The fields of a struct as a list. -/
def FieldVals.toList : FieldVals → List (StructField × Value)
  | .nil => []
  | .cons f v rest => (f, v) :: rest.toList

/-- A record of the default-naming claims: every field is exported, carries no
`esql` tag, is not embedded and holds a scalar leaf. -/
def FlatUntagged (fs : FieldVals) : Prop :=
  ∀ e ∈ fs.toList, e.1.Exported = true ∧ e.1.Tag = "" ∧ e.1.Anonymous = false ∧
    ∃ k d, e.2 = Value.basic k d

/-- The default external names of the fields, in declaration order. -/
def defaultNames (U : Unicode) (fs : FieldVals) : List String :=
  fs.toList.map fun e => ConvertCamelToSnake U e.1.Name

/-- The default name of every field with the address of the field, from
field index `i` on. -/
def namedSlots (U : Unicode) (fs : FieldVals) (i : Nat) : List (String × Slot) :=
  (fs.toList.enumFrom i).map fun je => (ConvertCamelToSnake U je.2.1.Name, Slot.addr [.field je.1])

/-- The slots bound by name: for column `i` named `c`, the slot of the entry
named `c` declared last, and the throwaway variable of column `i` when no
entry carries that name. -/
def slotsByName (entries : List (String × Slot)) (columns : List String) : List Slot :=
  columns.enum.map fun ic => (lastEntry entries ic.2).getD (.anonymous ic.1)

/-- The record whose leaves hold the values of `row`, field by field. -/
def FieldVals.setRow : FieldVals → List Val → FieldVals
  | .cons f v rest, x :: xs => .cons f (v.withData x) (rest.setRow xs)
  | fs, _ => fs

/-! ## Records used as concrete inputs -/

/-- The fields of `struct { Id int; Name string }`. -/
def idNameFields : FieldVals :=
  .cons ⟨"Id", true, "", false⟩ (.basic .Int (.int 0))
    (.cons ⟨"Name", true, "", false⟩ (.basic .String (.str "")) .nil)

/-- The fields of `struct { Id int; Name string }` tagged `esql:"id"` and
`esql:"name"`. -/
def taggedFields : FieldVals :=
  .cons ⟨"Id", true, "id", false⟩ (.basic .Int (.int 0))
    (.cons ⟨"Name", true, "name", false⟩ (.basic .String (.str "")) .nil)

/-- The fields of `struct { Id int; Nick *string }` tagged `esql:"id"` and
`esql:"nick"`, with `Nick` nil. -/
def nickFields : FieldVals :=
  .cons ⟨"Id", true, "id", false⟩ (.basic .Int (.int 0))
    (.cons ⟨"Nick", true, "nick", false⟩ (.ptr true (.basic .String (.str ""))) .nil)

/-- The fields of `struct { Id int; Nick *string; *Base }` with `Id` and
`Nick` tagged `esql:"id"` and `esql:"nick"`, and `Base` the struct
`{ Name *string }` with `Name` tagged `esql:"name"`; `Id` holds 7 and the
three pointers are nil.  What is recorded as the target of a nil pointer
stands for its type only: it holds `"stale"` here, which no call installs. -/
def profileFields : FieldVals :=
  .cons ⟨"Id", true, "id", false⟩ (.basic .Int (.int 7))
    (.cons ⟨"Nick", true, "nick", false⟩ (.ptr true (.basic .String (.str "stale")))
      (.cons ⟨"Base", true, "", true⟩
        (.ptr true (.struct
          (.cons ⟨"Name", true, "name", false⟩ (.ptr true (.basic .String (.str "stale")))
            .nil)))
        .nil))

/-- The fields of `struct { Id int; Secret string }` with `Secret` tagged
`esql:"-"` and holding `"s3cr3t"`. -/
def secretFields : FieldVals :=
  .cons ⟨"Id", true, "", false⟩ (.basic .Int (.int 0))
    (.cons ⟨"Secret", true, "-", false⟩ (.basic .String (.str "s3cr3t")) .nil)

/-- The fields of `struct { A int; B int }` both tagged `esql:"x"`. -/
def duplicateFields : FieldVals :=
  .cons ⟨"A", true, "x", false⟩ (.basic .Int (.int 0))
    (.cons ⟨"B", true, "x", false⟩ (.basic .Int (.int 0)) .nil)

/-- The fields of `struct { *Base; Age int }` with `Base` the struct
`{ Id int; Name string }`, the embedded pointer non-nil, and `Age` tagged
`esql:"age"`. -/
def embeddedFields : FieldVals :=
  .cons ⟨"Base", true, "", true⟩ (.ptr false (.struct idNameFields))
    (.cons ⟨"Age", true, "age", false⟩ (.basic .Int (.int 0)) .nil)

/-- The fields of `struct { *Base; Age int }` with `Base` the struct
`{ Id int; Name string }`, no tag, and the embedded pointer nil. -/
def nilEmbeddedFields : FieldVals :=
  .cons ⟨"Base", true, "", true⟩ (.ptr true (.struct idNameFields))
    (.cons ⟨"Age", true, "", false⟩ (.basic .Int (.int 0)) .nil)

/-! ## Records every field of which can be bound -/

mutual
/-- A field value every part of which the binder can reach: no pointer to a
pointer, and, for an embedded field (`anon`), a struct whose fields are
bindable. -/
def Value.BindableField (anon : Bool) : Value → Bool
  | .basic _ _ => true
  | .struct fs => !anon || fs.Bindable
  | .ptr _ target =>
    match target with
    | .basic _ _ => true
    | .struct fs => !anon || fs.Bindable
    | .ptr _ _ => false
/-- Fields that are all exported, none tagged `-`, each one bindable. -/
def FieldVals.Bindable : FieldVals → Bool
  | .nil => true
  | .cons f child rest =>
    f.Exported && f.Tag != "-" && child.BindableField f.Anonymous && rest.Bindable
end

mutual
/-- A field value after `unwrapFields` on the bindable record that
`reflect.New` creates: the zero value of the type of the field, a pointer
replaced by a pointer to the zero value of its element, and so on inside an
embedded struct. -/
def Value.allocFresh (anon : Bool) : Value → Value
  | .basic k _ => .basic k (zeroVal k)
  | .struct fs => if anon then .struct fs.allocFresh else .struct fs.zero
  | .ptr _ target =>
    .ptr false
      (match target with
        | .struct fs => if anon then .struct fs.allocFresh else .struct fs.zero
        | t => t.zero)
/-- The fields of the bindable record that `reflect.New` creates, after
`unwrapFields`. -/
def FieldVals.allocFresh : FieldVals → FieldVals
  | .nil => .nil
  | .cons f child rest => .cons f (child.allocFresh f.Anonymous) rest.allocFresh
end

mutual
/-- A field value after `unwrapFields` on a bindable record: a nil pointer is
replaced by a pointer to the zero value of its element, and so on inside an
embedded struct. -/
def Value.allocField (anon : Bool) : Value → Value
  | .basic k d => .basic k d
  | .struct fs => if anon then .struct fs.alloc else .struct fs
  | .ptr isNil target =>
    .ptr false
      (match target with
        | .struct fs =>
          if isNil then (if anon then .struct fs.allocFresh else .struct fs.zero)
          else (if anon then .struct fs.alloc else .struct fs)
        | t => if isNil then t.zero else t)
/-- The fields of a bindable record after `unwrapFields`. -/
def FieldVals.alloc : FieldVals → FieldVals
  | .nil => .nil
  | .cons f child rest => .cons f (child.allocField f.Anonymous) rest.alloc
end

/-- What `unwrapFields` does at the place of a pointer field, `a` read there
before the call and `b` after it: a pointer that is not nil is kept; a nil
pointer is kept or replaced by a pointer to the zero value of its element;
where nothing was read before (below a nil pointer), a pointer read afterwards
points to a zero value; and a pointer is read afterwards only where a pointer
or nothing was read before. -/
def AllocStep (a b : Option Value) : Prop :=
  (∀ t, a = some (.ptr false t) → b = some (.ptr false t)) ∧
  (∀ t, a = some (.ptr true t) → b = some (.ptr true t) ∨ b = some (.ptr false t.zero)) ∧
  (a = none → ∀ n t, b = some (.ptr n t) → t.zero = t) ∧
  (∀ n t, b = some (.ptr n t) → a = none ∨ ∃ n0 t0, a = some (.ptr n0 t0))

/-! ## strings.go: field lists -/

/-- What a call of `RemoveFieldName` leaves: the backing array of the caller's
slice `strings`, and the returned slice. -/
structure RemoveResult where
  strings : List String
  out : List String
deriving DecidableEq, Repr

/-- One iteration of the inner loop of `RemoveFieldName` at index `i`; the
state is the backing array of `out` and the counter `n`: `v := out[i]`, and
when `v != str`, `out[n] = v; n++`. -/
def removeStep (str : String) (st : List String × Nat) (i : Nat) : List String × Nat :=
  let v := st.1.getD i ""
  if v != str then (st.1.set st.2 v, st.2 + 1) else st

/-- One iteration of the outer loop of `RemoveFieldName`: the inner loop over
the indices of `out`, then `out = out[:n]`. -/
def removePass (out : List String) (str : String) : List String :=
  let st := (List.range out.length).foldl (removeStep str) (out, 0)
  st.1.take st.2

/-- `RemoveFieldName` of `strings.go`.  `append([]string(nil), strings...)`
copies `strings` into a backing array of its own, and every write of the
loops goes to that array. -/
def RemoveFieldName (strings : List String) (strs : List String) : RemoveResult :=
  let out := strings
  { strings := strings, out := strs.foldl removePass out }

/-- `RawUpdateFieldsWithPlaceHolder` of `strings.go`; `strings.Join(elems, sep)`
is `sep.intercalate elems`. -/
def RawUpdateFieldsWithPlaceHolder (fieldNames : List String) (str : List String) : String :=
  "=?,".intercalate (RemoveFieldName fieldNames str).out ++ "=?"

/-- The conversion `string(r)` of a rune given as an integer: the character of
that code point, and U+FFFD when it is not a valid code point. -/
def runeString (r : Int) : Char :=
  if 0 ≤ r ∧ r.toNat.isValidChar then Char.ofNat r.toNat else Char.ofNat 0xFFFD

/-- The inner loop of `ConvertToCamel` over the runes `b` of one segment: the
rune at index 0 is decreased by 32, the others are appended as they are. -/
def camelSegment (b : List Char) : List Char :=
  b.enum.map fun jc => if jc.1 = 0 then runeString ((jc.2.toNat : Int) - 32) else jc.2

/-- `ConvertToCamel` of `strings.go`; `strings.Split(s, "_")` is the list of
the segments between underscores. -/
def ConvertToCamel (s : String) : String :=
  let temp := s.toList.splitOn '_'
  String.mk (temp.foldl (fun str b => str ++ camelSegment b) [])


/-- The entry `RawFieldNames` appends for a field whose `esql` tag is `tagv`,
with `name` the identifier handed to `ConvertCamelToSnake`: nothing for the
tag `-`, else the tag (the snake-case name when the tag is empty), wrapped in
backquotes unless `pg` holds. -/
def rawFieldEntry (U : Unicode) (pg : Bool) (tagv : String) (name : String) : List String :=
  if tagv = "-" then []
  else if tagv = "" then
    let tagv := ConvertCamelToSnake U name
    if pg then [tagv] else ["`" ++ tagv ++ "`"]
  else
    let tagv := if tagv.length = 0 then ConvertCamelToSnake U name else tagv
    if pg then [tagv] else ["`" ++ tagv ++ "`"]

/-- The inner loop of `RawFieldNames` over the fields `fj` of a struct-typed
field `fi`: the tag read is that of `fj`, the name converted is `fi.Name`. -/
def rawFieldNamesInner (U : Unicode) (pg : Bool) (fi : StructField) : FieldVals → List String
  | .nil => []
  | .cons fj _ rest => rawFieldEntry U pg fj.Tag fi.Name ++ rawFieldNamesInner U pg fi rest

/-- The outer loop of `RawFieldNames` over the fields of the struct.  A
pointer-typed field is replaced by `vi.Elem()`, the invalid value when nil. -/
def rawFieldNamesLoop (U : Unicode) (pg : Bool) : FieldVals → List String
  | .nil => []
  | .cons fi vi rest =>
    let vi : Option Value :=
      match vi with
      | .ptr isNil target => if isNil then none else some target
      | vi => some vi
    match vi with
    | some (.struct fields) => rawFieldNamesInner U pg fi fields ++ rawFieldNamesLoop U pg rest
    | _ => rawFieldEntry U pg fi.Tag fi.Name ++ rawFieldNamesLoop U pg rest

/-- `RawFieldNames` of `strings.go` on `reflect.ValueOf(in)`, with `pg` the
first element of `postgreSql` (false when absent).  It panics unless the
value, after one `Elem` of a pointer, is a struct. -/
def RawFieldNames (U : Unicode) (v : Value) (pg : Bool) : Res (List String) :=
  let v : Option Value :=
    match v with
    | .ptr isNil target => if isNil then none else some target
    | v => some v
  match v with
  | some (.struct fields) => .ok (rawFieldNamesLoop U pg fields)
  | _ => .panic

/-- The fields of `struct { Id int; Base Base }` with `Base` the struct
`{ Id int; Name string }` tagged `esql:"id"` and `esql:"name"`. -/
def nestedTaggedFields : FieldVals :=
  .cons ⟨"Id", true, "", false⟩ (.basic .Int (.int 0))
    (.cons ⟨"Base", true, "", false⟩ (.struct taggedFields) .nil)

/-! ## sql.go: Transaction -/

/-- How a call that returns an `error` ends: it returns nil, it returns an
error, or it panics. -/
inductive Ret (ε : Type) where
  | nil
  | err (e : ε)
  | panic
deriving DecidableEq, Repr

/-- The test `err == nil` on the way a call ended. -/
def Ret.isNil {ε : Type} : Ret ε → Bool
  | .nil => true
  | _ => false

/-- The operations of the database handle `Transaction` uses, on a connection
state `σ` with errors `ε`: `DB.Begin`, `Tx.Commit`, `Tx.Rollback` (the error
`Rollback` returns is dropped by `Transaction`). -/
structure sqlDB (σ ε : Type) where
  Begin : σ → σ × Option ε
  Commit : σ → σ × Ret ε
  Rollback : σ → σ

/-- The calls `Transaction` makes, in order. -/
inductive TxCall where
  | Begin
  | Fn
  | Commit
  | Rollback
deriving DecidableEq, Repr

/-- What a call of `Transaction` leaves: the connection state, how the call
ended, and the calls it made. -/
structure TxOutcome (σ ε : Type) where
  state : σ
  result : Ret ε
  calls : List TxCall

/-- The deferred function of `Transaction`, run when the body returns or
panics, with the values `panicked` and `err` have at that moment. -/
def transactionDeferred {σ ε : Type} (e : sqlDB σ ε) (panicked : Bool) (err : Option ε)
    (result : Ret ε) (s : σ) (calls : List TxCall) : TxOutcome σ ε :=
  if panicked || err.isSome then
    { state := e.Rollback s, result := result, calls := calls ++ [.Rollback] }
  else
    { state := s, result := result, calls := calls }

/-- `DB.Transaction` of `sql.go`; `fn` is the callback, run on the connection
state of the open transaction. -/
def Transaction {σ ε : Type} (e : sqlDB σ ε) (fn : σ → σ × Ret ε) (s : σ) : TxOutcome σ ε :=
  -- panicked := true
  match e.Begin s with
  | (s, some err) => { state := s, result := .err err, calls := [.Begin] }
  | (s, none) =>
    match fn s with
    | (s, .panic) => transactionDeferred e true none .panic s [.Begin, .Fn]
    | (s, .err err) => transactionDeferred e false (some err) (.err err) s [.Begin, .Fn]
    | (s, .nil) =>
      match e.Commit s with
      | (s, .panic) => transactionDeferred e true none .panic s [.Begin, .Fn, .Commit]
      | (s, .err err) =>
        transactionDeferred e false (some err) (.err err) s [.Begin, .Fn, .Commit]
      | (s, .nil) => transactionDeferred e false none .nil s [.Begin, .Fn, .Commit]

/-- A database handle that counts its open transactions: `Begin` and `Commit`
succeed, `Rollback` closes the transaction. -/
def countingDB : sqlDB Int String where
  Begin := fun s => (s + 1, none)
  Commit := fun s => (s - 1, .nil)
  Rollback := fun s => s - 1

/-- A database handle whose `Commit` fails. -/
def failingCommitDB : sqlDB Int String where
  Begin := fun s => (s + 1, none)
  Commit := fun s => (s, .err "commit failed")
  Rollback := fun s => s - 1

/-- A database handle whose `Begin` fails. -/
def failingBeginDB : sqlDB Int String where
  Begin := fun s => (s, some "no connection")
  Commit := fun s => (s - 1, .nil)
  Rollback := fun s => s - 1

/-! ## orm.go: unmarshalRows -/

/-- `Deref` of `orm.go` on the type of a value: every pointer layer removed. -/
def Value.Deref : Value → Value
  | .ptr _ target => target.Deref
  | v => v

/-- A slice as `unmarshalRows` sees it: `elem` stands for the element type
`rte.Elem()` (any value of that type), `items` are the elements (`none`: the
nil slice). -/
structure SliceValue where
  elem : Value
  items : Option (List Value)
deriving DecidableEq, Repr

/-- The destination of `unmarshalRows`: the value `v` held by the interface,
and, for a pointer to a slice (a target of kind `Slice`), the slice it points
to. -/
structure RowsDest where
  v : Option Value
  slice : SliceValue
deriving DecidableEq, Repr

/-- Flags of the pointer `reflect.New(base)`. -/
def Flag.new : Flag where
  flagAddr := false
  flagStickyRO := false
  flagEmbedRO := false

/-- A call made on the cursor by `unmarshalRows`, with what it returned. -/
inductive Event where
  | next (more : Bool)
  | columns (columns : Except CursorError (List String))
  | scan (slots : List Slot) (stored : List (Option Val)) (err : Option CursorError)

/-- The variables of the loops of `unmarshalRows`: the elements of the slice
`rve`, the cursor, and the calls made so far. -/
structure RowsState (σ : Type) where
  items : Option (List Value)
  cursor : σ
  events : List Event

/-- What a call of `unmarshalRows` leaves behind. -/
structure RowsOutcome (σ : Type) where
  dest : RowsDest
  cursor : σ
  result : Res Unit
  events : List Event

/-- The closure `appendFn` of `unmarshalRows` on the pointer `item`: the new
elements of the slice.  `reflect.Append` panics when the type of the appended
value is not the element type, as for a slice of pointers to pointers. -/
def appendFn (elem : Value) (items : Option (List Value)) (item : Value) :
    Res (Option (List Value)) :=
  match elem with
  | .ptr _ target =>
    -- rve.Set(reflect.Append(rve, item))
    if target.Kind == .Ptr then .panic else .ok (some (items.getD [] ++ [item]))
  | _ =>
    -- rve.Set(reflect.Append(rve, reflect.Indirect(item)))
    match item with
    | .ptr false target => .ok (some (items.getD [] ++ [target]))
    | .ptr true _ => .panic
    | other => .ok (some (items.getD [] ++ [other]))

/-- The closure `fillFn` of `unmarshalRows` on the pointer `value`. -/
def fillFn {σ : Type} (scanner : rowsScanner σ) (elem : Value) (value : Value)
    (st : RowsState σ) : RowsState σ × Res Unit :=
  -- scanner.Scan(value): the slot is the pointer `value`, the address of its target
  let sc := scanner.Scan st.cursor [.addr [.elem]]
  let st1 : RowsState σ :=
    { st with cursor := sc.1, events := st.events ++ [.scan [.addr [.elem]] sc.2.1 sc.2.2] }
  match sc.2.2 with
  | some err => (st1, .err (.cursor err))
  | none =>
    match appendFn elem st.items (applyScan value [.addr [.elem]] sc.2.1) with
    | .ok items => ({ st1 with items := items }, .ok ())
    | .err e => (st1, .err e)
    | .panic => (st1, .panic)

/-- The body of the loop of `unmarshalRows` over the rows of a slice of
structs. -/
def structRow {σ : Type} (U : Unicode) (scanner : rowsScanner σ) (elem base : Value)
    (columns : List String) (strict : Bool) (st : RowsState σ) : RowsState σ × Res Unit :=
  let value := Value.ptr false base.zero
  let m := mapStructFieldsIntoSlice U value Flag.new columns strict
  match m.2 with
  | .err err => (st, .err err)
  | .panic => (st, .panic)
  | .ok values =>
    let sc := scanner.Scan st.cursor values
    let st1 : RowsState σ :=
      { st with cursor := sc.1, events := st.events ++ [.scan values sc.2.1 sc.2.2] }
    match sc.2.2 with
    | some err => (st1, .err (.cursor err))
    | none =>
      match appendFn elem st.items (applyScan m.1 values sc.2.1) with
      | .ok items => ({ st1 with items := items }, .ok ())
      | .err e => (st1, .err e)
      | .panic => (st1, .panic)

/-- The loop `for scanner.Next() { body }` followed by `return nil`; `body`
returns an error to leave the loop.  Every row visited takes one unit of
`fuel`; the result is `none` when the fuel runs out. -/
def forNext {σ : Type} (scanner : rowsScanner σ)
    (body : RowsState σ → RowsState σ × Res Unit) :
    Nat → RowsState σ → Option (RowsState σ × Res Unit)
  | 0, st =>
    let n := scanner.Next st.cursor
    if !n.2 then some ({ st with cursor := n.1, events := st.events ++ [.next n.2] }, .ok ())
    else none
  | fuel + 1, st =>
    let n := scanner.Next st.cursor
    let st1 : RowsState σ := { st with cursor := n.1, events := st.events ++ [.next n.2] }
    if !n.2 then some (st1, .ok ())
    else
      let r := body st1
      match r.2 with
      | .ok _ => forNext scanner body fuel r.1
      | .err err => some (r.1, .err err)
      | .panic => some (r.1, .panic)

/-- The outcome of `unmarshalRows` when a loop ends in the state `r.1`. -/
def RowsOutcome.ofLoop {σ : Type} (d : RowsDest) (r : RowsState σ × Res Unit) :
    RowsOutcome σ :=
  { dest := { d with slice := { d.slice with items := r.1.items } }, cursor := r.1.cursor,
    result := r.2, events := r.1.events }

/-- `unmarshalRows` of `orm.go`: `d` is the destination held by the interface
`v`, `s` the state of `scanner`. -/
def unmarshalRows {σ : Type} (U : Unicode) (d : RowsDest) (scanner : rowsScanner σ)
    (s : σ) (strict : Bool) (fuel : Nat) : Option (RowsOutcome σ) :=
  match ValidatePtr d.v with
  | some err => some { dest := d, cursor := s, result := .err err, events := [] }
  | none =>
    match d.v with
    | some (.ptr false rve) =>
      if !Flag.root.CanSet then
        some { dest := d, cursor := s, result := .err .ErrNotSettable, events := [] }
      else if rve.Kind = .Slice then
        let elem := d.slice.elem
        let base := elem.Deref
        if isScalarKind base.Kind then
          (forNext scanner (fillFn scanner elem (.ptr false base.zero)) fuel
            { items := d.slice.items, cursor := s, events := [] }).map (RowsOutcome.ofLoop d)
        else if base.Kind = .Struct then
          let c := scanner.Columns s
          match c.2 with
          | .error err =>
            some { dest := d, cursor := c.1, result := .err (.cursor err),
                   events := [.columns c.2] }
          | .ok columns =>
            (forNext scanner (structRow U scanner elem base columns strict) fuel
              { items := d.slice.items, cursor := c.1, events := [.columns c.2] }).map
              (RowsOutcome.ofLoop d)
        else
          some { dest := d, cursor := s, result := .err .ErrUnsupportedValueType, events := [] }
      else
        some { dest := d, cursor := s, result := .err .ErrUnsupportedValueType, events := [] }
    | _ => some { dest := d, cursor := s, result := .err .notValidPointer, events := [] }

/-- A pointer to a slice whose content is not tracked in `Value`. -/
def slicePtr : Option Value := some (.ptr false (.basic .Slice .null))

/-- The destination `&xs` for `xs` a slice with elements `items` of the type
of `elem`. -/
def RowsDest.ofSlice (elem : Value) (items : Option (List Value)) : RowsDest :=
  { v := slicePtr, slice := { elem := elem, items := items } }

/-- The element `appendFn` adds for the pointer `item`: the pointer itself for
a slice of pointers, a copy of its target for a slice of values. -/
def rowElement (elem item : Value) : Value :=
  match elem with
  | .ptr _ _ => item
  | _ =>
    match item with
    | .ptr false target => target
    | other => other

/-- The elements that the successful calls of `Scan` among `events` give, in
order, each row scanned into a copy of `fresh`. -/
def scannedItems (elem fresh : Value) : List Event → List Value
  | [] => []
  | .scan slots stored none :: rest =>
    rowElement elem (applyScan fresh slots stored) :: scannedItems elem fresh rest
  | _ :: rest => scannedItems elem fresh rest

/-- The value every row is scanned into: `reflect.New(base)`, for a struct
after `mapStructFieldsIntoSlice` has allocated its nil pointer fields. -/
def scanTarget (U : Unicode) (d : RowsDest) (columns : List String) (strict : Bool) : Value :=
  let base := d.slice.elem.Deref
  if base.Kind = .Struct then
    (mapStructFieldsIntoSlice U (.ptr false base.zero) Flag.new columns strict).1
  else .ptr false base.zero

/-- The column names a cursor reports (none when `Columns` fails). -/
def columnsOf {σ : Type} (scanner : rowsScanner σ) (s : σ) : List String :=
  match (scanner.Columns s).2 with
  | .ok columns => columns
  | .error _ => []

/-- The destination `&xs` for `xs` a slice of `struct { Id int; Name string }`
holding the one element `{7, "z"}`. -/
def idNameSlice : RowsDest :=
  RowsDest.ofSlice (.struct idNameFields)
    (some [.struct (idNameFields.setRow [.int 7, .str "z"])])

/-- An in-memory cursor over the columns `id`, `name` with the rows `(1, "a")`
and `(2, "b")`. -/
def twoRows : MemRows :=
  { columns := ["id", "name"], pending := [[.int 1, .str "a"], [.int 2, .str "b"]],
    current := none }

/-- An in-memory cursor over the columns `id`, `name` with no row. -/
def noRows : MemRows := { columns := ["id", "name"], pending := [], current := none }

/-- An in-memory cursor over the columns `id`, `name` whose second row has one
value too many, so that `Scan` fails on it. -/
def badSecondRow : MemRows :=
  { columns := ["id", "name"],
    pending := [[.int 1, .str "a"], [.int 2, .str "b", .int 3], [.int 4, .str "d"]],
    current := none }

/-- The in-memory cursor of a connection that breaks: `Next` returns false and
`Err` reports the failure once the rows received are used up. -/
def brokenRows : rowsScanner MemRows where
  Columns := memRows.Columns
  Err := fun s => (s, if s.pending.isEmpty then some ⟨"driver: bad connection"⟩ else none)
  Next := memRows.Next
  Scan := memRows.Scan

/-! ## The ordered list of leaf fields -/

/-- The ordered leaf-field list in the words of the specification, for the
fields from index `i` on of a record at `loc` with flags `fl`: in declaration
order, the settable fields that are not tagged `-`, an embedded record
replaced in place by its own list, a pointer field replaced by its target. -/
def leafFields : FieldVals → Loc → Flag → Nat → List FieldRef
  | .nil, _, _, _ => []
  | .cons f child rest, loc, fl, i =>
    (if (fl.Field f).CanSet && f.Tag != "-" then
        match child with
        | .ptr _ target =>
          match target with
          | .struct fs =>
            if f.Anonymous then
              leafFields fs (loc ++ [Step.field i, .elem]) (fl.Field f).Elem 0
            else [{ loc := loc ++ [Step.field i, .elem], fl := (fl.Field f).Elem }]
          | _ => [{ loc := loc ++ [Step.field i, .elem], fl := (fl.Field f).Elem }]
        | .struct fs =>
          if f.Anonymous then leafFields fs (loc ++ [Step.field i]) (fl.Field f) 0
          else [{ loc := loc ++ [Step.field i], fl := fl.Field f }]
        | .basic _ _ => [{ loc := loc ++ [Step.field i], fl := fl.Field f }]
      else []) ++ leafFields rest loc fl (i + 1)

/-- `Unwrappable` for the record that `reflect.New` creates for the type of
these fields, every pointer of which is nil: no field that `unwrapFields`
reaches in it is a pointer to a pointer. -/
def UnwrappableFresh : FieldVals → Flag → Bool
  | .nil, _ => true
  | .cons f child rest, fl =>
    (if (fl.Field f).CanSet then
        match child with
        | .ptr _ target =>
          !(target.Kind == .Ptr) &&
            (match target with
              | .struct fs =>
                if f.Tag != "-" && f.Anonymous then UnwrappableFresh fs (fl.Field f).Elem
                else true
              | _ => true)
        | .struct fs =>
          if f.Tag != "-" && f.Anonymous then UnwrappableFresh fs (fl.Field f) else true
        | .basic _ _ => true
      else true) && UnwrappableFresh rest fl

/-- No field that `unwrapFields` reaches is a nil pointer to a pointer: the
settable fields of the record, and those of its embedded records that are
settable and not tagged `-` (an embedded record behind a nil pointer is the
one `reflect.New` creates). -/
def Unwrappable : FieldVals → Flag → Bool
  | .nil, _ => true
  | .cons f child rest, fl =>
    (if (fl.Field f).CanSet then
        match child with
        | .ptr isNil target =>
          !(isNil && target.Kind == .Ptr) &&
            (match target with
              | .struct fs =>
                if f.Tag != "-" && f.Anonymous then
                  if isNil then UnwrappableFresh fs (fl.Field f).Elem
                  else Unwrappable fs (fl.Field f).Elem
                else true
              | _ => true)
        | .struct fs =>
          if f.Tag != "-" && f.Anonymous then Unwrappable fs (fl.Field f) else true
        | .basic _ _ => true
      else true) && Unwrappable rest fl

/-- The fields of `struct { Id int; secret string; *Base }` with `Base` the
struct `{ Id int; Name string }` and the embedded pointer nil. -/
def mixedFields : FieldVals :=
  .cons ⟨"Id", true, "", false⟩ (.basic .Int (.int 0))
    (.cons ⟨"secret", false, "", false⟩ (.basic .String (.str ""))
      (.cons ⟨"Base", true, "", true⟩ (.ptr true (.struct idNameFields)) .nil))

/-- Every field of the record holds a leaf of a basic kind (no pointer, no
struct). -/
def FieldVals.Scalars : FieldVals → Bool
  | .nil => true
  | .cons _ child rest =>
    (match child with
      | .basic _ _ => true
      | _ => false) && rest.Scalars

/-- The fields of `struct { Id int; secret string }`. -/
def unexportedFields : FieldVals :=
  .cons ⟨"Id", true, "", false⟩ (.basic .Int (.int 0))
    (.cons ⟨"secret", false, "", false⟩ (.basic .String (.str "")) .nil)

/-! ## Column names -/

/-- A lower-case ASCII letter. -/
def isLowerLetter (c : Char) : Bool := decide ('a'.toNat ≤ c.toNat ∧ c.toNat ≤ 'z'.toNat)

/-- An ASCII digit. -/
def isAsciiDigit (c : Char) : Bool := decide ('0'.toNat ≤ c.toNat ∧ c.toNat ≤ '9'.toNat)

/-- A segment of a column name: a lower-case ASCII letter followed by
lower-case ASCII letters and digits. -/
def IsSegment : List Char → Bool
  | [] => false
  | c :: cs => isLowerLetter c && cs.all fun d => isLowerLetter d || isAsciiDigit d

/-- A column name: one or more segments separated by single underscores. -/
def IsColumnName (s : String) : Bool := (s.toList.splitOn '_').all IsSegment

/-- The tables `U` agree with those of ASCII on every ASCII rune, as the
tables of Go's `unicode` package do. -/
def Unicode.AgreesOnAscii (U : Unicode) : Prop :=
  ∀ c : Char, c.toNat < 128 →
    U.IsUpper c = ascii.IsUpper c ∧ U.ToLower c = ascii.ToLower c

/-- What a cursor delivers to a caller that scans every row through the same
slots: the values stored by each successful `Scan`, in cursor order, the
cursor afterwards, and how the run ended. -/
structure RowsRun (σ : Type) where
  rows : List (List (Option Val))
  cursor : σ
  result : Res Unit

/-- The rows of a cursor, in the words of the specification: while `Next`
returns true the row is bound and scanned; `slots` are the slots of the
binding (an error or a panic when the binding fails, which then happens on the
first row); the run stops at the first row on which the binding or `Scan`
fails, keeping the rows scanned before; it ends with success when `Next`
returns false.  One unit of `fuel` per row; `none` when the fuel runs out. -/
def cursorRows {σ : Type} (scanner : rowsScanner σ) (slots : Res (List Slot)) :
    Nat → σ → Option (RowsRun σ)
  | 0, s =>
    let n := scanner.Next s
    if !n.2 then some { rows := [], cursor := n.1, result := .ok () } else none
  | fuel + 1, s =>
    let n := scanner.Next s
    if !n.2 then some { rows := [], cursor := n.1, result := .ok () }
    else
      match slots with
      | .err e => some { rows := [], cursor := n.1, result := .err e }
      | .panic => some { rows := [], cursor := n.1, result := .panic }
      | .ok values =>
        let sc := scanner.Scan n.1 values
        match sc.2.2 with
        | some err => some { rows := [], cursor := sc.1, result := .err (.cursor err) }
        | none =>
          (cursorRows scanner slots fuel sc.1).map fun r => { r with rows := sc.2.1 :: r.rows }

/-- The binding `unmarshalRows` makes for every row of `d`: the slot of the
fresh value for a slice of scalars, the slots `mapStructFieldsIntoSlice` gives
for the fresh record for a slice of structs. -/
def rowSlots (U : Unicode) (d : RowsDest) (columns : List String) (strict : Bool) :
    Res (List Slot) :=
  let base := d.slice.elem.Deref
  if base.Kind = .Struct then
    (mapStructFieldsIntoSlice U (.ptr false base.zero) Flag.new columns strict).2
  else .ok [.addr [.elem]]
/-! ## Theorems -/

/-! ### Auxiliary lemmas -/

theorem get_filter_ne (m : TaggedMap) (k k' : String) (h : k' ≠ k) :
    (m.filter fun e => e.1 != k).lookup k' = m.lookup k' := by
  induction m with
  | nil => rfl
  | cons e t ih =>
    obtain ⟨a, b⟩ := e
    by_cases hak : a = k
    · subst hak
      have : (k' == a) = false := by simpa using h
      simp [List.filter_cons, List.lookup_cons, this, ih]
    · have h1 : (a != k) = true := by simpa using hak
      simp only [List.filter_cons, h1, if_true, List.lookup_cons, ih]

theorem get_set (m : TaggedMap) (k k' : String) (v : Slot) :
    (m.set k v).get k' = if k' = k then some v else m.get k' := by
  unfold TaggedMap.set TaggedMap.get
  by_cases h : k' = k
  · subst h; simp [List.lookup_cons]
  · have : (k' == k) = false := by simpa using h
    simp [List.lookup_cons, this, h, get_filter_ne m k k' h]

theorem nodupKeys_set (m : TaggedMap) (k : String) (v : Slot) (h : NodupKeys m) :
    NodupKeys (m.set k v) := by
  unfold NodupKeys TaggedMap.set at *
  simp only [List.map_cons, List.nodup_cons]
  constructor
  · simp [List.mem_map, List.mem_filter]
  · exact (h.sublist (List.Sublist.map _ (List.filter_sublist _)))

theorem lookup_none_of_not_mem (m : TaggedMap) (k : String) (h : k ∉ m.map Prod.fst) :
    m.lookup k = none := by
  induction m with
  | nil => rfl
  | cons e t ih =>
    obtain ⟨a, b⟩ := e
    simp only [List.map_cons, List.mem_cons, not_or] at h
    have : (k == a) = false := by simpa using h.1
    simp [List.lookup_cons, this, ih h.2]

theorem merge_spec (inner : TaggedMap) : ∀ (result : TaggedMap), NodupKeys inner →
    NodupKeys result →
    NodupKeys (result.merge inner) ∧
    ∀ k, (result.merge inner).get k =
      match inner.get k with
      | some a => some a
      | none => result.get k := by
  induction inner with
  | nil => intro result _ hr; exact ⟨hr, fun k => rfl⟩
  | cons e t ih =>
    intro result hi hr
    obtain ⟨a, b⟩ := e
    have hi' : a ∉ t.map Prod.fst ∧ NodupKeys t := by
      simpa [NodupKeys] using hi
    obtain ⟨h1, h2⟩ := ih (result.set a b) hi'.2 (nodupKeys_set result a b hr)
    refine ⟨h1, fun k => ?_⟩
    have := h2 k
    simp only [TaggedMap.merge, List.foldl_cons] at this ⊢
    rw [this, get_set]
    simp only [TaggedMap.get, List.lookup_cons]
    by_cases hk : k = a
    · subst hk
      simp [lookup_none_of_not_mem t k hi'.1]
    · have : (k == a) = false := by simpa using hk
      simp [this, hk]

theorem getValueInterface_ok (value : Value) (loc : Loc) (fl : Flag) (v' : Value) (a : Slot)
    (h : getValueInterface value loc fl = (v', .ok a)) : a = leafSlot value loc := by
  unfold getValueInterface at h
  cases value with
  | basic k d =>
    simp only at h
    split at h <;> simp_all [leafSlot]
  | struct fs =>
    simp only at h
    split at h <;> simp_all [leafSlot]
  | ptr n t =>
    simp only at h
    split at h
    · simp_all
    · split at h
      · split at h <;> simp_all [leafSlot]
      · simp_all [leafSlot]

theorem lastEntry_append (a b : List (String × Slot)) (k : String) :
    lastEntry (a ++ b) k = (lastEntry b k).or (lastEntry a k) := by
  simp [lastEntry, List.reverse_append, List.lookup_append]

theorem Value.induct_both (P : Value → Prop) (Q : FieldVals → Prop)
    (hb : ∀ k d, P (.basic k d)) (hp : ∀ n t, P t → P (.ptr n t))
    (hs : ∀ fs, Q fs → P (.struct fs)) (hn : Q .nil)
    (hc : ∀ f v rest, P v → Q rest → Q (.cons f v rest)) :
    (∀ v, P v) ∧ (∀ fs, Q fs) :=
  ⟨fun v => @Value.rec P Q hb hp hs hn hc v, fun fs => @FieldVals.rec P Q hb hp hs hn hc fs⟩

theorem ok_of_snd {α β : Type} {x : α × Res β} {m : β} (h : x.2 = .ok m) :
    x = (x.1, .ok m) := Prod.ext rfl h

theorem getTagged_spec_both (U : Unicode) :
    (∀ (v : Value) (loc : Loc) (fl : Flag) (m : TaggedMap),
      (getTaggedFieldValueMap U v loc fl).2 = .ok m →
      NodupKeys m ∧ ∀ k, m.get k = lastEntry (flatCatalog U v loc) k) ∧
    (∀ (fs : FieldVals) (loc : Loc) (fl : Flag) (i : Nat) (result : TaggedMap) (m : TaggedMap),
      (getTaggedLoop U fs loc fl i result).2 = .ok m → NodupKeys result →
      NodupKeys m ∧
      ∀ k, m.get k = (lastEntry (flatCatalogFields U fs loc i) k).or (result.get k)) := by
  apply Value.induct_both
  · intro k d loc fl m h
    simp [getTaggedFieldValueMap] at h
  · intro n t ih loc fl m h
    cases t with
    | basic k d => simp [getTaggedFieldValueMap, Value.DerefNumField] at h
    | ptr n2 t2 =>
      simp only [getTaggedFieldValueMap] at h
      split at h
      · simp at h
      · simp only [Res.ok.injEq] at h
        subst h
        exact ⟨by simp [NodupKeys], fun k => by simp [flatCatalog, lastEntry, TaggedMap.get]⟩
      · split at h <;> simp at h
    | struct fs =>
      simp only [getTaggedFieldValueMap] at h
      split at h
      · simp at h
      · rename_i h0
        simp only [Res.ok.injEq] at h
        subst h
        refine ⟨by simp [NodupKeys], fun k => ?_⟩
        cases fs with
        | nil => simp [flatCatalog, flatCatalogFields, lastEntry, TaggedMap.get]
        | cons _ _ _ => simp [Value.DerefNumField, FieldVals.length] at h0
      · split at h
        · simp at h
        · have := ih (loc ++ [.elem]) fl.Elem m (by simpa [getTaggedFieldValueMap] using h)
          simpa [flatCatalog] using this
  · intro fs ih loc fl m h
    simp only [getTaggedFieldValueMap] at h
    have := ih loc fl 0 [] m h (by simp [NodupKeys])
    refine ⟨this.1, fun k => ?_⟩
    rw [this.2 k]
    simp [flatCatalog, TaggedMap.get]
  · intro loc fl i result m h hr
    simp only [getTaggedLoop, Res.ok.injEq] at h
    subst h
    exact ⟨hr, fun k => by simp [flatCatalogFields, lastEntry]⟩
  · intro f child rest ihc ihr loc fl i result m h hr
    simp only [getTaggedLoop] at h
    split at h
    · rename_i hc
      split at h
      · rename_i inner hin
        have hI := ihc (loc ++ [Step.field i]) (fl.Field f) inner hin
        have hM := merge_spec inner result hI.1 hr
        have hR := ihr loc fl (i + 1) (result.merge inner) m h hM.1
        refine ⟨hR.1, fun k => ?_⟩
        rw [hR.2 k, hM.2 k, hI.2 k]
        simp only [flatCatalogFields, hc, if_true, lastEntry_append]
        cases lastEntry (flatCatalogFields U rest loc (i + 1)) k <;>
          cases lastEntry (flatCatalog U child (loc ++ [Step.field i])) k <;> simp
      · simp at h
      · simp at h
    · rename_i hc
      split at h
      · rename_i a ha
        have hA := getValueInterface_ok _ _ _ _ _ (ok_of_snd ha)
        have hR := ihr loc fl (i + 1) _ m h (nodupKeys_set result _ a hr)
        refine ⟨hR.1, fun k => ?_⟩
        rw [hR.2 k, get_set]
        simp only [flatCatalogFields, hc, lastEntry_append]
        cases lastEntry (flatCatalogFields U rest loc (i + 1)) k
        · by_cases hk : k = fieldKey U f
          · subst hk; simp [lastEntry, List.lookup_cons, hA]
          · have : (k == fieldKey U f) = false := by simpa using hk
            simp [lastEntry, List.lookup_cons, hk, this]
        · simp
      · simp at h
      · simp at h

/-- Reading a location after modifying it. -/
theorem load_modify_both (g : Value → Value) :
    (∀ (v : Value) (l : Loc), (v.modify g l).load l = (v.load l).map g) ∧
    (∀ (fs : FieldVals) (i : Nat) (l : Loc), (fs.modify g i l).load i l = (fs.load i l).map g) := by
  apply Value.induct_both
  · intro k d l
    cases l with
    | nil => simp [Value.modify, Value.load]
    | cons s l => cases s <;> simp [Value.modify, Value.load]
  · intro n t ih l
    cases l with
    | nil => simp [Value.modify, Value.load]
    | cons s l =>
      cases s with
      | field i => simp [Value.modify, Value.load]
      | elem => cases n <;> simp [Value.modify, Value.load, ih]
  · intro fs ih l
    cases l with
    | nil => simp [Value.modify, Value.load]
    | cons s l =>
      cases s with
      | field i => simp [Value.modify, Value.load, ih]
      | elem => simp [Value.modify, Value.load]
  · intro i l
    simp [FieldVals.modify, FieldVals.load]
  · intro f v rest ihv ihr i l
    cases i with
    | zero => simp [FieldVals.modify, FieldVals.load, ihv]
    | succ i => simp [FieldVals.modify, FieldVals.load, ihr]

/-- A store elsewhere does not change the content of a leaf. -/
theorem load_store_other_both (x : Val) :
    (∀ (v : Value) (l l0 : Loc) (k : BasicKind) (d : Val), l0 ≠ l →
      v.load l = some (.basic k d) →
      (v.modify (Value.withData x) l0).load l = some (.basic k d)) ∧
    (∀ (fs : FieldVals) (i i0 : Nat) (l l0 : Loc) (k : BasicKind) (d : Val),
      (i0 ≠ i ∨ l0 ≠ l) → fs.load i l = some (.basic k d) →
      (fs.modify (Value.withData x) i0 l0).load i l = some (.basic k d)) := by
  apply Value.induct_both
  · intro k d l l0 k' d' hne h
    cases l with
    | nil =>
      cases l0 with
      | nil => exact absurd rfl hne
      | cons s l0 => cases s <;> simpa [Value.modify] using h
    | cons s l => cases s <;> simp [Value.load] at h
  · intro n t ih l l0 k d hne h
    cases l with
    | nil => simp [Value.load] at h
    | cons s l =>
      cases s with
      | field i => simp [Value.load] at h
      | elem =>
        cases n with
        | true => simp [Value.load] at h
        | false =>
          simp only [Value.load] at h
          cases l0 with
          | nil => simpa [Value.modify, Value.withData, Value.load] using h
          | cons s0 l0 =>
            cases s0 with
            | field i => simpa [Value.modify, Value.load] using h
            | elem =>
              simp only [Value.modify, Value.load]
              exact ih l l0 k d (by simpa using hne) h
  · intro fs ih l l0 k d hne h
    cases l with
    | nil => simp [Value.load] at h
    | cons s l =>
      cases s with
      | elem => simp [Value.load] at h
      | field i =>
        simp only [Value.load] at h
        cases l0 with
        | nil => simpa [Value.modify, Value.withData, Value.load] using h
        | cons s0 l0 =>
          cases s0 with
          | elem => simpa [Value.modify, Value.load] using h
          | field i0 =>
            simp only [Value.modify, Value.load]
            refine ih i i0 l l0 k d ?_ h
            by_cases hi : i0 = i
            · right; intro hl; exact hne (by rw [hi, hl])
            · left; exact hi
  · intro i i0 l l0 k d _ h
    simp [FieldVals.load] at h
  · intro f v rest ihv ihr i i0 l l0 k d hne h
    cases i with
    | zero =>
      simp only [FieldVals.load] at h
      cases i0 with
      | zero =>
        simp only [FieldVals.modify, FieldVals.load]
        exact ihv l l0 k d (by simpa using hne) h
      | succ i0 => simpa [FieldVals.modify, FieldVals.load] using h
    | succ i =>
      simp only [FieldVals.load] at h
      cases i0 with
      | zero => simpa [FieldVals.modify, FieldVals.load] using h
      | succ i0 =>
        simp only [FieldVals.modify, FieldVals.load]
        exact ihr i i0 l l0 k d (by simpa using hne) h

theorem applyScan_frame (slots : List Slot) : ∀ (v : Value) (xs : List (Option Val)) (l : Loc)
    (k : BasicKind) (d : Val), v.load l = some (.basic k d) → Slot.addr l ∉ slots →
    (applyScan v slots xs).load l = some (.basic k d) := by
  induction slots with
  | nil => intro v xs l k d h _; simpa [applyScan] using h
  | cons s slots ih =>
    intro v xs l k d h hn
    simp only [List.mem_cons, not_or] at hn
    cases xs with
    | nil => cases s <;> simpa [applyScan] using h
    | cons x xs =>
      cases s with
      | anonymous i => cases x <;> simpa [applyScan] using ih v xs l k d h hn.2
      | addr l0 =>
        cases x with
        | none => simpa [applyScan] using ih v xs l k d h hn.2
        | some x =>
          simp only [applyScan]
          refine ih _ xs l k d ?_ hn.2
          exact (load_store_other_both x).1 v l l0 k d (fun e => hn.1 (by rw [e])) h

theorem getValueInterface_load (value : Value) (loc : Loc) (fl : Flag) (l : Loc)
    (k : BasicKind) (d : Val) (h : value.load l = some (.basic k d)) :
    (getValueInterface value loc fl).1.load l = some (.basic k d) := by
  unfold getValueInterface
  cases value with
  | basic _ _ => simp only; split <;> exact h
  | struct _ => simp only; split <;> exact h
  | ptr n t =>
    simp only
    split
    · exact h
    · split
      · split
        · exact h
        · rename_i hn _
          subst hn
          cases l with
          | nil => simp [Value.load] at h
          | cons s l => cases s <;> simp [Value.load] at h
      · exact h

theorem getTagged_load_both (U : Unicode) :
    (∀ (v : Value) (loc : Loc) (fl : Flag) (l : Loc) (k : BasicKind) (d : Val),
      v.load l = some (.basic k d) →
      (getTaggedFieldValueMap U v loc fl).1.load l = some (.basic k d)) ∧
    (∀ (fs : FieldVals) (loc : Loc) (fl : Flag) (i : Nat) (result : TaggedMap) (j : Nat)
      (l : Loc) (k : BasicKind) (d : Val),
      fs.load j l = some (.basic k d) →
      (getTaggedLoop U fs loc fl i result).1.load j l = some (.basic k d)) := by
  apply Value.induct_both
  · intro k d loc fl l k' d' h
    simpa [getTaggedFieldValueMap] using h
  · intro n t ih loc fl l k d h
    cases t with
    | basic _ _ => simpa [getTaggedFieldValueMap, Value.DerefNumField] using h
    | ptr _ _ =>
      simp only [getTaggedFieldValueMap]
      split
      · exact h
      · exact h
      · split <;> exact h
    | struct fs =>
      simp only [getTaggedFieldValueMap]
      split
      · exact h
      · exact h
      · split
        · exact h
        · rename_i hn
          have hn' : n = false := by simpa using hn
          subst hn'
          cases l with
          | nil => simp [Value.load] at h
          | cons s l =>
            cases s with
            | field _ => simp [Value.load] at h
            | elem =>
              simp only [Value.load] at h ⊢
              have := ih (loc ++ [.elem]) fl.Elem l k d h
              simpa [getTaggedFieldValueMap] using this
  · intro fs ih loc fl l k d h
    simp only [getTaggedFieldValueMap]
    cases l with
    | nil => simp [Value.load] at h
    | cons s l =>
      cases s with
      | elem => simp [Value.load] at h
      | field j =>
        simp only [Value.load] at h ⊢
        exact ih loc fl 0 [] j l k d h
  · intro loc fl i result j l k d h
    simp [FieldVals.load] at h
  · intro f child rest ihc ihr loc fl i result j l k d h
    simp only [getTaggedLoop]
    split
    · split
      all_goals
        cases j with
        | zero =>
          simp only [FieldVals.load] at h ⊢
          exact ihc _ _ l k d h
        | succ j =>
          simp only [FieldVals.load] at h ⊢
          first
          | exact ihr _ _ _ _ j l k d h
          | exact h
    · split
      all_goals
        cases j with
        | zero =>
          simp only [FieldVals.load] at h ⊢
          exact getValueInterface_load _ _ _ l k d h
        | succ j =>
          simp only [FieldVals.load] at h ⊢
          first
          | exact ihr _ _ _ _ j l k d h
          | exact h

theorem load_ptr_elem (n : Bool) (t : Value) (l : Loc) (k : BasicKind) (d : Val)
    (h : (Value.ptr n t).load l = some (.basic k d)) :
    n = false ∧ ∃ l', l = .elem :: l' ∧ t.load l' = some (.basic k d) := by
  cases l with
  | nil => simp [Value.load] at h
  | cons s l =>
    cases s with
    | field _ => simp [Value.load] at h
    | elem =>
      cases n with
      | true => simp [Value.load] at h
      | false => exact ⟨rfl, l, rfl, by simpa [Value.load] using h⟩

theorem load_struct_field (fs : FieldVals) (l : Loc) (k : BasicKind) (d : Val)
    (h : (Value.struct fs).load l = some (.basic k d)) :
    ∃ j l', l = .field j :: l' ∧ fs.load j l' = some (.basic k d) := by
  cases l with
  | nil => simp [Value.load] at h
  | cons s l =>
    cases s with
    | elem => simp [Value.load] at h
    | field j => exact ⟨j, l, rfl, by simpa [Value.load] using h⟩

theorem unwrapFields_load_both :
    (∀ (v : Value) (loc : Loc) (fl : Flag) (l : Loc) (k : BasicKind) (d : Val),
      v.load l = some (.basic k d) →
      (unwrapFields v loc fl).1.load l = some (.basic k d)) ∧
    (∀ (fs : FieldVals) (loc : Loc) (fl : Flag) (i : Nat) (j : Nat)
      (l : Loc) (k : BasicKind) (d : Val),
      fs.load j l = some (.basic k d) →
      (unwrapFieldsLoop fs loc fl i).1.load j l = some (.basic k d)) := by
  apply Value.induct_both
  · intro k d loc fl l k' d' h
    simpa [unwrapFields] using h
  · intro n t ih loc fl l k d h
    obtain ⟨hn, l', rfl, h'⟩ := load_ptr_elem n t l k d h
    subst hn
    cases t with
    | basic _ _ => simpa [unwrapFields] using h
    | ptr _ _ => simpa [unwrapFields] using h
    | struct fs =>
      have := ih (loc ++ [.elem]) fl.Elem l' k d h'
      simpa [unwrapFields, Value.load] using this
  · intro fs ih loc fl l k d h
    obtain ⟨j, l', rfl, h'⟩ := load_struct_field fs l k d h
    simpa [unwrapFields, Value.load] using ih loc fl 0 j l' k d h'
  · intro loc fl i j l k d h
    simp [FieldVals.load] at h
  · intro f child rest ihc ihr loc fl i j l k d h
    cases j with
    | succ j =>
      simp only [FieldVals.load] at h
      have hr := ihr loc fl (i + 1) j l k d h
      cases child with
      | basic _ _ =>
        simp only [unwrapFieldsLoop]
        repeat' split
        all_goals exact hr
      | struct _ =>
        simp only [unwrapFieldsLoop]
        repeat' split
        all_goals first | exact hr | exact h
      | ptr _ _ =>
        simp only [unwrapFieldsLoop]
        repeat' split
        all_goals first | exact hr | exact h
    | zero =>
      simp only [FieldVals.load] at h
      cases child with
      | basic _ _ =>
        simp only [unwrapFieldsLoop]
        repeat' split
        all_goals exact h
      | struct fs =>
        obtain ⟨j', l', rfl, h'⟩ := load_struct_field fs l k d h
        have hc := ihc (loc ++ [Step.field i]) (fl.Field f) (.field j' :: l') k d h
        simp only [unwrapFields] at hc
        simp only [unwrapFieldsLoop]
        repeat' split
        all_goals first | exact hc | exact h
      | ptr n t =>
        obtain ⟨hn, l', rfl, h'⟩ := load_ptr_elem n t l k d h
        subst hn
        have hc := ihc (loc ++ [Step.field i]) (fl.Field f) (.elem :: l') k d h
        cases t with
        | basic _ _ =>
          simp only [unwrapFieldsLoop, Bool.false_eq_true, if_false]
          repeat' split
          all_goals exact h
        | ptr _ _ =>
          simp only [unwrapFieldsLoop, Bool.false_eq_true, if_false]
          repeat' split
          all_goals first | exact h | simp_all [Value.Kind]
        | struct fs =>
          simp only [unwrapFields, Bool.false_eq_true, if_false] at hc
          simp only [unwrapFieldsLoop, unwrapFields, Bool.false_eq_true, if_false]
          repeat' split
          all_goals first | exact hc | exact h

theorem getValueInterface_valid (value : Value) (loc : Loc) (fl : Flag) (a : Slot)
    (h : (getValueInterface value loc fl).2 = .ok a) :
    ∃ rel, a = .addr (loc ++ rel) ∧ ∃ t, (getValueInterface value loc fl).1.load rel = some t := by
  unfold getValueInterface at h ⊢
  cases value with
  | basic k d =>
    simp only at h ⊢
    split at h
    · simp at h
    · rename_i hc
      simp only [Res.ok.injEq] at h
      exact ⟨[], by simp [h], by simp [hc, Value.load]⟩
  | struct fs =>
    simp only at h ⊢
    split at h
    · simp at h
    · rename_i hc
      simp only [Res.ok.injEq] at h
      exact ⟨[], by simp [h], by simp [hc, Value.load]⟩
  | ptr n t =>
    simp only at h ⊢
    split at h
    · simp at h
    · rename_i h1
      split at h
      · rename_i h2
        split at h
        · simp at h
        · rename_i h3
          simp only [Res.ok.injEq] at h
          exact ⟨[.elem], by simp [h], by simp [h1, h2, h3, Value.load]⟩
      · rename_i h2
        simp only [Res.ok.injEq] at h
        have h2' : n = false := by simpa using h2
        subst h2'
        exact ⟨[.elem], by simp [h], by simp [h1, Value.load]⟩

theorem getTagged_valid_both (U : Unicode) :
    (∀ (v : Value) (loc : Loc) (fl : Flag) (m : TaggedMap),
      (getTaggedFieldValueMap U v loc fl).2 = .ok m →
      ∀ e ∈ flatCatalog U v loc, ∃ rel, e.2 = .addr (loc ++ rel) ∧
        ∃ t, (getTaggedFieldValueMap U v loc fl).1.load rel = some t) ∧
    (∀ (fs : FieldVals) (loc : Loc) (fl : Flag) (i : Nat) (result : TaggedMap) (m : TaggedMap),
      (getTaggedLoop U fs loc fl i result).2 = .ok m →
      ∀ e ∈ flatCatalogFields U fs loc i, ∃ j rel, e.2 = .addr (loc ++ .field (i + j) :: rel) ∧
        ∃ t, (getTaggedLoop U fs loc fl i result).1.load j rel = some t) := by
  apply Value.induct_both
  · intro k d loc fl m h
    simp [getTaggedFieldValueMap] at h
  · intro n t ih loc fl m h e he
    cases t with
    | basic k d => simp [flatCatalog] at he
    | ptr n2 t2 => simp [flatCatalog] at he
    | struct fs =>
      simp only [flatCatalog] at he
      simp only [getTaggedFieldValueMap] at h ⊢
      split at h
      · simp at h
      · rename_i h0
        cases fs with
        | nil => simp [flatCatalogFields] at he
        | cons _ _ _ => simp [Value.DerefNumField, FieldVals.length] at h0
      · split at h
        · simp at h
        · rename_i hn
          have hn' : n = false := by simpa using hn
          subst hn'
          have := ih (loc ++ [.elem]) fl.Elem m (by simpa [getTaggedFieldValueMap] using h) e
            (by simpa [flatCatalog] using he)
          obtain ⟨rel, h1, t, h2⟩ := this
          simp only [getTaggedFieldValueMap] at h2
          exact ⟨.elem :: rel, by simpa using h1, t, by simpa [Value.load] using h2⟩
  · intro fs ih loc fl m h e he
    simp only [getTaggedFieldValueMap] at h ⊢
    simp only [flatCatalog] at he
    obtain ⟨j, rel, h1, t, h2⟩ := ih loc fl 0 [] m h e he
    exact ⟨.field j :: rel, by simpa using h1, t, by simpa [Value.load] using h2⟩
  · intro loc fl i result m h e he
    simp [flatCatalogFields] at he
  · intro f child rest ihc ihr loc fl i result m h e he
    simp only [getTaggedLoop] at h ⊢
    simp only [flatCatalogFields] at he
    split at h
    · rename_i hc
      simp only [hc, if_true, List.mem_append] at he ⊢
      split at h
      · rename_i inner hin
        rcases he with he | he
        · obtain ⟨rel, h1, t, h2⟩ := ihc (loc ++ [Step.field i]) (fl.Field f) inner hin e he
          exact ⟨0, rel, by simpa using h1, t, by simpa [FieldVals.load] using h2⟩
        · obtain ⟨j, rel, h1, t, h2⟩ := ihr loc fl (i + 1) _ m h e he
          exact ⟨j + 1, rel, by rw [h1, Nat.add_assoc, Nat.add_comm 1 j], t, by simpa [FieldVals.load] using h2⟩
      · simp at h
      · simp at h
    · rename_i hc
      simp only [hc, List.mem_append] at he ⊢
      split at h
      · rename_i a ha
        rcases he with he | he
        · simp only [Bool.false_eq_true, if_false, List.mem_singleton] at he
          obtain ⟨rel, h1, t, h2⟩ := getValueInterface_valid _ _ _ a ha
          have hA := getValueInterface_ok _ _ _ _ _ (ok_of_snd ha)
          subst he
          exact ⟨0, rel, by simpa [← hA] using h1, t, by simpa [FieldVals.load] using h2⟩
        · obtain ⟨j, rel, h1, t, h2⟩ := ihr loc fl (i + 1) _ m h e he
          exact ⟨j + 1, rel, by rw [h1, Nat.add_assoc, Nat.add_comm 1 j], t, by simpa [FieldVals.load] using h2⟩
      · simp at h
      · simp at h

theorem FieldVals.induct (Q : FieldVals → Prop) (hn : Q .nil)
    (hc : ∀ f v rest, Q rest → Q (.cons f v rest)) : ∀ fs, Q fs :=
  (Value.induct_both (fun _ => True) Q (fun _ _ => trivial) (fun _ _ _ => trivial)
    (fun _ _ => trivial) hn (fun f v rest _ h => hc f v rest h)).2

theorem fieldKey_untagged (U : Unicode) (f : StructField) (h : f.Tag = "") :
    fieldKey U f = ConvertCamelToSnake U f.Name := by
  simp [fieldKey, parseTagName, h]

theorem flatUntagged_cons {f : StructField} {v : Value} {rest : FieldVals}
    (h : FlatUntagged (.cons f v rest)) :
    (f.Exported = true ∧ f.Tag = "" ∧ f.Anonymous = false ∧ ∃ k d, v = Value.basic k d) ∧
    FlatUntagged rest := by
  constructor
  · exact h (f, v) (by simp [FieldVals.toList])
  · intro e he
    exact h e (by simp [FieldVals.toList, he])

theorem length_toList (fs : FieldVals) : fs.toList.length = fs.length := by
  induction fs using FieldVals.induct with
  | hn => rfl
  | hc f v rest ih => simp [FieldVals.toList, FieldVals.length, ih]

theorem flag_field_root (f : StructField) (h : f.Exported = true) :
    Flag.root.Field f = Flag.root := by
  simp [Flag.Field, Flag.root, h]

theorem unwrapFieldsLoop_flat (fs : FieldVals) : ∀ (loc : Loc) (i : Nat), FlatUntagged fs →
    ∃ refs, unwrapFieldsLoop fs loc Flag.root i = (fs, .ok refs) ∧ refs.length = fs.length := by
  induction fs using FieldVals.induct with
  | hn => intro loc i _; exact ⟨[], rfl, rfl⟩
  | hc f v rest ih =>
    intro loc i h
    obtain ⟨⟨h1, h2, h3, k, d, rfl⟩, hr⟩ := flatUntagged_cons h
    obtain ⟨refs, e1, e2⟩ := ih loc (i + 1) hr
    refine ⟨{ loc := loc ++ [Step.field i], fl := Flag.root } :: refs, ?_, ?_⟩
    · have hs : Flag.root.CanSet = true := rfl
      simp [unwrapFieldsLoop, flag_field_root f h1, hs, h2, e1]
    · simp [FieldVals.length, e2]

theorem getTaggedLoop_flat (U : Unicode) (fs : FieldVals) : ∀ (loc : Loc) (i : Nat)
    (result : TaggedMap), FlatUntagged fs →
    ∃ m, getTaggedLoop U fs loc Flag.root i result = (fs, .ok m) := by
  induction fs using FieldVals.induct with
  | hn => intro loc i result _; exact ⟨result, rfl⟩
  | hc f v rest ih =>
    intro loc i result h
    obtain ⟨⟨h1, h2, h3, k, d, rfl⟩, hr⟩ := flatUntagged_cons h
    obtain ⟨m, e1⟩ := ih loc (i + 1)
      (result.set (fieldKey U f) (.addr (loc ++ [Step.field i]))) hr
    refine ⟨m, ?_⟩
    have hs : Flag.root.CanAddr = true := rfl
    have hs2 : Flag.root.Addr.CanInterface = true := rfl
    simp [getTaggedLoop, getValueInterface, flag_field_root f h1, hs, hs2, h3, e1]

theorem flatCatalogFields_flat (U : Unicode) (fs : FieldVals) : ∀ (i : Nat), FlatUntagged fs →
    flatCatalogFields U fs [] i = namedSlots U fs i := by
  induction fs using FieldVals.induct with
  | hn => intro i _; rfl
  | hc f v rest ih =>
    intro i h
    obtain ⟨⟨h1, h2, h3, k, d, rfl⟩, hr⟩ := flatUntagged_cons h
    have := ih (i + 1) hr
    simp only [namedSlots] at this ⊢
    simp [flatCatalogFields, FieldVals.toList, List.enumFrom, h3,
      fieldKey_untagged U f h2, leafSlot, this]

theorem taggedLoop_eq (m : TaggedMap) (columns : List String) : ∀ (i : Nat),
    taggedLoop m columns i =
      (columns.enumFrom i).map fun ic => (m.get ic.2).getD (.anonymous ic.1) := by
  induction columns with
  | nil => intro i; rfl
  | cons c cs ih =>
    intro i
    simp only [taggedLoop, List.enumFrom, List.map_cons, ih (i + 1)]
    cases m.get c <;> rfl

theorem taggedLoop_length (m : TaggedMap) (columns : List String) (i : Nat) :
    (taggedLoop m columns i).length = columns.length := by
  simp [taggedLoop_eq]

theorem lastEntry_exists (entries : List (String × Slot)) (h : entries ≠ []) :
    ∃ k s, lastEntry entries k = some s := by
  induction entries using List.reverseRecOn with
  | nil => exact absurd rfl h
  | append_singleton l e _ =>
    obtain ⟨a, b⟩ := e
    exact ⟨a, b, by simp [lastEntry, List.lookup_cons]⟩

theorem taggedLoop_of_spec (m : TaggedMap) (entries : List (String × Slot))
    (columns : List String) (h : ∀ k, m.get k = lastEntry entries k) :
    taggedLoop m columns 0 = slotsByName entries columns := by
  simp [taggedLoop_eq, slotsByName, List.enum, h]

/-- The binder on a flat untagged record with as many columns as fields. -/
theorem mapStruct_flat (U : Unicode) (fs : FieldVals) (columns : List String) (strict : Bool)
    (hflat : FlatUntagged fs) (hlen : columns.length = fs.length) :
    mapStructFieldsIntoSlice U (.struct fs) Flag.root columns strict =
      (.struct fs, .ok (slotsByName (namedSlots U fs 0) columns)) := by
  obtain ⟨refs, hu, hrl⟩ := unwrapFieldsLoop_flat fs [] 0 hflat
  obtain ⟨m, hg⟩ := getTaggedLoop_flat U fs [] 0 [] hflat
  have hspec := (getTagged_spec_both U).2 fs [] Flag.root 0 [] m (by rw [hg])
    (by simp [NodupKeys])
  have hget : ∀ k, m.get k = lastEntry (namedSlots U fs 0) k := by
    intro k
    rw [hspec.2 k, flatCatalogFields_flat U fs 0 hflat]
    simp [TaggedMap.get]
  simp only [mapStructFieldsIntoSlice, unwrapFields, getTaggedFieldValueMap, hu, hg, hrl, hlen,
    Nat.lt_irrefl, decide_False, Bool.and_false, Bool.false_eq_true, if_false]
  split
  · rename_i hm
    have hm' : m = [] := List.eq_nil_of_length_eq_zero hm
    have hn : namedSlots U fs 0 = [] := by
      by_contra hne
      obtain ⟨k, s, hk⟩ := lastEntry_exists _ hne
      rw [← hget k, hm'] at hk
      simp [TaggedMap.get] at hk
    have hfs : fs.toList = [] := by
      simpa [namedSlots] using hn
    have h0 : fs.length = 0 := by rw [← length_toList, hfs]; rfl
    have hc : columns = [] := List.eq_nil_of_length_eq_zero (by rw [hlen, h0])
    subst hc
    simp [h0, positionalLoop, slotsByName]
  · rw [taggedLoop_of_spec m _ columns hget]

theorem lookup_of_mem_unique (entries : List (String × Slot)) (k : String) (s : Slot)
    (hmem : (k, s) ∈ entries) (huniq : ∀ s', (k, s') ∈ entries → s' = s) :
    entries.lookup k = some s := by
  induction entries with
  | nil => simp at hmem
  | cons e t ih =>
    obtain ⟨a, b⟩ := e
    by_cases hk : k = a
    · subst hk
      have : b = s := huniq b (by simp)
      simp [List.lookup_cons, this]
    · have hne : (k == a) = false := by simpa using hk
      simp only [List.lookup_cons, hne]
      refine ih ?_ (fun s' hs' => huniq s' (List.mem_cons_of_mem _ hs'))
      rcases List.mem_cons.1 hmem with h | h
      · exact absurd (congrArg Prod.fst h) hk
      · exact h

theorem lastEntry_of_mem_unique (entries : List (String × Slot)) (k : String) (s : Slot)
    (hmem : (k, s) ∈ entries) (huniq : ∀ s', (k, s') ∈ entries → s' = s) :
    lastEntry entries k = some s :=
  lookup_of_mem_unique entries.reverse k s (by simpa using hmem)
    (fun s' hs' => huniq s' (by simpa using hs'))

/-- Shift of a slot below the first field of a struct. -/
theorem applyScan_shift (f : StructField) (v : Value) (js : List Nat) :
    ∀ (rest : FieldVals) (xs : List (Option Val)),
    ∃ r, applyScan (.struct rest) (js.map fun j => Slot.addr [.field j]) xs = .struct r ∧
      applyScan (.struct (.cons f v rest)) (js.map fun j => Slot.addr [.field (j + 1)]) xs =
        .struct (.cons f v r) := by
  induction js with
  | nil => intro rest xs; exact ⟨rest, by simp [applyScan], by simp [applyScan]⟩
  | cons j js ih =>
    intro rest xs
    cases xs with
    | nil => exact ⟨rest, by simp [applyScan], by simp [applyScan]⟩
    | cons x xs =>
      cases x with
      | none => simpa [applyScan] using ih rest xs
      | some x =>
        simpa [applyScan, Value.store, Value.modify, FieldVals.modify] using
          ih (rest.modify (Value.withData x) j []) xs

theorem applyScan_row (fs : FieldVals) : ∀ (row : List Val), FlatUntagged fs →
    row.length = fs.length →
    applyScan (.struct fs) ((List.range fs.length).map fun j => Slot.addr [.field j])
      (row.map some) = .struct (fs.setRow row) := by
  induction fs using FieldVals.induct with
  | hn => intro row _ _; cases row <;> simp [applyScan, FieldVals.length, FieldVals.setRow]
  | hc f v rest ih =>
    intro row h hl
    obtain ⟨⟨h1, h2, h3, k, d, rfl⟩, hr⟩ := flatUntagged_cons h
    cases row with
    | nil => simp [FieldVals.length] at hl
    | cons x xs =>
      have hl' : xs.length = rest.length := by simpa [FieldVals.length] using hl
      obtain ⟨r, e1, e2⟩ := applyScan_shift f (.basic k x) (List.range rest.length) rest
        (xs.map some)
      rw [ih xs hr hl'] at e1
      simp only [Value.struct.injEq] at e1
      subst e1
      simp only [FieldVals.length, List.range_succ_eq_map, List.map_cons, List.map_map,
        applyScan, Value.store, Value.modify, FieldVals.modify, Value.withData,
        FieldVals.setRow]
      exact e2

theorem mem_namedSlots (U : Unicode) (fs : FieldVals) (i : Nat) (k : String) (s : Slot) :
    (k, s) ∈ namedSlots U fs i ↔
      ∃ j, ∃ h : j < fs.toList.length,
        k = ConvertCamelToSnake U (fs.toList[j]).1.Name ∧ s = .addr [.field (i + j)] := by
  simp only [namedSlots, List.mem_map, Prod.mk.injEq]
  constructor
  · rintro ⟨⟨j, e⟩, hmem, h1, h2⟩
    obtain ⟨hj, hlt, he⟩ := List.mem_enumFrom hmem
    refine ⟨j - i, by omega, ?_, ?_⟩
    · simp only at h1 he; rw [← h1, he]
    · simp only at h2; rw [← h2]; congr 3; omega
  · rintro ⟨j, hj, h1, h2⟩
    refine ⟨(i + j, fs.toList[j]), ?_, h1.symm, h2.symm⟩
    rw [List.mem_iff_getElem]
    exact ⟨j, by simpa using hj, by simp⟩

theorem slotsByName_default (U : Unicode) (fs : FieldVals)
    (hnd : (defaultNames U fs).Nodup) :
    slotsByName (namedSlots U fs 0) (defaultNames U fs) =
      (List.range fs.length).map fun j => Slot.addr [.field j] := by
  apply List.ext_getElem
  · simp [slotsByName, defaultNames, length_toList]
  · intro n h1 h2
    have hn : n < fs.toList.length := by simpa [slotsByName, defaultNames] using h1
    have hn' : n < (defaultNames U fs).length := by simpa [defaultNames] using hn
    simp only [slotsByName, List.getElem_map, List.getElem_range, List.getElem_enum]
    have hk : (defaultNames U fs)[n] = ConvertCamelToSnake U (fs.toList[n]).1.Name := by
      simp [defaultNames]
    rw [lastEntry_of_mem_unique (namedSlots U fs 0) _ (.addr [.field n])]
    · rfl
    · rw [mem_namedSlots]
      exact ⟨n, hn, hk, by simp⟩
    · intro s' hs'
      rw [mem_namedSlots] at hs'
      obtain ⟨j, hj, e1, e2⟩ := hs'
      have hj' : j < (defaultNames U fs).length := by simpa [defaultNames] using hj
      have h3 : (defaultNames U fs)[j] = (defaultNames U fs)[n] := by
        rw [e1]
        simp [defaultNames]
      have hjn : j = n := (List.Nodup.getElem_inj_iff hnd).1 h3
      subst hjn
      simpa using e2

theorem joined_append (U : Unicode) (ws : List (List Char)) (w : List Char) :
    (ws ++ [w]).enum.foldl (joinStep U) [] =
      (if 0 < ws.length then ws.enum.foldl (joinStep U) [] ++ ['_']
        else ws.enum.foldl (joinStep U) []) ++ w.map U.ToLower := by
  simp [List.enum_append, List.foldl_append, joinStep, List.enumFrom]

theorem literalSnake_append (U : Unicode) (l : List Char) (c : Char) :
    literalSnake U (l ++ [c]) = literalSnake U l ++
      (if 0 < l.length ∧ U.IsUpper c = true then ['_', U.ToLower c] else [U.ToLower c]) := by
  simp [literalSnake, List.enum_append, List.enumFrom]

/-- Invariant of the first loop of `ConvertCamelToSnake` after `n` steps. -/
theorem split_invariant (U : Unicode) (rs : List Char) (n : Nat) (hn : n ≤ rs.length) :
    ((List.range n).foldl (splitStep U rs) ([], 0)).2 ≤ n ∧
    (((List.range n).foldl (splitStep U rs) ([], 0)).1 ++
        [(rs.take n).drop ((List.range n).foldl (splitStep U rs) ([], 0)).2]).enum.foldl
      (joinStep U) [] = literalSnake U (rs.take n) := by
  induction n with
  | zero => simp [literalSnake, joinStep, List.enum, List.enumFrom]
  | succ n ih =>
    have hlt : n < rs.length := hn
    obtain ⟨h1, h2⟩ := ih (Nat.le_of_lt hlt)
    rw [List.range_succ, List.foldl_append]
    simp only [List.foldl_cons, List.foldl_nil]
    generalize (List.range n).foldl (splitStep U rs) ([], 0) = st at h1 h2 ⊢
    have htk : rs.take (n + 1) = rs.take n ++ [rs[n]] := by
      rw [List.take_succ]; simp [List.getElem?_eq_getElem hlt]
    rw [joined_append] at h2
    simp only [splitStep, List.getD_eq_getElem rs ' ' hlt]
    split
    · rename_i hup
      refine ⟨Nat.le_succ n, ?_⟩
      simp only []
      rw [joined_append, joined_append]
      have hd : (rs.take (n + 1)).drop n = [rs[n]] := by
        rw [htk, List.drop_append_of_le_length (by simp [Nat.min_eq_left (Nat.le_of_lt hlt)])]
        simp [List.drop_eq_nil_iff, Nat.min_eq_left (Nat.le_of_lt hlt)]
      rw [hd, htk, literalSnake_append, ← h2]
      simp [hup, Nat.min_eq_left (Nat.le_of_lt hlt)]
    · rename_i hup
      refine ⟨Nat.le_succ_of_le h1, ?_⟩
      rw [joined_append, htk, literalSnake_append, ← h2]
      have hd : (rs.take n ++ [rs[n]]).drop st.2 = (rs.take n).drop st.2 ++ [rs[n]] := by
        rw [List.drop_append_of_le_length (by simp [Nat.min_eq_left (Nat.le_of_lt hlt), h1])]
      rw [hd]
      have hl : (rs.take n).length = n := by simp [Nat.le_of_lt hlt]
      rw [hl]
      simp only [hup, if_false, List.map_append, List.map_cons, List.map_nil, List.append_assoc]

theorem convertCamelToSnakeRunes_eq (U : Unicode) (rs : List Char) :
    convertCamelToSnakeRunes U rs = literalSnake U rs := by
  have h := (split_invariant U rs rs.length (Nat.le_refl _)).2
  simpa [convertCamelToSnakeRunes, camelWords] using h

theorem upperAfterFirst_append (U : Unicode) (l : List Char) (c : Char) :
    upperAfterFirst U (l ++ [c]) = upperAfterFirst U l +
      (if 0 < l.length ∧ U.IsUpper c = true then 1 else 0) := by
  simp only [upperAfterFirst, List.enum_append, List.enumFrom, List.filter_append,
    List.length_append, List.filter_cons, List.filter_nil]
  split <;> simp_all

theorem literalSnake_length (U : Unicode) (rs : List Char) :
    (literalSnake U rs).length = rs.length + upperAfterFirst U rs := by
  induction rs using List.reverseRecOn with
  | nil => simp [literalSnake, upperAfterFirst, List.enum, List.enumFrom]
  | append_singleton l c ih =>
    rw [literalSnake_append, upperAfterFirst_append, List.length_append, ih]
    split <;> simp <;> omega

theorem literalSnake_count (U : Unicode) (rs : List Char) :
    (literalSnake U rs).count '_' = upperAfterFirst U rs + (rs.map U.ToLower).count '_' := by
  induction rs using List.reverseRecOn with
  | nil => rfl
  | append_singleton l c ih =>
    rw [literalSnake_append, upperAfterFirst_append, List.count_append, ih,
      List.map_append, List.count_append]
    split
    · rw [List.count_cons_self]
      simp only [List.map_cons, List.map_nil]
      omega
    · simp only [List.map_cons, List.map_nil]
      omega

/-- Every slot of the flat catalog of a record stored at `loc` lies below `loc`. -/
theorem flatCatalog_below_both (U : Unicode) :
    (∀ (v : Value) (loc : Loc), ∀ e ∈ flatCatalog U v loc, ∃ rel, e.2 = .addr (loc ++ rel)) ∧
    (∀ (fs : FieldVals) (loc : Loc) (i : Nat), ∀ e ∈ flatCatalogFields U fs loc i,
      ∃ rel, e.2 = .addr (loc ++ rel)) := by
  apply Value.induct_both
  · intro k d loc e he
    simp [flatCatalog] at he
  · intro n t ih loc e he
    cases t with
    | basic _ _ => simp [flatCatalog] at he
    | ptr _ _ => simp [flatCatalog] at he
    | struct fs =>
      obtain ⟨rel, h⟩ := ih (loc ++ [.elem]) e (by simpa [flatCatalog] using he)
      exact ⟨.elem :: rel, by simpa using h⟩
  · intro fs ih loc e he
    exact ih loc 0 e (by simpa [flatCatalog] using he)
  · intro loc i e he
    simp [flatCatalogFields] at he
  · intro f child rest ihc ihr loc i e he
    simp only [flatCatalogFields, List.mem_append] at he
    rcases he with he | he
    · split at he
      · obtain ⟨rel, h⟩ := ihc _ e he
        exact ⟨.field i :: rel, by simpa using h⟩
      · simp only [List.mem_singleton] at he
        subst he
        cases child with
        | ptr _ _ => exact ⟨[.field i, .elem], by simp [leafSlot]⟩
        | basic _ _ => exact ⟨[.field i], by simp [leafSlot]⟩
        | struct _ => exact ⟨[.field i], by simp [leafSlot]⟩
    · exact ihr loc (i + 1) e he

/-- The flat catalog of an embedded record is part of the flat catalog of the
record that embeds it. -/
theorem flatCatalog_embedded (U : Unicode) (fs : FieldVals) : ∀ (loc : Loc) (j i : Nat)
    (f : StructField) (child : Value), fs.toList[i]? = some (f, child) →
    f.Anonymous = true → child.DerefKind = .Struct →
    ∀ e ∈ flatCatalog U child (loc ++ [.field (j + i)]), e ∈ flatCatalogFields U fs loc j := by
  induction fs using FieldVals.induct with
  | hn => intro loc j i f child h; simp [FieldVals.toList] at h
  | hc g v rest ih =>
    intro loc j i f child h ha hk e he
    cases i with
    | zero =>
      simp only [FieldVals.toList, List.getElem?_cons_zero, Option.some.injEq,
        Prod.mk.injEq] at h
      obtain ⟨rfl, rfl⟩ := h
      simp only [flatCatalogFields, ha, hk, List.mem_append]
      left
      simpa using he
    | succ i =>
      simp only [FieldVals.toList, List.getElem?_cons_succ] at h
      simp only [flatCatalogFields, List.mem_append]
      right
      refine ih loc (j + 1) i f child h ha hk e ?_
      have : j + 1 + i = j + (i + 1) := by omega
      rw [this]
      exact he

/-- The only error `getTaggedFieldValueMap` returns is `ErrNotReadableValue`. -/
theorem getTagged_error_both (U : Unicode) :
    (∀ (v : Value) (loc : Loc) (fl : Flag) (e : Error),
      (getTaggedFieldValueMap U v loc fl).2 = .err e → e = .ErrNotReadableValue) ∧
    (∀ (fs : FieldVals) (loc : Loc) (fl : Flag) (i : Nat) (result : TaggedMap) (e : Error),
      (getTaggedLoop U fs loc fl i result).2 = .err e → e = .ErrNotReadableValue) := by
  apply Value.induct_both
  · intro k d loc fl e h
    simp [getTaggedFieldValueMap] at h
  · intro n t ih loc fl e h
    cases t with
    | basic _ _ => simp [getTaggedFieldValueMap, Value.DerefNumField] at h
    | ptr _ _ =>
      simp only [getTaggedFieldValueMap] at h
      split at h
      · simp at h
      · simp at h
      · split at h <;> simp at h
    | struct fs =>
      simp only [getTaggedFieldValueMap] at h
      split at h
      · simp at h
      · simp at h
      · split at h
        · simp at h
        · exact ih (loc ++ [.elem]) fl.Elem e (by simpa [getTaggedFieldValueMap] using h)
  · intro fs ih loc fl e h
    exact ih loc fl 0 [] e (by simpa [getTaggedFieldValueMap] using h)
  · intro loc fl i result e h
    simp [getTaggedLoop] at h
  · intro f child rest ihc ihr loc fl i result e h
    simp only [getTaggedLoop] at h
    split at h
    · split at h
      · exact ihr _ _ _ _ e h
      · rename_i e' he'
        simp only [Res.err.injEq] at h
        subst h
        exact ihc _ _ _ he'
      · simp at h
    · split at h
      · exact ihr _ _ _ _ e h
      · rename_i e' he'
        simp only [Res.err.injEq] at h
        subst h
        unfold getValueInterface at he'
        cases child with
        | basic _ _ => simp only at he'; split at he' <;> simp_all
        | struct _ => simp only at he'; split at he' <;> simp_all
        | ptr _ _ =>
          simp only at he'
          split at he'
          · simp_all
          · split at he'
            · split at he' <;> simp_all
            · simp_all
      · simp at h

theorem mem_taggedLoop (m : TaggedMap) (columns : List String) : ∀ (i : Nat) (s : Slot),
    s ∈ taggedLoop m columns i →
    (∃ c ∈ columns, m.get c = some s) ∨ ∃ j, s = .anonymous j := by
  induction columns with
  | nil => intro i s h; simp [taggedLoop] at h
  | cons c cs ih =>
    intro i s h
    simp only [taggedLoop, List.mem_cons] at h
    rcases h with h | h
    · cases hc : m.get c with
      | none => right; exact ⟨i, by simpa [hc] using h⟩
      | some a => left; exact ⟨c, by simp, by simpa [hc] using h.symm⟩
    · rcases ih (i + 1) s h with ⟨c', hc', h'⟩ | h'
      · left; exact ⟨c', by simp [hc'], h'⟩
      · right; exact h'

theorem taggedLoop_getElem (m : TaggedMap) (columns : List String) (i : Nat)
    (h : i < columns.length) :
    (taggedLoop m columns 0)[i]? = some ((m.get columns[i]).getD (.anonymous i)) := by
  simp [taggedLoop_eq, List.enum, h]

theorem flatUntagged_idName : FlatUntagged idNameFields := by
  intro e he
  simp only [idNameFields, FieldVals.toList, List.mem_cons, List.mem_singleton,
    List.not_mem_nil, or_false] at he
  rcases he with rfl | rfl <;> simp

theorem mapStruct_strict_mismatch (U : Unicode) (v : Value) (fl : Flag)
    (columns : List String) (fields : List FieldRef)
    (hu : (unwrapFields v [] fl).2 = .ok fields) (hlt : columns.length < fields.length) :
    (mapStructFieldsIntoSlice U v fl columns true).2 = .err .ErrNotMatchDestination := by
  simp [mapStructFieldsIntoSlice, hu, hlt]

theorem mapStruct_tagged (U : Unicode) (v : Value) (fl : Flag) (columns : List String)
    (strict : Bool) (fields : List FieldRef) (m : TaggedMap)
    (hu : (unwrapFields v [] fl).2 = .ok fields)
    (hs : strict = false ∨ fields.length ≤ columns.length)
    (hm : (getTaggedFieldValueMap U (unwrapFields v [] fl).1 [] fl).2 = .ok m)
    (hne : m ≠ []) :
    mapStructFieldsIntoSlice U v fl columns strict =
      ((getTaggedFieldValueMap U (unwrapFields v [] fl).1 [] fl).1,
        .ok (taggedLoop m columns 0)) := by
  have h1 : (strict && decide (columns.length < fields.length)) = false := by
    rcases hs with hs | hs
    · simp [hs]
    · simp [Nat.not_lt.2 hs]
  have h2 : ¬ m.length = 0 := fun h => hne (List.eq_nil_of_length_eq_zero h)
  simp [mapStructFieldsIntoSlice, hu, hm, h1, h2]

theorem mapStruct_empty_catalog (U : Unicode) (v : Value) (fl : Flag) (columns : List String)
    (strict : Bool) (fields : List FieldRef)
    (hu : (unwrapFields v [] fl).2 = .ok fields)
    (hm : (getTaggedFieldValueMap U (unwrapFields v [] fl).1 [] fl).2 = .ok [])
    (hlt : fields.length < columns.length) :
    (mapStructFieldsIntoSlice U v fl columns strict).2 = .err .ErrNotMatchDestination := by
  have h1 : (strict && decide (columns.length < fields.length)) = false := by
    simp [Nat.lt_asymm hlt]
  simp [mapStructFieldsIntoSlice, hu, hm, h1, hlt]

/-- What a successful call of `mapStructFieldsIntoSlice` went through. -/
theorem mapStruct_ok_inv (U : Unicode) (v : Value) (fl : Flag) (columns : List String)
    (strict : Bool) (slots : List Slot)
    (h : (mapStructFieldsIntoSlice U v fl columns strict).2 = .ok slots) :
    ∃ fields m, (unwrapFields v [] fl).2 = .ok fields ∧
      (getTaggedFieldValueMap U (unwrapFields v [] fl).1 [] fl).2 = .ok m ∧
      (strict = false ∨ fields.length ≤ columns.length) ∧
      (m ≠ [] → slots = taggedLoop m columns 0) := by
  unfold mapStructFieldsIntoSlice at h
  simp only at h
  split at h
  · simp at h
  · simp at h
  · rename_i fields hu
    split at h
    · simp at h
    · rename_i hs
      split at h
      · simp at h
      · simp at h
      · rename_i m hm
        refine ⟨fields, m, hu, hm, ?_, ?_⟩
        · cases strict with
          | false => left; rfl
          | true => right; simpa using hs
        · intro hne
          have h2 : ¬ m.length = 0 := fun h => hne (List.eq_nil_of_length_eq_zero h)
          simp only [h2, if_false, Res.ok.injEq] at h
          exact h.symm

theorem mem_of_lookup (entries : List (String × Slot)) (k : String) (a : Slot)
    (h : entries.lookup k = some a) : (k, a) ∈ entries := by
  induction entries with
  | nil => simp at h
  | cons e t ih =>
    obtain ⟨b, c⟩ := e
    by_cases hk : k = b
    · subst hk
      simp only [List.lookup_cons, beq_self_eq_true, Option.some.injEq] at h
      simp [h]
    · have hne : (k == b) = false := by simpa using hk
      simp only [List.lookup_cons, hne] at h
      exact List.mem_cons_of_mem _ (ih h)

theorem mem_of_lastEntry (entries : List (String × Slot)) (k : String) (a : Slot)
    (h : lastEntry entries k = some a) : (k, a) ∈ entries := by
  have := mem_of_lookup entries.reverse k a h
  simpa using this

/-- Every value of the catalog is the address of a location of the record. -/
theorem getTagged_values_addr (U : Unicode) (v : Value) (loc : Loc) (fl : Flag)
    (m : TaggedMap) (hm : (getTaggedFieldValueMap U v loc fl).2 = .ok m) (k : String)
    (a : Slot) (ha : m.get k = some a) : ∃ rel, a = .addr (loc ++ rel) := by
  rw [((getTagged_spec_both U).1 v loc fl m hm).2 k] at ha
  exact (flatCatalog_below_both U).1 v loc (k, a) (mem_of_lastEntry _ k a ha)

theorem flatCatalog_embeddedFields :
    flatCatalog ascii (.struct embeddedFields) [] =
      [("id", .addr [.field 0, .elem, .field 0]), ("name", .addr [.field 0, .elem, .field 1]),
        ("age", .addr [.field 1])] := by
  decide

/-- Induction over the fields of a record and of the structs reachable from
them through one pointer at most. -/
theorem FieldVals.induct_deep (Q : FieldVals → Prop) (hn : Q .nil)
    (hc : ∀ f v rest,
      (∀ fs, v = .struct fs → Q fs) → (∀ n fs, v = .ptr n (.struct fs) → Q fs) →
      Q rest → Q (.cons f v rest)) : ∀ fs, Q fs := by
  have h := Value.induct_both
    (fun v => (∀ fs, v = .struct fs → Q fs) ∧ (∀ n fs, v = .ptr n (.struct fs) → Q fs)) Q
    (fun k d => ⟨fun fs h => by simp at h, fun n fs h => by simp at h⟩)
    (fun n t ih => ⟨fun fs h => by simp at h, fun n' fs h => by
      simp only [Value.ptr.injEq] at h
      exact ih.1 fs h.2⟩)
    (fun fs ih => ⟨fun fs' h => by
      simp only [Value.struct.injEq] at h
      exact h ▸ ih, fun n fs' h => by simp at h⟩)
    hn
    (fun f v rest ihv ihr => hc f v rest ihv.1 ihv.2 ihr)
  exact h.2

theorem flag_field_settable (fl : Flag) (f : StructField) (h1 : fl.flagAddr = true)
    (h2 : fl.flagStickyRO = false) (h3 : f.Exported = true) :
    (fl.Field f).CanSet = true ∧ (fl.Field f).flagAddr = true ∧
    (fl.Field f).flagStickyRO = false ∧ (fl.Field f).CanInterface = true ∧
    (fl.Field f).CanAddr = true ∧ (fl.Field f).Addr.CanInterface = true ∧
    (fl.Field f).Elem.flagAddr = true ∧ (fl.Field f).Elem.flagStickyRO = false := by
  simp [Flag.Field, Flag.CanSet, Flag.RO, Flag.CanInterface, Flag.CanAddr, Flag.Addr,
    Flag.Elem, h1, h2, h3]

theorem bindable_cons {f : StructField} {child : Value} {rest : FieldVals}
    (h : (FieldVals.cons f child rest).Bindable = true) :
    f.Exported = true ∧ f.Tag ≠ "-" ∧ child.BindableField f.Anonymous = true ∧
    rest.Bindable = true := by
  simpa [FieldVals.Bindable, and_assoc] using h

theorem res_ok_map {α β : Type} (r : Res α) (a : α) (g : α → β) (h : r = .ok a) :
    (match r with
      | .ok out => Res.ok (g out)
      | .err e => .err e
      | .panic => .panic) = .ok (g a) := by
  subst h; rfl

theorem toKind_ne_struct (k : BasicKind) : (k.toKind == Kind.Struct) = false := by
  cases k <;> rfl

theorem toKind_ne_ptr (k : BasicKind) : (k.toKind == Kind.Ptr) = false := by
  cases k <;> rfl

/-! #### Zero values and freshly created records -/

theorem zero_zero_both :
    (∀ v : Value, v.zero.zero = v.zero) ∧ (∀ fs : FieldVals, fs.zero.zero = fs.zero) := by
  apply Value.induct_both
  · intro k d; rfl
  · intro n t ih; simp [Value.zero, ih]
  · intro fs ih; simp [Value.zero, ih]
  · rfl
  · intro f v rest ihv ihr; simp [FieldVals.zero, ihv, ihr]

theorem kind_zero (v : Value) : v.zero.Kind = v.Kind := by
  cases v <;> rfl

theorem derefKind_zero (v : Value) : v.zero.DerefKind = v.DerefKind := by
  induction v using Value.rec (motive_2 := fun _ => True) with
  | basic k d => rfl
  | ptr n t ih => simpa [Value.zero, Value.DerefKind] using ih
  | struct fs _ => rfl
  | nil => trivial
  | cons _ _ _ _ _ => trivial

theorem nodes_zero_both :
    (∀ v : Value, v.zero.nodes = v.nodes) ∧ (∀ fs : FieldVals, fs.zero.nodes = fs.nodes) := by
  apply Value.induct_both
  · intro k d; rfl
  · intro n t ih; simp [Value.zero, Value.nodes, ih]
  · intro fs ih; simp [Value.zero, Value.nodes, ih]
  · rfl
  · intro f v rest ihv ihr; simp [FieldVals.zero, FieldVals.nodes, ihv, ihr]

/-- Induction over the fields of a record, of the structs reachable from them
through one pointer at most, and of the zero values of the structs behind a
pointer. -/
theorem FieldVals.induct_zero (Q : FieldVals → Prop) (hn : Q .nil)
    (hc : ∀ f v rest,
      (∀ fs, v = .struct fs → Q fs) →
      (∀ n fs, v = .ptr n (.struct fs) → Q fs ∧ Q fs.zero) →
      Q rest → Q (.cons f v rest)) : ∀ fs, Q fs := by
  have h : ∀ (n : Nat) (fs : FieldVals), fs.nodes ≤ n → Q fs := by
    intro n
    induction n with
    | zero => intro fs h; cases fs <;> simp [FieldVals.nodes] at h
    | succ n ih =>
      intro fs h
      cases fs with
      | nil => exact hn
      | cons f v rest =>
        simp only [FieldVals.nodes] at h
        apply hc
        · intro cfs hv
          subst hv
          simp only [Value.nodes] at h
          exact ih cfs (by omega)
        · intro m cfs hv
          subst hv
          simp only [Value.nodes] at h
          exact ⟨ih cfs (by omega), ih cfs.zero (by rw [nodes_zero_both.2]; omega)⟩
        · exact ih rest (by omega)
  exact fun fs => h fs.nodes fs le_rfl

/-- The traversal of a freshly created record depends on the type only. -/
theorem unwrapFreshLoop_zero (fs : FieldVals) : ∀ (loc : Loc) (fl : Flag) (i : Nat),
    unwrapFreshLoop fs.zero loc fl i = unwrapFreshLoop fs loc fl i := by
  induction fs using FieldVals.induct_deep with
  | hn => intro loc fl i; rfl
  | hc f v rest ihs ihp ihr =>
    intro loc fl i
    cases v with
    | basic k d =>
      simp [unwrapFreshLoop, FieldVals.zero, Value.zero, ihr]
    | struct cfs =>
      simp [unwrapFreshLoop, FieldVals.zero, Value.zero, ihr, ihs cfs rfl, zero_zero_both.2]
    | ptr n t =>
      cases t with
      | basic k d =>
        have h1 : k.toKind ≠ Kind.Ptr := by simpa using toKind_ne_ptr k
        have h2 : k.toKind ≠ Kind.Struct := by simpa using toKind_ne_struct k
        simp [unwrapFreshLoop, FieldVals.zero, Value.zero, ihr, zero_zero_both.2, Value.Kind,
          h1, h2]
      | ptr m t =>
        simp [unwrapFreshLoop, FieldVals.zero, Value.zero, ihr, zero_zero_both.2,
          zero_zero_both.1, Value.Kind]
      | struct cfs =>
        simp [unwrapFreshLoop, unwrapFresh, FieldVals.zero, Value.zero, ihr, ihp n cfs rfl,
          zero_zero_both.2, Value.Kind]

theorem unwrapFresh_zero (v : Value) (loc : Loc) (fl : Flag) :
    unwrapFresh v.zero loc fl = unwrapFresh v loc fl := by
  cases v with
  | basic k d => rfl
  | ptr n t => simp [unwrapFresh, Value.zero, zero_zero_both.1]
  | struct fs => simp [unwrapFresh, Value.zero, unwrapFreshLoop_zero]

/-- The traversal of a freshly created record is `unwrapFields` on the zero
value of its type. -/
theorem unwrapFreshLoop_eq (fs : FieldVals) : ∀ (loc : Loc) (fl : Flag) (i : Nat),
    unwrapFreshLoop fs loc fl i = unwrapFieldsLoop fs.zero loc fl i := by
  induction fs using FieldVals.induct_deep with
  | hn => intro loc fl i; rfl
  | hc f v rest ihs ihp ihr =>
    intro loc fl i
    cases v with
    | basic k d =>
      simp [unwrapFreshLoop, unwrapFieldsLoop, FieldVals.zero, Value.zero, ihr]
    | struct cfs =>
      simp [unwrapFreshLoop, unwrapFieldsLoop, FieldVals.zero, Value.zero, ihr, ihs cfs rfl]
    | ptr n t =>
      simp [unwrapFreshLoop, unwrapFieldsLoop, FieldVals.zero, Value.zero, ihr, kind_zero,
        zero_zero_both.1, unwrapFresh_zero]

theorem unwrapFresh_eq (v : Value) (loc : Loc) (fl : Flag) :
    unwrapFresh v loc fl = unwrapFields v.zero loc fl := by
  cases v with
  | basic k d => rfl
  | ptr n t => simp [unwrapFresh, unwrapFields, Value.zero]
  | struct fs => simp [unwrapFresh, unwrapFields, Value.zero, unwrapFreshLoop_eq]

/-- The flat catalog depends on the type only. -/
theorem flatCatalogFields_zero (U : Unicode) (fs : FieldVals) : ∀ (loc : Loc) (i : Nat),
    flatCatalogFields U fs.zero loc i = flatCatalogFields U fs loc i := by
  induction fs using FieldVals.induct_deep with
  | hn => intro loc i; rfl
  | hc f v rest ihs ihp ihr =>
    intro loc i
    simp only [FieldVals.zero, flatCatalogFields, derefKind_zero, ihr loc (i + 1)]
    congr 1
    cases v with
    | basic k d => rfl
    | struct cfs => simp [Value.zero, flatCatalog, ihs cfs rfl, leafSlot]
    | ptr n t =>
      cases t with
      | basic k d => rfl
      | ptr _ _ => rfl
      | struct cfs => simp [Value.zero, flatCatalog, ihp n cfs rfl, leafSlot]

theorem flatCatalog_zero (U : Unicode) (v : Value) (loc : Loc) :
    flatCatalog U v.zero loc = flatCatalog U v loc := by
  cases v with
  | basic k d => rfl
  | struct fs => simp [Value.zero, flatCatalog, flatCatalogFields_zero]
  | ptr n t =>
    cases t with
    | basic k d => rfl
    | ptr _ _ => rfl
    | struct fs => simp [Value.zero, flatCatalog, flatCatalogFields_zero]

theorem bindable_zero (fs : FieldVals) : fs.zero.Bindable = fs.Bindable := by
  induction fs using FieldVals.induct_deep with
  | hn => rfl
  | hc f v rest ihs ihp ihr =>
    simp only [FieldVals.zero, FieldVals.Bindable, ihr]
    congr 2
    cases v with
    | basic k d => rfl
    | struct cfs => simp [Value.zero, Value.BindableField, ihs cfs rfl]
    | ptr n t =>
      cases t with
      | basic k d => rfl
      | ptr _ _ => rfl
      | struct cfs => simp [Value.zero, Value.BindableField, ihp n cfs rfl]

theorem allocFresh_zero (fs : FieldVals) : fs.zero.allocFresh = fs.allocFresh := by
  induction fs using FieldVals.induct_deep with
  | hn => rfl
  | hc f v rest ihs ihp ihr =>
    simp only [FieldVals.zero, FieldVals.allocFresh, ihr]
    congr 1
    cases v with
    | basic k d => rfl
    | struct cfs => simp [Value.zero, Value.allocFresh, ihs cfs rfl, zero_zero_both.2]
    | ptr n t =>
      cases t with
      | basic k d => rfl
      | ptr _ t => simp [Value.zero, Value.allocFresh, zero_zero_both.1]
      | struct cfs => simp [Value.zero, Value.allocFresh, ihp n cfs rfl, zero_zero_both.2]

/-- Allocation in the zero value of a type gives the freshly created record
after `unwrapFields`. -/
theorem alloc_zero (fs : FieldVals) : fs.zero.alloc = fs.allocFresh := by
  induction fs using FieldVals.induct_deep with
  | hn => rfl
  | hc f v rest ihs ihp ihr =>
    simp only [FieldVals.zero, FieldVals.alloc, FieldVals.allocFresh, ihr]
    congr 1
    cases v with
    | basic k d => rfl
    | struct cfs => simp [Value.zero, Value.allocField, Value.allocFresh, ihs cfs rfl]
    | ptr n t =>
      cases t with
      | basic k d => rfl
      | ptr _ t => simp [Value.zero, Value.allocField, Value.allocFresh, zero_zero_both.1]
      | struct cfs =>
        simp [Value.zero, Value.allocField, Value.allocFresh, allocFresh_zero,
          zero_zero_both.2]

theorem unwrapFieldsLoop_bindable (U : Unicode) (fs : FieldVals) :
    ∀ (loc : Loc) (fl : Flag) (i : Nat), fl.flagAddr = true → fl.flagStickyRO = false →
    fs.Bindable = true →
    (unwrapFieldsLoop fs loc fl i).1 = fs.alloc ∧
    ∃ refs, (unwrapFieldsLoop fs loc fl i).2 = .ok refs ∧
      refs.length = (flatCatalogFields U fs loc i).length := by
  induction fs using FieldVals.induct_zero with
  | hn => intro loc fl i _ _ _; exact ⟨rfl, [], rfl, rfl⟩
  | hc f v rest ihs ihp ihr =>
    intro loc fl i h1 h2 hb
    obtain ⟨he, ht, hc, hr⟩ := bindable_cons hb
    obtain ⟨e0, refs, e1, e2⟩ := ihr loc fl (i + 1) h1 h2 hr
    obtain ⟨g1, g2, g3, g4, g5, g6, g7, g8⟩ := flag_field_settable fl f h1 h2 he
    cases v with
    | basic k d =>
      refine ⟨?_, { loc := loc ++ [Step.field i], fl := fl.Field f } :: refs, ?_, ?_⟩
      · simp [unwrapFieldsLoop, g1, ht, e0, FieldVals.alloc, Value.allocField]
      · simp [unwrapFieldsLoop, g1, ht, e1]
      · simp [flatCatalogFields, Value.DerefKind, e2, toKind_ne_struct]
    | struct cfs =>
      by_cases ha : f.Anonymous = true
      · have hcb : cfs.Bindable = true := by simpa [Value.BindableField, ha] using hc
        obtain ⟨c0, crefs, c1, c2⟩ := ihs cfs rfl (loc ++ [Step.field i]) (fl.Field f) 0 g2 g3 hcb
        refine ⟨?_, crefs ++ refs, ?_, ?_⟩
        · simp [unwrapFieldsLoop, g1, ht, ha, c1, c0, e0, FieldVals.alloc, Value.allocField]
        · simp [unwrapFieldsLoop, g1, ht, ha, c1, e1]
        · simp [flatCatalogFields, Value.DerefKind, ha, flatCatalog, c2, e2]
      · have ha' : f.Anonymous = false := by simpa using ha
        refine ⟨?_, { loc := loc ++ [Step.field i], fl := fl.Field f } :: refs, ?_, ?_⟩
        · simp [unwrapFieldsLoop, g1, ht, ha', e0, FieldVals.alloc, Value.allocField]
        · simp [unwrapFieldsLoop, g1, ht, ha', e1]
        · simp [flatCatalogFields, ha', e2]
    | ptr n t =>
      cases t with
      | ptr _ _ => simp [Value.BindableField] at hc
      | basic k d =>
        refine ⟨?_, { loc := loc ++ [Step.field i] ++ [.elem], fl := (fl.Field f).Elem } :: refs,
          ?_, ?_⟩
        · cases n <;>
            simp [unwrapFieldsLoop, g1, ht, e0, FieldVals.alloc, Value.allocField, Value.Kind,
              toKind_ne_struct, toKind_ne_ptr, Value.zero]
        · simp [unwrapFieldsLoop, g1, ht, e1, Value.Kind, toKind_ne_struct, toKind_ne_ptr]
        · simp [flatCatalogFields, Value.DerefKind, e2, toKind_ne_struct]
      | struct cfs =>
        by_cases ha : f.Anonymous = true
        · have hcb : cfs.Bindable = true := by simpa [Value.BindableField, ha] using hc
          cases n with
          | false =>
            obtain ⟨c0, crefs, c1, c2⟩ := (ihp false cfs rfl).1 (loc ++ [Step.field i, .elem])
              (fl.Field f).Elem 0 g7 g8 hcb
            refine ⟨?_, crefs ++ refs, ?_, ?_⟩
            · simp [unwrapFieldsLoop, unwrapFields, g1, ht, ha, c1, c0, e0, FieldVals.alloc,
                Value.allocField, Value.Kind]
            · simp [unwrapFieldsLoop, unwrapFields, g1, ht, ha, c1, e1, Value.Kind]
            · simp [flatCatalogFields, Value.DerefKind, ha, flatCatalog, c2, e2]
          | true =>
            obtain ⟨c0, crefs, c1, c2⟩ := (ihp true cfs rfl).2 (loc ++ [Step.field i, .elem])
              (fl.Field f).Elem 0 g7 g8 (by rw [bindable_zero]; exact hcb)
            rw [alloc_zero] at c0
            rw [flatCatalogFields_zero] at c2
            refine ⟨?_, crefs ++ refs, ?_, ?_⟩
            · simp [unwrapFieldsLoop, unwrapFresh_eq, unwrapFields, Value.zero, g1, ht, ha, c1,
                c0, e0, FieldVals.alloc, Value.allocField, Value.Kind]
            · simp [unwrapFieldsLoop, unwrapFresh_eq, unwrapFields, Value.zero, g1, ht, ha, c1,
                e1, Value.Kind]
            · simp [flatCatalogFields, Value.DerefKind, ha, flatCatalog, c2, e2]
        · have ha' : f.Anonymous = false := by simpa using ha
          refine ⟨?_, { loc := loc ++ [Step.field i] ++ [.elem], fl := (fl.Field f).Elem } ::
            refs, ?_, ?_⟩
          · cases n <;>
              simp [unwrapFieldsLoop, g1, ht, ha', e0, FieldVals.alloc, Value.allocField,
                Value.Kind, Value.zero]
          · simp [unwrapFieldsLoop, g1, ht, ha', e1, Value.Kind]
          · simp [flatCatalogFields, ha', e2]

theorem derefKind_allocField (anon : Bool) (v : Value) :
    (v.allocField anon).DerefKind = v.DerefKind := by
  cases v with
  | basic k d => rfl
  | struct fs => cases anon <;> rfl
  | ptr n t =>
    cases t with
    | basic k d => cases n <;> rfl
    | ptr _ t => cases n <;> simp [Value.allocField, Value.DerefKind, Value.zero, derefKind_zero]
    | struct fs => cases anon <;> cases n <;> rfl

theorem leafSlot_allocField (anon : Bool) (v : Value) (loc : Loc) :
    leafSlot (v.allocField anon) loc = leafSlot v loc := by
  cases v with
  | basic k d => rfl
  | struct fs => cases anon <;> rfl
  | ptr n t => rfl

theorem flatCatalog_struct (U : Unicode) (fs : FieldVals) (loc : Loc) :
    flatCatalog U (.struct fs) loc = flatCatalogFields U fs loc 0 := rfl

theorem flatCatalog_ptr_struct (U : Unicode) (n : Bool) (fs : FieldVals) (loc : Loc) :
    flatCatalog U (.ptr n (.struct fs)) loc = flatCatalogFields U fs (loc ++ [.elem]) 0 := rfl

theorem allocField_struct (anon : Bool) (fs : FieldVals) :
    Value.allocField anon (.struct fs) = if anon then .struct fs.alloc else .struct fs := rfl

theorem allocField_ptr_struct (anon : Bool) (fs : FieldVals) :
    Value.allocField anon (.ptr false (.struct fs)) =
      .ptr false (if anon then .struct fs.alloc else .struct fs) := rfl

theorem allocField_nil_struct (anon : Bool) (fs : FieldVals) :
    Value.allocField anon (.ptr true (.struct fs)) =
      .ptr false (if anon then .struct fs.allocFresh else .struct fs.zero) := rfl

theorem allocField_ptr_basic (anon n : Bool) (k : BasicKind) (d : Val) :
    Value.allocField anon (.ptr n (.basic k d)) =
      .ptr false (if n then .basic k (zeroVal k) else .basic k d) := by
  cases n <;> rfl

/-- The flat catalog does not depend on which pointers are nil. -/
theorem flatCatalogFields_alloc (U : Unicode) (fs : FieldVals) : ∀ (loc : Loc) (i : Nat),
    flatCatalogFields U fs.alloc loc i = flatCatalogFields U fs loc i := by
  induction fs using FieldVals.induct_zero with
  | hn => intro loc i; rfl
  | hc f v rest ihs ihp ihr =>
    intro loc i
    simp only [FieldVals.alloc, flatCatalogFields, derefKind_allocField, leafSlot_allocField,
      ihr loc (i + 1)]
    congr 1
    split
    · rename_i hc
      simp only [Bool.and_eq_true] at hc
      cases v with
      | basic k d => rfl
      | struct cfs =>
        rw [allocField_struct, hc.1, if_pos rfl, flatCatalog_struct, flatCatalog_struct,
          ihs cfs rfl]
      | ptr n t =>
        cases t with
        | basic k d => cases n <;> rfl
        | ptr _ _ => cases n <;> rfl
        | struct cfs =>
          cases n with
          | false =>
            rw [allocField_ptr_struct, hc.1, if_pos rfl, flatCatalog_ptr_struct,
              flatCatalog_ptr_struct, (ihp false cfs rfl).1]
          | true =>
            rw [allocField_nil_struct, hc.1, if_pos rfl, flatCatalog_ptr_struct,
              flatCatalog_ptr_struct, ← alloc_zero, (ihp true cfs rfl).2,
              flatCatalogFields_zero]
    · rfl

theorem getTagged_ptr_struct (U : Unicode) (fs : FieldVals) (loc : Loc) (fl : Flag)
    (h0 : (getTaggedLoop U fs (loc ++ [.elem]) fl.Elem 0 []).1 = fs)
    (h1 : ∃ m, (getTaggedLoop U fs (loc ++ [.elem]) fl.Elem 0 []).2 = .ok m) :
    (getTaggedFieldValueMap U (.ptr false (.struct fs)) loc fl).1 = .ptr false (.struct fs) ∧
    ∃ m, (getTaggedFieldValueMap U (.ptr false (.struct fs)) loc fl).2 = .ok m := by
  obtain ⟨m, h1⟩ := h1
  simp only [getTaggedFieldValueMap]
  split
  · rename_i h; simp [Value.DerefNumField] at h
  · exact ⟨rfl, [], rfl⟩
  · simp [h0, h1]

theorem getTagged_struct (U : Unicode) (fs : FieldVals) (loc : Loc) (fl : Flag)
    (h0 : (getTaggedLoop U fs loc fl 0 []).1 = fs)
    (h1 : ∃ m, (getTaggedLoop U fs loc fl 0 []).2 = .ok m) :
    (getTaggedFieldValueMap U (.struct fs) loc fl).1 = .struct fs ∧
    ∃ m, (getTaggedFieldValueMap U (.struct fs) loc fl).2 = .ok m := by
  obtain ⟨m, h1⟩ := h1
  simp [getTaggedFieldValueMap, h0, h1]

theorem getTaggedLoop_bindable (U : Unicode) (fs : FieldVals) :
    ∀ (loc : Loc) (fl : Flag) (i : Nat) (result : TaggedMap), fl.flagAddr = true →
    fl.flagStickyRO = false → fs.Bindable = true →
    (getTaggedLoop U fs.alloc loc fl i result).1 = fs.alloc ∧
    ∃ m, (getTaggedLoop U fs.alloc loc fl i result).2 = .ok m := by
  induction fs using FieldVals.induct_zero with
  | hn => intro loc fl i result _ _ _; exact ⟨rfl, result, rfl⟩
  | hc f v rest ihs ihp ihr =>
    intro loc fl i result h1 h2 hb
    obtain ⟨he, ht, hc, hr⟩ := bindable_cons hb
    obtain ⟨g1, g2, g3, g4, g5, g6, g7, g8⟩ := flag_field_settable fl f h1 h2 he
    have leaf : ∀ (c : Value) (a : Slot),
        (f.Anonymous && c.DerefKind == Kind.Struct) = false →
        getValueInterface c (loc ++ [Step.field i]) (fl.Field f) = (c, .ok a) →
        (getTaggedLoop U (.cons f c rest.alloc) loc fl i result).1 = .cons f c rest.alloc ∧
        ∃ m, (getTaggedLoop U (.cons f c rest.alloc) loc fl i result).2 = .ok m := by
      intro c a hk hv
      obtain ⟨e0, m, e1⟩ := ihr loc fl (i + 1) (result.set (fieldKey U f) a) h1 h2 hr
      exact ⟨by simp [getTaggedLoop, hk, hv, e0], m, by simp [getTaggedLoop, hk, hv, e1]⟩
    have emb : ∀ (c : Value),
        (f.Anonymous && c.DerefKind == Kind.Struct) = true →
        ((getTaggedFieldValueMap U c (loc ++ [Step.field i]) (fl.Field f)).1 = c ∧
          ∃ m, (getTaggedFieldValueMap U c (loc ++ [Step.field i]) (fl.Field f)).2 = .ok m) →
        (getTaggedLoop U (.cons f c rest.alloc) loc fl i result).1 = .cons f c rest.alloc ∧
        ∃ m, (getTaggedLoop U (.cons f c rest.alloc) loc fl i result).2 = .ok m := by
      intro c hk ⟨c0, inner, c1⟩
      obtain ⟨e0, m, e1⟩ := ihr loc fl (i + 1) (result.merge inner) h1 h2 hr
      exact ⟨by simp [getTaggedLoop, hk, c1, c0, e0], m, by simp [getTaggedLoop, hk, c1, e1]⟩
    cases v with
    | basic k d =>
      exact leaf (.basic k d) (.addr (loc ++ [Step.field i]))
        (by simp [Value.DerefKind, toKind_ne_struct])
        (by simp [getValueInterface, g5, g6])
    | struct cfs =>
      by_cases ha : f.Anonymous = true
      · have hcb : cfs.Bindable = true := by simpa [Value.BindableField, ha] using hc
        obtain ⟨c0, c1⟩ := ihs cfs rfl (loc ++ [Step.field i]) (fl.Field f) 0 [] g2 g3 hcb
        simp only [FieldVals.alloc, allocField_struct, ha, if_true]
        exact emb (.struct cfs.alloc) (by simp [Value.DerefKind, ha])
          (getTagged_struct U _ _ _ c0 c1)
      · have ha' : f.Anonymous = false := by simpa using ha
        simp only [FieldVals.alloc, allocField_struct, ha', Bool.false_eq_true, if_false]
        exact leaf (.struct cfs) (.addr (loc ++ [Step.field i])) (by simp [ha'])
          (by simp [getValueInterface, g5, g6])
    | ptr n t =>
      cases t with
      | ptr _ _ => simp [Value.BindableField] at hc
      | basic k d =>
        simp only [FieldVals.alloc, allocField_ptr_basic]
        exact leaf (.ptr false (if n = true then .basic k (zeroVal k) else .basic k d))
          (.addr (loc ++ [Step.field i] ++ [.elem]))
          (by cases n <;> simp [Value.DerefKind, toKind_ne_struct])
          (by simp [getValueInterface, g4])
      | struct cfs =>
        by_cases ha : f.Anonymous = true
        · have hcb : cfs.Bindable = true := by simpa [Value.BindableField, ha] using hc
          cases n with
          | false =>
            obtain ⟨c0, c1⟩ := (ihp false cfs rfl).1 (loc ++ [Step.field i] ++ [.elem])
              (fl.Field f).Elem 0 [] g7 g8 hcb
            simp only [FieldVals.alloc, allocField_ptr_struct, ha, if_true]
            exact emb (.ptr false (.struct cfs.alloc)) (by simp [Value.DerefKind, ha])
              (getTagged_ptr_struct U _ _ _ c0 c1)
          | true =>
            obtain ⟨c0, c1⟩ := (ihp true cfs rfl).2 (loc ++ [Step.field i] ++ [.elem])
              (fl.Field f).Elem 0 [] g7 g8 (by rw [bindable_zero]; exact hcb)
            rw [alloc_zero] at c0 c1
            simp only [FieldVals.alloc, allocField_nil_struct, ha, if_true]
            exact emb (.ptr false (.struct cfs.allocFresh)) (by simp [Value.DerefKind, ha])
              (getTagged_ptr_struct U _ _ _ c0 c1)
        · have ha' : f.Anonymous = false := by simpa using ha
          cases n with
          | false =>
            simp only [FieldVals.alloc, allocField_ptr_struct, ha', Bool.false_eq_true, if_false]
            exact leaf (.ptr false (.struct cfs)) (.addr (loc ++ [Step.field i] ++ [.elem]))
              (by simp [ha']) (by simp [getValueInterface, g4])
          | true =>
            simp only [FieldVals.alloc, allocField_nil_struct, ha', Bool.false_eq_true, if_false]
            exact leaf (.ptr false (.struct cfs.zero)) (.addr (loc ++ [Step.field i] ++ [.elem]))
              (by simp [ha']) (by simp [getValueInterface, g4])

theorem eq_nil_of_get_none (m : TaggedMap) (h : ∀ k, m.get k = none) : m = [] := by
  cases m with
  | nil => rfl
  | cons e t =>
    obtain ⟨a, b⟩ := e
    have := h a
    simp [TaggedMap.get, List.lookup_cons] at this

/-- The binder on a bindable record: it succeeds whenever the strict check
passes, leaves the record with its nil pointers replaced, and binds by name. -/
theorem mapStruct_bindable (U : Unicode) (fs : FieldVals) (columns : List String)
    (strict : Bool) (hb : fs.Bindable = true)
    (hs : strict = false ∨ (flatCatalog U (.struct fs) []).length ≤ columns.length)
    (hcols : flatCatalog U (.struct fs) [] ≠ [] ∨ columns = []) :
    mapStructFieldsIntoSlice U (.struct fs) Flag.root columns strict =
      (.struct fs.alloc, .ok (slotsByName (flatCatalog U (.struct fs) []) columns)) := by
  obtain ⟨u0, refs, u1, u2⟩ := unwrapFieldsLoop_bindable U fs [] Flag.root 0 rfl rfl hb
  obtain ⟨t0, m, t1⟩ := getTaggedLoop_bindable U fs [] Flag.root 0 [] rfl rfl hb
  have hu1 : (unwrapFields (.struct fs) [] Flag.root).1 = .struct fs.alloc := by
    simp [unwrapFields, u0]
  have hu2 : (unwrapFields (.struct fs) [] Flag.root).2 = .ok refs := by
    simp [unwrapFields, u1]
  have ht0 : (getTaggedFieldValueMap U (.struct fs.alloc) [] Flag.root).1 = .struct fs.alloc := by
    simp [getTaggedFieldValueMap, t0]
  have ht1 : (getTaggedFieldValueMap U (.struct fs.alloc) [] Flag.root).2 = .ok m := by
    simp [getTaggedFieldValueMap, t1]
  have hget : ∀ k, m.get k = lastEntry (flatCatalog U (.struct fs) []) k := by
    intro k
    rw [((getTagged_spec_both U).1 (.struct fs.alloc) [] Flag.root m ht1).2 k,
      flatCatalog_struct, flatCatalog_struct, flatCatalogFields_alloc]
  rw [flatCatalog_struct] at hs hcols
  by_cases hne : flatCatalogFields U fs [] 0 = []
  · have hc : columns = [] := by
      rcases hcols with h | h
      · exact absurd hne h
      · exact h
    subst hc
    have hm : m = [] := eq_nil_of_get_none m (fun k => by
      rw [hget k, flatCatalog_struct, hne]; rfl)
    subst hm
    have hr : refs = [] := List.eq_nil_of_length_eq_zero (by rw [u2, hne]; rfl)
    subst hr
    simp [mapStructFieldsIntoSlice, hu1, hu2, ht0, ht1, positionalLoop, slotsByName]
  · have hm : m ≠ [] := by
      intro hm
      obtain ⟨k, s, hk⟩ := lastEntry_exists _ hne
      rw [← flatCatalog_struct, ← hget k, hm] at hk
      simp [TaggedMap.get] at hk
    have hs' : strict = false ∨ refs.length ≤ columns.length := by
      rcases hs with h | h
      · exact Or.inl h
      · exact Or.inr (by rw [u2]; exact h)
    rw [mapStruct_tagged U (.struct fs) Flag.root columns strict refs m hu2 hs'
      (by rw [hu1]; exact ht1) hm, hu1, ht0, taggedLoop_of_spec m _ columns hget]

/-! #### strings.go: field lists -/

/-- Invariant of the inner loop of `RemoveFieldName` after `i` steps. -/
theorem removeStep_invariant (str : String) (out : List String) (i : Nat) (hi : i ≤ out.length) :
    ((List.range i).foldl (removeStep str) (out, 0)).2 ≤ i ∧
    ((List.range i).foldl (removeStep str) (out, 0)).1.length = out.length ∧
    ((List.range i).foldl (removeStep str) (out, 0)).1.take
        ((List.range i).foldl (removeStep str) (out, 0)).2 =
      (out.take i).filter (fun v => v != str) ∧
    ((List.range i).foldl (removeStep str) (out, 0)).1.drop i = out.drop i := by
  induction i with
  | zero => simp
  | succ i ih =>
    have hlt : i < out.length := hi
    obtain ⟨h1, h2, h3, h4⟩ := ih (Nat.le_of_lt hlt)
    rw [List.range_succ, List.foldl_append]
    simp only [List.foldl_cons, List.foldl_nil]
    generalize (List.range i).foldl (removeStep str) (out, 0) = st at h1 h2 h3 h4 ⊢
    have hlt' : i < st.1.length := by rw [h2]; exact hlt
    have hv : st.1.getD i "" = out[i] := by
      rw [List.getD_eq_getElem _ _ hlt']
      have : (st.1.drop i)[0]? = (out.drop i)[0]? := by rw [h4]
      simpa [List.getElem?_drop, List.getElem?_eq_getElem hlt', List.getElem?_eq_getElem hlt]
        using this
    have htk : out.take (i + 1) = out.take i ++ [out[i]] := by
      rw [List.take_succ]; simp [List.getElem?_eq_getElem hlt]
    simp only [removeStep, hv]
    split
    · rename_i hp
      refine ⟨by simp; omega, by simp [h2], ?_, ?_⟩
      · simp only [htk, List.filter_append, List.filter_cons, hp, if_true, List.filter_nil]
        rw [← h3]
        have hn : st.2 < st.1.length := by omega
        have e1 : (st.1.set st.2 out[i]).take st.2 = st.1.take st.2 := by
          rw [List.set_take]
          exact List.set_eq_of_length_le (by simp)
        rw [List.take_succ, e1]
        simp [hn]
      · rw [List.drop_set_of_lt _ _ (by omega : st.2 < i + 1)]
        have : st.1.drop (i + 1) = (st.1.drop i).drop 1 := by simp [Nat.add_comm]
        rw [this, h4]; simp [Nat.add_comm]
    · rename_i hp
      refine ⟨by omega, h2, ?_, ?_⟩
      · simp only [htk, List.filter_append, List.filter_cons, hp, List.filter_nil]
        simpa using h3
      · have : st.1.drop (i + 1) = (st.1.drop i).drop 1 := by simp [Nat.add_comm]
        rw [this, h4]; simp [Nat.add_comm]

/-- One pass of `RemoveFieldName` keeps exactly the elements different from `str`. -/
theorem removePass_eq (out : List String) (str : String) :
    removePass out str = out.filter (fun v => v != str) := by
  obtain ⟨_, _, h3, _⟩ := removeStep_invariant str out out.length (Nat.le_refl _)
  simpa [removePass] using h3

/-- All passes of `RemoveFieldName` together are one filter. -/
theorem removePasses_eq (strs : List String) (out : List String) :
    strs.foldl removePass out = out.filter (fun x => decide (x ∉ strs)) := by
  induction strs generalizing out with
  | nil => simp
  | cons s rest ih =>
    rw [List.foldl_cons, ih, removePass_eq, List.filter_filter]
    congr 1
    funext x
    by_cases h1 : x = s <;> by_cases h2 : x ∈ rest <;> simp [h1, h2]

/-- Appending the last placeholder to a join by `=?,` gives the join by a comma
of the names each followed by `=?`. -/
theorem intercalate_go_placeholder (xs : List String) (acc : String) :
    String.intercalate.go acc "=?," xs ++ "=?" =
      String.intercalate.go (acc ++ "=?") "," (xs.map fun x => x ++ "=?") := by
  induction xs generalizing acc with
  | nil => simp [String.intercalate.go]
  | cons a rest ih =>
    simp only [String.intercalate.go, List.map_cons]
    rw [ih]
    congr 1
    have : ("=?," : String) = "=?" ++ "," := by decide
    rw [this]
    simp [String.append_assoc]

/-! #### unmarshalRows -/

/-- More fuel does not change the result of a loop that ended. -/
theorem forNext_mono {σ : Type} (scanner : rowsScanner σ)
    (body : RowsState σ → RowsState σ × Res Unit) (fuel : Nat) :
    ∀ (st : RowsState σ) (r : RowsState σ × Res Unit), forNext scanner body fuel st = some r →
      ∀ fuel', fuel ≤ fuel' → forNext scanner body fuel' st = some r := by
  induction fuel with
  | zero =>
    intro st r h fuel' _
    simp only [forNext] at h
    cases hn : (scanner.Next st.cursor).2 with
    | true => simp [hn] at h
    | false =>
      simp only [hn] at h
      cases fuel' <;> simpa [forNext, hn] using h
  | succ fuel ih =>
    intro st r h fuel' hle
    obtain ⟨k, rfl⟩ : ∃ k, fuel' = k + 1 := ⟨fuel' - 1, by omega⟩
    simp only [forNext] at h ⊢
    cases hn : (scanner.Next st.cursor).2 with
    | false => simpa [hn] using h
    | true =>
      simp only [hn] at h ⊢
      revert h
      cases hb : (body { st with cursor := (scanner.Next st.cursor).1,
                                 events := st.events ++ [.next true] }).2 with
      | ok u => simp only [hb]; intro h; exact ih _ _ h k (by omega)
      | err e => simp [hb]
      | panic => simp [hb]

/-- A loop over a cursor whose measure decreases with every row ends when the
fuel covers the measure. -/
theorem forNext_terminates {σ : Type} (scanner : rowsScanner σ)
    (body : RowsState σ → RowsState σ × Res Unit) (μ : σ → Nat)
    (hbody : ∀ st u, (body st).2 = .ok u →
      ∃ slots, (body st).1.cursor = (scanner.Scan st.cursor slots).1)
    (hμ : ∀ s slots, (scanner.Next s).2 = true →
      μ (scanner.Scan (scanner.Next s).1 slots).1 < μ s) (fuel : Nat) :
    ∀ st : RowsState σ, μ st.cursor ≤ fuel → (forNext scanner body fuel st).isSome = true := by
  induction fuel with
  | zero =>
    intro st h
    simp only [forNext]
    cases hn : (scanner.Next st.cursor).2 with
    | false => simp
    | true => have := hμ st.cursor [] hn; omega
  | succ fuel ih =>
    intro st h
    simp only [forNext]
    cases hn : (scanner.Next st.cursor).2 with
    | false => simp
    | true =>
      simp only [Bool.not_true, Bool.false_eq_true, if_false]
      cases hb : (body { st with cursor := (scanner.Next st.cursor).1,
                                 events := st.events ++ [.next true] }).2 with
      | ok u =>
        simp only []
        apply ih
        obtain ⟨slots, hc⟩ := hbody _ u hb
        rw [hc]
        have := hμ st.cursor slots hn
        simp only [] at this ⊢
        omega
      | err e => simp
      | panic => simp

/-- The elements given by the events of two runs one after the other. -/
theorem scannedItems_append (elem fresh : Value) (a b : List Event) :
    scannedItems elem fresh (a ++ b) = scannedItems elem fresh a ++ scannedItems elem fresh b := by
  induction a with
  | nil => rfl
  | cons e rest ih =>
    cases e with
    | next m => simpa [scannedItems] using ih
    | columns c => simpa [scannedItems] using ih
    | scan slots stored err =>
      cases err with
      | none => simp [scannedItems, ih]
      | some e => simpa [scannedItems] using ih

/-- A loop whose body appends one element per successful `Scan` ends with the
elements it started with followed by those of the successful calls. -/
theorem forNext_items {σ : Type} (scanner : rowsScanner σ)
    (body : RowsState σ → RowsState σ × Res Unit) (elem fresh : Value)
    (hok : ∀ st u, (body st).2 = .ok u → ∃ slots stored,
      (body st).1.events = st.events ++ [.scan slots stored none] ∧
      (body st).1.items =
        some (st.items.getD [] ++ [rowElement elem (applyScan fresh slots stored)]))
    (herr : ∀ st e, (body st).2 = .err e → (body st).1.items = st.items ∧
      scannedItems elem fresh (body st).1.events = scannedItems elem fresh st.events)
    (fuel : Nat) :
    ∀ (st : RowsState σ) (r : RowsState σ × Res Unit) (pre : List Value),
      forNext scanner body fuel st = some r → r.2 ≠ .panic →
      st.items.getD [] = pre ++ scannedItems elem fresh st.events →
      r.1.items.getD [] = pre ++ scannedItems elem fresh r.1.events := by
  induction fuel with
  | zero =>
    intro st r pre h _ hinv
    simp only [forNext] at h
    cases hn : (scanner.Next st.cursor).2 with
    | true => simp [hn] at h
    | false =>
      simp only [hn, Bool.not_false, if_true, Option.some.injEq] at h
      subst h
      simpa [scannedItems_append, scannedItems] using hinv
  | succ fuel ih =>
    intro st r pre h hp hinv
    simp only [forNext] at h
    cases hn : (scanner.Next st.cursor).2 with
    | false =>
      simp only [hn, Bool.not_false, if_true, Option.some.injEq] at h
      subst h
      simpa [scannedItems_append, scannedItems] using hinv
    | true =>
      simp only [hn, Bool.not_true, Bool.false_eq_true, if_false] at h
      revert h
      cases hb : (body { st with cursor := (scanner.Next st.cursor).1,
                                 events := st.events ++ [.next true] }).2 with
      | ok u =>
        simp only []
        intro h
        obtain ⟨slots, stored, he, hi⟩ := hok _ u hb
        refine ih _ r pre h hp ?_
        rw [hi, he]
        simp only [Option.getD_some, scannedItems_append, scannedItems, List.append_nil]
        rw [hinv, List.append_assoc]
      | err e =>
        simp only [Option.some.injEq]
        intro h
        subst h
        obtain ⟨h1, h2⟩ := herr _ e hb
        simp only [] at h1 h2 ⊢
        rw [h1, h2]
        simpa [scannedItems_append, scannedItems] using hinv
      | panic =>
        simp only [Option.some.injEq]
        intro h
        subst h
        exact absurd rfl hp

/-- What `appendFn` adds when it returns. -/
theorem appendFn_ok (elem item : Value) (items r : Option (List Value))
    (h : appendFn elem items item = .ok r) :
    r = some (items.getD [] ++ [rowElement elem item]) := by
  cases elem with
  | ptr n t =>
    simp only [appendFn] at h
    split at h
    · cases h
    · cases h; rfl
  | basic k x => cases item with
    | ptr n t =>
      cases n with
      | false => simp [appendFn] at h; simp [rowElement, h.symm]
      | true => simp [appendFn] at h
    | basic k2 x2 => simp [appendFn] at h; simp [rowElement, h.symm]
    | struct fs => simp [appendFn] at h; simp [rowElement, h.symm]
  | struct gs => cases item with
    | ptr n t =>
      cases n with
      | false => simp [appendFn] at h; simp [rowElement, h.symm]
      | true => simp [appendFn] at h
    | basic k2 x2 => simp [appendFn] at h; simp [rowElement, h.symm]
    | struct fs => simp [appendFn] at h; simp [rowElement, h.symm]

/-- `appendFn` returns no error. -/
theorem appendFn_ne_err (elem item : Value) (items : Option (List Value)) (e : Error) :
    appendFn elem items item ≠ .err e := by
  cases elem with
  | ptr n t => simp only [appendFn]; split <;> simp
  | basic k x => cases item with
    | ptr n t => cases n <;> simp [appendFn]
    | basic k2 x2 => simp [appendFn]
    | struct fs => simp [appendFn]
  | struct gs => cases item with
    | ptr n t => cases n <;> simp [appendFn]
    | basic k2 x2 => simp [appendFn]
    | struct fs => simp [appendFn]

/-- What `fillFn` leaves behind. -/
theorem fillFn_spec {σ : Type} (scanner : rowsScanner σ) (elem value : Value)
    (st : RowsState σ) :
    (∀ u, (fillFn scanner elem value st).2 = .ok u → ∃ slots stored,
      (fillFn scanner elem value st).1.cursor = (scanner.Scan st.cursor slots).1 ∧
      (fillFn scanner elem value st).1.events = st.events ++ [.scan slots stored none] ∧
      (fillFn scanner elem value st).1.items =
        some (st.items.getD [] ++ [rowElement elem (applyScan value slots stored)])) ∧
    (∀ e, (fillFn scanner elem value st).2 = .err e →
      (fillFn scanner elem value st).1.items = st.items ∧
      scannedItems elem value (fillFn scanner elem value st).1.events =
        scannedItems elem value st.events) := by
  simp only [fillFn]
  cases hs : (scanner.Scan st.cursor [.addr [.elem]]).2.2 with
  | some err => simp [scannedItems_append, scannedItems]
  | none =>
    cases ha : appendFn elem st.items
        (applyScan value [.addr [.elem]] (scanner.Scan st.cursor [.addr [.elem]]).2.1) with
    | ok items =>
      refine ⟨fun u _ => ⟨[.addr [.elem]], _, rfl, rfl, ?_⟩, fun e h => by simp at h⟩
      exact appendFn_ok _ _ _ _ ha
    | err e => exact absurd ha (appendFn_ne_err _ _ _ _)
    | panic => simp

/-- What the body of the loop over struct rows leaves behind. -/
theorem structRow_spec {σ : Type} (U : Unicode) (scanner : rowsScanner σ) (elem base : Value)
    (columns : List String) (strict : Bool) (st : RowsState σ) :
    (∀ u, (structRow U scanner elem base columns strict st).2 = .ok u → ∃ slots stored,
      (structRow U scanner elem base columns strict st).1.cursor =
        (scanner.Scan st.cursor slots).1 ∧
      (structRow U scanner elem base columns strict st).1.events =
        st.events ++ [.scan slots stored none] ∧
      (structRow U scanner elem base columns strict st).1.items =
        some (st.items.getD [] ++ [rowElement elem (applyScan
          (mapStructFieldsIntoSlice U (.ptr false base.zero) Flag.new columns strict).1
          slots stored)])) ∧
    (∀ e, (structRow U scanner elem base columns strict st).2 = .err e →
      (structRow U scanner elem base columns strict st).1.items = st.items ∧
      scannedItems elem
          (mapStructFieldsIntoSlice U (.ptr false base.zero) Flag.new columns strict).1
          (structRow U scanner elem base columns strict st).1.events =
        scannedItems elem
          (mapStructFieldsIntoSlice U (.ptr false base.zero) Flag.new columns strict).1
          st.events) := by
  simp only [structRow]
  cases hm : (mapStructFieldsIntoSlice U (.ptr false base.zero) Flag.new columns strict).2 with
  | err e => simp
  | panic => simp
  | ok values =>
    simp only []
    cases hs : (scanner.Scan st.cursor values).2.2 with
    | some err => simp [scannedItems_append, scannedItems]
    | none =>
      cases ha : appendFn elem st.items
          (applyScan (mapStructFieldsIntoSlice U (.ptr false base.zero) Flag.new columns strict).1
            values (scanner.Scan st.cursor values).2.1) with
      | ok items =>
        refine ⟨fun u _ => ⟨values, _, rfl, rfl, ?_⟩, fun e h => by simp at h⟩
        exact appendFn_ok _ _ _ _ ha
      | err e => exact absurd ha (appendFn_ne_err _ _ _ _)
      | panic => simp

/-- The three ways `unmarshalRows` runs: it returns an error before any loop,
or it runs the loop over scalar rows, or the loop over struct rows. -/
theorem unmarshalRows_cases {σ : Type} (U : Unicode) (d : RowsDest) (scanner : rowsScanner σ)
    (s : σ) (strict : Bool) :
    (∃ e c ev, scannedItems d.slice.elem (scanTarget U d (columnsOf scanner s) strict) ev = [] ∧
      ∀ fuel, unmarshalRows U d scanner s strict fuel =
        some { dest := d, cursor := c, result := .err e, events := ev }) ∨
    (isScalarKind d.slice.elem.Deref.Kind = true ∧
      ∀ fuel, unmarshalRows U d scanner s strict fuel =
        (forNext scanner (fillFn scanner d.slice.elem (.ptr false d.slice.elem.Deref.zero)) fuel
          { items := d.slice.items, cursor := s, events := [] }).map (RowsOutcome.ofLoop d)) ∨
    (isScalarKind d.slice.elem.Deref.Kind = false ∧ d.slice.elem.Deref.Kind = .Struct ∧
      ∃ columns, (scanner.Columns s).2 = .ok columns ∧
      ∀ fuel, unmarshalRows U d scanner s strict fuel =
        (forNext scanner (structRow U scanner d.slice.elem d.slice.elem.Deref columns strict) fuel
          { items := d.slice.items, cursor := (scanner.Columns s).1,
            events := [.columns (scanner.Columns s).2] }).map (RowsOutcome.ofLoop d)) := by
  unfold unmarshalRows
  cases hv : ValidatePtr d.v with
  | some err => exact Or.inl ⟨err, s, [], rfl, fun _ => rfl⟩
  | none =>
    simp only []
    split
    · rename_i rve hrve
      by_cases hk : rve.Kind = .Slice
      · cases hsc : isScalarKind d.slice.elem.Deref.Kind with
        | true =>
          refine Or.inr (Or.inl ⟨rfl, fun fuel => ?_⟩)
          simp [Flag.root, Flag.CanSet, Flag.RO, hk, hsc]
        | false =>
          by_cases hst : d.slice.elem.Deref.Kind = .Struct
          · cases hc : (scanner.Columns s).2 with
            | error err =>
              refine Or.inl ⟨.cursor err, (scanner.Columns s).1, [.columns (.error err)], rfl,
                fun fuel => ?_⟩
              simp [Flag.root, Flag.CanSet, Flag.RO, hk, hsc, hst, hc]
            | ok columns =>
              refine Or.inr (Or.inr ⟨rfl, hst, columns, rfl, fun fuel => ?_⟩)
              simp [Flag.root, Flag.CanSet, Flag.RO, hk, hsc, hst, hc]
          · refine Or.inl ⟨.ErrUnsupportedValueType, s, [], rfl, fun fuel => ?_⟩
            simp [Flag.root, Flag.CanSet, Flag.RO, hk, hsc, hst]
      · refine Or.inl ⟨.ErrUnsupportedValueType, s, [], rfl, fun fuel => ?_⟩
        simp [Flag.root, Flag.CanSet, Flag.RO, hk]
    · exact Or.inl ⟨.notValidPointer, s, [], rfl, fun _ => rfl⟩

/-- Every row the in-memory cursor visits shortens the list of pending rows. -/
theorem memRows_measure (s : MemRows) (slots : List Slot) (h : (memRows.Next s).2 = true) :
    (memRows.Scan (memRows.Next s).1 slots).1.pending.length < s.pending.length := by
  cases hp : s.pending with
  | nil => simp [memRows, hp] at h
  | cons row rest =>
    simp only [memRows, hp]
    split <;> simp

/-- A loop over a cursor that has no row makes one call of `Next` and returns. -/
theorem forNext_no_rows {σ : Type} (scanner : rowsScanner σ)
    (body : RowsState σ → RowsState σ × Res Unit) (fuel : Nat) (st : RowsState σ)
    (h : (scanner.Next st.cursor).2 = false) :
    forNext scanner body fuel st =
      some ({ st with cursor := (scanner.Next st.cursor).1,
                      events := st.events ++ [.next false] }, .ok ()) := by
  cases fuel <;> simp [forNext, h]

/-! #### Allocation of nil pointer fields -/

set_option maxHeartbeats 1600000 in
/-- One step of the loop of `unwrapFields` that succeeds: the field keeps its
descriptor, the loop over the rest succeeds, a settable pointer field is
non-nil afterwards, one that is not an embedded record pointing to its former
target, or to a zero value when it was nil, and a field that cannot be set is
unchanged. -/
theorem unwrapFieldsLoop_step (f : StructField) (child : Value) (rest : FieldVals)
    (loc : Loc) (fl : Flag) (i : Nat) (refs : List FieldRef)
    (h : (unwrapFieldsLoop (.cons f child rest) loc fl i).2 = .ok refs) :
    ∃ child' refs',
      (unwrapFieldsLoop (.cons f child rest) loc fl i).1 =
        .cons f child' (unwrapFieldsLoop rest loc fl (i + 1)).1 ∧
      (unwrapFieldsLoop rest loc fl (i + 1)).2 = .ok refs' ∧
      (∀ n t, child = .ptr n t → (fl.Field f).CanSet = true →
        ¬ (t.Kind = .Struct ∧ f.Anonymous = true) →
        child' = .ptr false (if n then t.zero else t)) ∧
      (∀ n t, child = .ptr n t → (fl.Field f).CanSet = true → ∃ t', child' = .ptr false t') ∧
      ((fl.Field f).CanSet = false → child' = child) := by
  cases child with
  | basic k d =>
    by_cases hcs : (fl.Field f).CanSet = true <;> by_cases ht : f.Tag = "-" <;>
      cases hr : (unwrapFieldsLoop rest loc fl (i + 1)).2 <;>
      simp [unwrapFieldsLoop, hcs, ht, hr] at h ⊢
  | struct cfs =>
    by_cases hcs : (fl.Field f).CanSet = true <;> by_cases ht : f.Tag = "-" <;>
      by_cases ha : f.Anonymous = true <;>
      cases hr : (unwrapFieldsLoop rest loc fl (i + 1)).2 <;>
      cases hc : (unwrapFieldsLoop cfs (loc ++ [Step.field i]) (fl.Field f) 0).2 <;>
      simp [unwrapFieldsLoop, hcs, ht, ha, hr, hc] at h ⊢
  | ptr n t =>
    by_cases hcs : (fl.Field f).CanSet = true
    · cases n with
      | false =>
        cases hr : (unwrapFieldsLoop rest loc fl (i + 1)).2 <;>
          cases hc : (unwrapFields t (loc ++ [Step.field i, .elem]) (fl.Field f).Elem).2 <;>
          by_cases hk : t.Kind = .Ptr <;> by_cases ht : f.Tag = "-" <;>
          by_cases hs : t.Kind = .Struct <;> by_cases ha : f.Anonymous = true <;>
          simp [unwrapFieldsLoop, hcs, hk, ht, hs, ha, hr, hc] at h ⊢
      | true =>
        cases hr : (unwrapFieldsLoop rest loc fl (i + 1)).2 <;>
          cases hc : (unwrapFresh t (loc ++ [Step.field i, .elem]) (fl.Field f).Elem).2 <;>
          by_cases hk : t.Kind = .Ptr <;> by_cases ht : f.Tag = "-" <;>
          by_cases hs : t.Kind = .Struct <;> by_cases ha : f.Anonymous = true <;>
          simp [unwrapFieldsLoop, hcs, hk, ht, hs, ha, hr, hc] at h ⊢
    · cases hr : (unwrapFieldsLoop rest loc fl (i + 1)).2 <;>
        simp [unwrapFieldsLoop, hcs, hr] at h ⊢

/-- The call `getValueInterface` leaves a pointer that is not nil as it is. -/
theorem getValueInterface_nonnil (t : Value) (loc : Loc) (fl : Flag) :
    (getValueInterface (.ptr false t) loc fl).1 = .ptr false t := by
  simp only [getValueInterface]
  split <;> simp

/-- One step of the loop of `getTaggedFieldValueMap` that succeeds: the field
keeps its descriptor, the loop over the rest succeeds with the same final map,
and a pointer field that is not nil and not an embedded record is unchanged. -/
theorem getTaggedLoop_step (U : Unicode) (f : StructField) (child : Value) (rest : FieldVals)
    (loc : Loc) (fl : Flag) (i : Nat) (result m : TaggedMap)
    (h : (getTaggedLoop U (.cons f child rest) loc fl i result).2 = .ok m) :
    ∃ child' result',
      (getTaggedLoop U (.cons f child rest) loc fl i result).1 =
        .cons f child' (getTaggedLoop U rest loc fl (i + 1) result').1 ∧
      (getTaggedLoop U rest loc fl (i + 1) result').2 = .ok m ∧
      (∀ t, child = .ptr false t → ¬ (f.Anonymous = true ∧ t.DerefKind = .Struct) →
        child' = child) := by
  by_cases hcond : (f.Anonymous && child.DerefKind == .Struct) = true
  · cases hc : (getTaggedFieldValueMap U child (loc ++ [Step.field i]) (fl.Field f)).2 with
    | ok inner =>
      simp only [getTaggedLoop, hcond, hc, if_true] at h ⊢
      refine ⟨_, _, rfl, h, fun t ht hn => ?_⟩
      subst ht
      simp [Value.DerefKind] at hcond
      exact absurd hcond hn
    | err e => simp [getTaggedLoop, hcond, hc] at h
    | panic => simp [getTaggedLoop, hcond, hc] at h
  · cases hg : (getValueInterface child (loc ++ [Step.field i]) (fl.Field f)).2 with
    | ok a =>
      simp only [getTaggedLoop, hcond, hg, if_false] at h ⊢
      refine ⟨_, _, rfl, h, fun t ht _ => ?_⟩
      subst ht
      exact getValueInterface_nonnil t _ _
    | err e => simp [getTaggedLoop, hcond, hg] at h
    | panic => simp [getTaggedLoop, hcond, hg] at h

/-- A value of kind `Struct` is a struct also after `Deref`. -/
theorem derefKind_of_kind_struct (t : Value) (h : t.Kind = .Struct) : t.DerefKind = .Struct := by
  cases t with
  | basic k d =>
    have := toKind_ne_struct k
    simp only [Value.Kind] at h
    simp [h] at this
  | ptr n t => simp [Value.Kind] at h
  | struct fs => rfl

/-- After a successful `unwrapFields` loop a settable pointer field that is not
an embedded record is not nil: it has the target it had, or the zero value of
its element type when it was nil. -/
theorem unwrapFieldsLoop_field (fs : FieldVals) :
    ∀ (loc : Loc) (fl : Flag) (i : Nat) (refs : List FieldRef) (j : Nat) (f : StructField)
      (n : Bool) (t : Value),
      (unwrapFieldsLoop fs loc fl i).2 = .ok refs → fs.toList[j]? = some (f, .ptr n t) →
      (fl.Field f).CanSet = true → ¬ (f.Anonymous = true ∧ t.DerefKind = .Struct) →
      (unwrapFieldsLoop fs loc fl i).1.toList[j]? =
        some (f, .ptr false (if n then t.zero else t)) := by
  induction fs using FieldVals.induct with
  | hn => intro loc fl i refs j f n t _ hf; simp [FieldVals.toList] at hf
  | hc g child rest ih =>
    intro loc fl i refs j f n t h hf hcs hleaf
    obtain ⟨child', refs', h1, h2, h3⟩ := unwrapFieldsLoop_step g child rest loc fl i refs h
    rw [h1]
    cases j with
    | zero =>
      simp only [FieldVals.toList, List.getElem?_cons_zero, Option.some.injEq,
        Prod.mk.injEq] at hf ⊢
      obtain ⟨rfl, rfl⟩ := hf
      exact ⟨rfl, h3.1 n t rfl hcs
        (fun hk => hleaf ⟨hk.2, derefKind_of_kind_struct t hk.1⟩)⟩
    | succ j =>
      simp only [FieldVals.toList, List.getElem?_cons_succ] at hf ⊢
      exact ih loc fl (i + 1) refs' j f n t h2 hf hcs hleaf

/-- After a successful `getTaggedFieldValueMap` loop a pointer field that is
not nil and not an embedded record is as it was. -/
theorem getTaggedLoop_field (U : Unicode) (fs : FieldVals) :
    ∀ (loc : Loc) (fl : Flag) (i : Nat) (result m : TaggedMap) (j : Nat) (f : StructField)
      (t : Value),
      (getTaggedLoop U fs loc fl i result).2 = .ok m → fs.toList[j]? = some (f, .ptr false t) →
      ¬ (f.Anonymous = true ∧ t.DerefKind = .Struct) →
      (getTaggedLoop U fs loc fl i result).1.toList[j]? = some (f, .ptr false t) := by
  induction fs using FieldVals.induct with
  | hn => intro loc fl i result m j f t _ hf; simp [FieldVals.toList] at hf
  | hc g child rest ih =>
    intro loc fl i result m j f t h hf hleaf
    obtain ⟨child', result', h1, h2, h3⟩ := getTaggedLoop_step U g child rest loc fl i result m h
    rw [h1]
    cases j with
    | zero =>
      simp only [FieldVals.toList, List.getElem?_cons_zero, Option.some.injEq,
        Prod.mk.injEq] at hf ⊢
      obtain ⟨rfl, rfl⟩ := hf
      exact ⟨rfl, h3 t rfl hleaf⟩
    | succ j =>
      simp only [FieldVals.toList, List.getElem?_cons_succ] at hf ⊢
      exact ih loc fl (i + 1) result' m j f t h2 hf hleaf

/-- A field that is not an embedded record has its entry in the catalog. -/
theorem mem_flatCatalogFields (U : Unicode) (fs : FieldVals) :
    ∀ (loc : Loc) (i j : Nat) (f : StructField) (child : Value),
      fs.toList[j]? = some (f, child) →
      ¬ (f.Anonymous = true ∧ child.DerefKind = .Struct) →
      (fieldKey U f, leafSlot child (loc ++ [Step.field (i + j)])) ∈
        flatCatalogFields U fs loc i := by
  induction fs using FieldVals.induct with
  | hn => intro loc i j f child hf; simp [FieldVals.toList] at hf
  | hc g c rest ih =>
    intro loc i j f child hf hleaf
    cases j with
    | zero =>
      simp only [FieldVals.toList, List.getElem?_cons_zero, Option.some.injEq,
        Prod.mk.injEq] at hf
      obtain ⟨rfl, rfl⟩ := hf
      have : (g.Anonymous && c.DerefKind == .Struct) = false := by
        simpa using hleaf
      simp [flatCatalogFields, this]
    | succ j =>
      simp only [FieldVals.toList, List.getElem?_cons_succ] at hf
      have := ih loc (i + 1) j f child hf hleaf
      rw [Nat.add_assoc, Nat.add_comm 1 j] at this
      simp only [flatCatalogFields, List.mem_append]
      exact Or.inr this

/-- Reading below field `j` is reading below its value. -/
theorem load_of_toList (fs : FieldVals) :
    ∀ (j : Nat) (f : StructField) (c : Value) (l : Loc),
      fs.toList[j]? = some (f, c) → fs.load j l = c.load l := by
  induction fs using FieldVals.induct with
  | hn => intro j f c l hf; simp [FieldVals.toList] at hf
  | hc g v rest ih =>
    intro j f c l hf
    cases j with
    | zero =>
      simp only [FieldVals.toList, List.getElem?_cons_zero, Option.some.injEq,
        Prod.mk.injEq] at hf
      obtain ⟨rfl, rfl⟩ := hf
      simp [FieldVals.load]
    | succ j =>
      simp only [FieldVals.toList, List.getElem?_cons_succ] at hf
      simpa [FieldVals.load] using ih j f c l hf

/-- A name that has an entry resolves to some entry. -/
theorem lastEntry_of_mem (entries : List (String × Slot)) (k : String) (s : Slot)
    (h : (k, s) ∈ entries) : ∃ s', lastEntry entries k = some s' := by
  cases hl : lastEntry entries k with
  | some s' => exact ⟨s', rfl⟩
  | none =>
    exfalso
    simp only [lastEntry] at hl
    rw [List.lookup_eq_none_iff] at hl
    simpa using hl (k, s) (List.mem_reverse.2 h)

/-- Field `j` after a change below it. -/
theorem modify_toList (g : Value → Value) (fs : FieldVals) :
    ∀ (j : Nat) (f : StructField) (c : Value) (l : Loc),
      fs.toList[j]? = some (f, c) → (fs.modify g j l).toList[j]? = some (f, c.modify g l) := by
  induction fs using FieldVals.induct with
  | hn => intro j f c l hf; simp [FieldVals.toList] at hf
  | hc h v rest ih =>
    intro j f c l hf
    cases j with
    | zero =>
      simp only [FieldVals.toList, List.getElem?_cons_zero, Option.some.injEq,
        Prod.mk.injEq] at hf
      obtain ⟨rfl, rfl⟩ := hf
      simp [FieldVals.modify, FieldVals.toList]
    | succ j =>
      simp only [FieldVals.toList, List.getElem?_cons_succ] at hf
      simpa [FieldVals.modify, FieldVals.toList] using ih j f c l hf

/-! #### The ordered leaf-field list -/
theorem unwrappableFresh_zero (fs : FieldVals) : ∀ (fl : Flag),
    UnwrappableFresh fs.zero fl = UnwrappableFresh fs fl := by
  induction fs using FieldVals.induct_deep with
  | hn => intro fl; rfl
  | hc f v rest ihs ihp ihr =>
    intro fl
    cases v with
    | basic k d => simp [FieldVals.zero, Value.zero, UnwrappableFresh, ihr fl]
    | struct cfs => simp [FieldVals.zero, Value.zero, UnwrappableFresh, ihr fl, ihs cfs rfl]
    | ptr n t =>
      cases t with
      | basic k d => simp [FieldVals.zero, Value.zero, UnwrappableFresh, ihr fl, Value.Kind]
      | ptr _ _ => simp [FieldVals.zero, Value.zero, UnwrappableFresh, ihr fl, Value.Kind]
      | struct cfs =>
        simp [FieldVals.zero, Value.zero, UnwrappableFresh, ihr fl, Value.Kind, ihp n cfs rfl]

/-- The condition on a freshly created record is `Unwrappable` on the zero
value of its type. -/
theorem unwrappableFresh_eq (fs : FieldVals) : ∀ (fl : Flag),
    UnwrappableFresh fs fl = Unwrappable fs.zero fl := by
  induction fs using FieldVals.induct_deep with
  | hn => intro fl; rfl
  | hc f v rest ihs ihp ihr =>
    intro fl
    cases v with
    | basic k d => simp [FieldVals.zero, Value.zero, UnwrappableFresh, Unwrappable, ihr fl]
    | struct cfs =>
      simp [FieldVals.zero, Value.zero, UnwrappableFresh, Unwrappable, ihr fl, ihs cfs rfl]
    | ptr n t =>
      cases t with
      | basic k d =>
        simp [FieldVals.zero, Value.zero, UnwrappableFresh, Unwrappable, ihr fl, Value.Kind]
      | ptr _ _ =>
        simp [FieldVals.zero, Value.zero, UnwrappableFresh, Unwrappable, ihr fl, Value.Kind]
      | struct cfs =>
        simp [FieldVals.zero, Value.zero, UnwrappableFresh, Unwrappable, ihr fl, Value.Kind,
          unwrappableFresh_zero]

/-- The ordered leaf-field list depends on the type only. -/
theorem leafFields_zero (fs : FieldVals) : ∀ (loc : Loc) (fl : Flag) (i : Nat),
    leafFields fs.zero loc fl i = leafFields fs loc fl i := by
  induction fs using FieldVals.induct_deep with
  | hn => intro loc fl i; rfl
  | hc f v rest ihs ihp ihr =>
    intro loc fl i
    cases v with
    | basic k d => simp [FieldVals.zero, Value.zero, leafFields, ihr loc fl (i + 1)]
    | struct cfs =>
      simp [FieldVals.zero, Value.zero, leafFields, ihr loc fl (i + 1), ihs cfs rfl]
    | ptr n t =>
      cases t with
      | basic k d => simp [FieldVals.zero, Value.zero, leafFields, ihr loc fl (i + 1)]
      | ptr _ _ => simp [FieldVals.zero, Value.zero, leafFields, ihr loc fl (i + 1)]
      | struct cfs =>
        simp [FieldVals.zero, Value.zero, leafFields, ihr loc fl (i + 1), ihp n cfs rfl]

/-- The loop of `unwrapFields` returns the ordered leaf-field list when no
field it reaches is a nil pointer to a pointer, and panics otherwise. -/
theorem unwrapFieldsLoop_eq (fs : FieldVals) :
    ∀ (loc : Loc) (fl : Flag) (i : Nat),
      (unwrapFieldsLoop fs loc fl i).2 =
        if Unwrappable fs fl then .ok (leafFields fs loc fl i) else .panic := by
  induction fs using FieldVals.induct_zero with
  | hn => intro loc fl i; simp [unwrapFieldsLoop, Unwrappable, leafFields]
  | hc f v rest ihs ihp ihr =>
    intro loc fl i
    have hr := ihr loc fl (i + 1)
    cases v with
    | basic k d =>
      by_cases hcs : (fl.Field f).CanSet = true <;> by_cases ht : f.Tag = "-" <;>
        cases hu : Unwrappable rest fl <;>
        simp [unwrapFieldsLoop, Unwrappable, leafFields, hcs, ht, hu, hr]
    | struct cfs =>
      have hc := ihs cfs rfl (loc ++ [Step.field i]) (fl.Field f) 0
      by_cases hcs : (fl.Field f).CanSet = true <;> by_cases ht : f.Tag = "-" <;>
        by_cases ha : f.Anonymous = true <;>
        cases hu : Unwrappable rest fl <;> cases hv : Unwrappable cfs (fl.Field f) <;>
        simp [unwrapFieldsLoop, Unwrappable, leafFields, hcs, ht, ha, hu, hv, hr, hc]
    | ptr n t =>
      cases t with
      | basic k d =>
        by_cases hcs : (fl.Field f).CanSet = true <;> by_cases ht : f.Tag = "-" <;>
          cases n <;> cases hu : Unwrappable rest fl <;>
          simp [unwrapFieldsLoop, Unwrappable, leafFields, hcs, ht, hu, hr, Value.Kind,
            toKind_ne_struct, toKind_ne_ptr]
      | ptr n2 t2 =>
        by_cases hcs : (fl.Field f).CanSet = true <;> by_cases ht : f.Tag = "-" <;>
          cases n <;> cases hu : Unwrappable rest fl <;>
          simp [unwrapFieldsLoop, Unwrappable, leafFields, hcs, ht, hu, hr, Value.Kind]
      | struct cfs =>
        cases n with
        | false =>
          have hc := (ihp false cfs rfl).1 (loc ++ [Step.field i, .elem]) (fl.Field f).Elem 0
          by_cases hcs : (fl.Field f).CanSet = true <;> by_cases ht : f.Tag = "-" <;>
            by_cases ha : f.Anonymous = true <;>
            cases hu : Unwrappable rest fl <;>
            cases hv : Unwrappable cfs (fl.Field f).Elem <;>
            simp [unwrapFieldsLoop, unwrapFields, Unwrappable, leafFields, hcs, ht, ha, hu, hv,
              hr, hc, Value.Kind]
        | true =>
          have hc := (ihp true cfs rfl).2 (loc ++ [Step.field i, .elem]) (fl.Field f).Elem 0
          rw [← unwrapFreshLoop_eq, ← unwrappableFresh_eq, leafFields_zero] at hc
          by_cases hcs : (fl.Field f).CanSet = true <;> by_cases ht : f.Tag = "-" <;>
            by_cases ha : f.Anonymous = true <;>
            cases hu : Unwrappable rest fl <;>
            cases hv : UnwrappableFresh cfs (fl.Field f).Elem <;>
            simp [unwrapFieldsLoop, unwrapFresh, Unwrappable, leafFields, hcs, ht, ha, hu, hv,
              hr, hc, Value.Kind]

/-- Every handle of the ordered leaf-field list is settable. -/
theorem leafFields_settable (fs : FieldVals) :
    ∀ (loc : Loc) (fl : Flag) (i : Nat), ∀ r ∈ leafFields fs loc fl i, r.fl.CanSet = true := by
  induction fs using FieldVals.induct_deep with
  | hn => intro loc fl i r hr; simp [leafFields] at hr
  | hc f v rest ihs ihp ihr =>
    intro loc fl i r hr
    have key : ∀ (own : List FieldRef),
        (r ∈ own → (fl.Field f).CanSet = true → r.fl.CanSet = true) →
        r ∈ (if ((fl.Field f).CanSet && f.Tag != "-") = true then own else []) ++
          leafFields rest loc fl (i + 1) → r.fl.CanSet = true := by
      intro own hown hmem
      rcases List.mem_append.1 hmem with h | h
      · by_cases hcs : ((fl.Field f).CanSet && f.Tag != "-") = true
        · rw [if_pos hcs] at h
          simp only [Bool.and_eq_true] at hcs
          exact hown h hcs.1
        · rw [if_neg hcs] at h
          simp at h
      · exact ihr loc fl (i + 1) r h
    have helem : (fl.Field f).CanSet = true → (fl.Field f).Elem.CanSet = true := by
      intro h1
      simp only [Flag.CanSet, Flag.RO, Flag.Elem, Bool.and_eq_true] at h1 ⊢
      exact ⟨trivial, h1.2⟩
    cases v with
    | basic k d =>
      refine key _ (fun h h1 => ?_) (by simp only [leafFields] at hr; exact hr)
      simp only [List.mem_singleton] at h
      rw [h]; exact h1
    | struct cfs =>
      cases ha : f.Anonymous
      rotate_left
      · refine key (leafFields cfs (loc ++ [Step.field i]) (fl.Field f) 0)
          (fun h _ => ihs cfs rfl _ _ _ r h) (by simp only [leafFields, ha, if_true, Bool.false_eq_true, if_false] at hr; exact hr)
      · refine key [{ loc := loc ++ [Step.field i], fl := fl.Field f }] (fun h h1 => ?_)
          (by simp only [leafFields, ha, if_true, Bool.false_eq_true, if_false] at hr; exact hr)
        simp only [List.mem_singleton] at h
        rw [h]; exact h1
    | ptr n t =>
      cases t with
      | basic k d =>
        refine key [{ loc := loc ++ [Step.field i, .elem], fl := (fl.Field f).Elem }]
          (fun h h1 => ?_) (by simp only [leafFields] at hr; exact hr)
        simp only [List.mem_singleton] at h
        rw [h]; exact helem h1
      | ptr n2 t2 =>
        refine key [{ loc := loc ++ [Step.field i, .elem], fl := (fl.Field f).Elem }]
          (fun h h1 => ?_) (by simp only [leafFields] at hr; exact hr)
        simp only [List.mem_singleton] at h
        rw [h]; exact helem h1
      | struct cfs =>
        cases ha : f.Anonymous
        rotate_left
        · refine key (leafFields cfs (loc ++ [Step.field i, .elem]) (fl.Field f).Elem 0)
            (fun h _ => ihp n cfs rfl _ _ _ r h) (by simp only [leafFields, ha, if_true, Bool.false_eq_true, if_false] at hr; exact hr)
        · refine key [{ loc := loc ++ [Step.field i, .elem], fl := (fl.Field f).Elem }]
            (fun h h1 => ?_) (by simp only [leafFields, ha, if_true, Bool.false_eq_true, if_false] at hr; exact hr)
          simp only [List.mem_singleton] at h
          rw [h]; exact helem h1

/-! #### Unexported fields -/
/-- The handle of an unexported field is read-only. -/
theorem flag_field_unexported (fl : Flag) (f : StructField) (h : f.Exported = false) :
    (fl.Field f).CanInterface = false ∧ (fl.Field f).Addr.CanInterface = false := by
  cases ha : f.Anonymous <;>
    simp [Flag.Field, Flag.CanInterface, Flag.Addr, Flag.RO, h, ha]

/-- The call `getValueInterface` fails on an unexported field. -/
theorem getValueInterface_unexported (child : Value) (loc : Loc) (fl : Flag) (f : StructField)
    (h : f.Exported = false) :
    (getValueInterface child loc (fl.Field f)).2 = .err .ErrNotReadableValue := by
  obtain ⟨h1, h2⟩ := flag_field_unexported fl f h
  cases child <;> simp [getValueInterface, h1, h2]

/-- The loop of `getTaggedFieldValueMap` does not succeed on a record with an
unexported field that is not embedded. -/
theorem getTaggedLoop_unexported (U : Unicode) (fs : FieldVals) :
    ∀ (loc : Loc) (fl : Flag) (i : Nat) (result m : TaggedMap) (j : Nat) (f : StructField)
      (child : Value),
      fs.toList[j]? = some (f, child) → f.Exported = false → f.Anonymous = false →
      (getTaggedLoop U fs loc fl i result).2 ≠ .ok m := by
  induction fs using FieldVals.induct with
  | hn => intro loc fl i result m j f child hf; simp [FieldVals.toList] at hf
  | hc g c rest ih =>
    intro loc fl i result m j f child hf hexp hanon h
    cases j with
    | zero =>
      simp only [FieldVals.toList, List.getElem?_cons_zero, Option.some.injEq,
        Prod.mk.injEq] at hf
      obtain ⟨rfl, rfl⟩ := hf
      have hg := getValueInterface_unexported c (loc ++ [Step.field i]) fl g hexp
      simp [getTaggedLoop, hanon, hg] at h
    | succ j =>
      simp only [FieldVals.toList, List.getElem?_cons_succ] at hf
      obtain ⟨_, result', _, h2, _⟩ := getTaggedLoop_step U g c rest loc fl i result m h
      exact ih loc fl (i + 1) result' m j f child hf hexp hanon h2

/-- A successful loop of `unwrapFields` keeps the descriptor of every field. -/
theorem unwrapFieldsLoop_descriptor (fs : FieldVals) :
    ∀ (loc : Loc) (fl : Flag) (i : Nat) (refs : List FieldRef) (j : Nat) (f : StructField)
      (child : Value),
      (unwrapFieldsLoop fs loc fl i).2 = .ok refs → fs.toList[j]? = some (f, child) →
      ∃ child', (unwrapFieldsLoop fs loc fl i).1.toList[j]? = some (f, child') := by
  induction fs using FieldVals.induct with
  | hn => intro loc fl i refs j f child _ hf; simp [FieldVals.toList] at hf
  | hc g c rest ih =>
    intro loc fl i refs j f child h hf
    obtain ⟨c', refs', h1, h2, _⟩ := unwrapFieldsLoop_step g c rest loc fl i refs h
    rw [h1]
    cases j with
    | zero =>
      simp only [FieldVals.toList, List.getElem?_cons_zero, Option.some.injEq,
        Prod.mk.injEq] at hf
      obtain ⟨rfl, rfl⟩ := hf
      exact ⟨c', by simp [FieldVals.toList]⟩
    | succ j =>
      simp only [FieldVals.toList, List.getElem?_cons_succ] at hf ⊢
      exact ih loc fl (i + 1) refs' j f child h2 hf

/-- A record of scalar leaves is unwrappable. -/
theorem unwrappable_of_scalars (fs : FieldVals) :
    ∀ fl : Flag, fs.Scalars = true → Unwrappable fs fl = true := by
  induction fs using FieldVals.induct with
  | hn => intro fl _; rfl
  | hc g c rest ih =>
    intro fl h
    cases c with
    | basic k d =>
      simp only [FieldVals.Scalars, Bool.true_and] at h
      simp [Unwrappable, ih fl h]
    | ptr n t => simp [FieldVals.Scalars] at h
    | struct cfs => simp [FieldVals.Scalars] at h

/-- The loop of `unwrapFields` leaves a record of scalar leaves as it is. -/
theorem unwrapFieldsLoop_scalars (fs : FieldVals) :
    ∀ (loc : Loc) (fl : Flag) (i : Nat), fs.Scalars = true →
      (unwrapFieldsLoop fs loc fl i).1 = fs := by
  induction fs using FieldVals.induct with
  | hn => intro loc fl i _; rfl
  | hc g c rest ih =>
    intro loc fl i h
    cases c with
    | basic k d =>
      simp only [FieldVals.Scalars, Bool.true_and] at h
      have hr := ih loc fl (i + 1) h
      by_cases hcs : (fl.Field g).CanSet = true <;> by_cases ht : g.Tag = "-" <;>
        simp [unwrapFieldsLoop, hcs, ht, hr]
    | ptr n t => simp [FieldVals.Scalars] at h
    | struct cfs => simp [FieldVals.Scalars] at h

/-- The loop of `getTaggedFieldValueMap` does not panic on a record of scalar
leaves. -/
theorem getTaggedLoop_scalars (U : Unicode) (fs : FieldVals) :
    ∀ (loc : Loc) (fl : Flag) (i : Nat) (result : TaggedMap), fs.Scalars = true →
      (getTaggedLoop U fs loc fl i result).2 ≠ .panic := by
  induction fs using FieldVals.induct with
  | hn => intro loc fl i result _; simp [getTaggedLoop]
  | hc g c rest ih =>
    intro loc fl i result h
    cases c with
    | basic k d =>
      simp only [FieldVals.Scalars, Bool.true_and] at h
      have hk : ((Value.basic k d).DerefKind == Kind.Struct) = false := by
        simpa [Value.DerefKind] using toKind_ne_struct k
      simp only [getTaggedLoop, hk, Bool.and_false, Bool.false_eq_true, if_false]
      cases hg : (getValueInterface (.basic k d) (loc ++ [Step.field i]) (fl.Field g)).2 with
      | ok a => simpa using ih loc fl (i + 1) _ h
      | err e => simp
      | panic =>
        exfalso
        simp only [getValueInterface] at hg
        split at hg <;> simp at hg
    | ptr n t => simp [FieldVals.Scalars] at h
    | struct cfs => simp [FieldVals.Scalars] at h

/-! #### Column names -/
/-- Subtracting 32 from a lower-case ASCII letter gives the upper-case letter
that `ToLower` maps back to it. -/
theorem upper_of_lower_code : ∀ n : Nat, n < 123 → 97 ≤ n →
    (runeString ((n : Int) - 32)).toNat < 128 ∧
    ascii.IsUpper (runeString ((n : Int) - 32)) = true ∧
    ascii.ToLower (runeString ((n : Int) - 32)) = Char.ofNat n := by
  decide

/-- Lower-case ASCII letters and digits are not upper case and are their own
lower case. -/
theorem lower_code_fixed : ∀ n : Nat, n < 123 → 48 ≤ n → (n ≤ 57 ∨ 97 ≤ n) →
    ascii.IsUpper (Char.ofNat n) = false ∧ ascii.ToLower (Char.ofNat n) = Char.ofNat n := by
  decide

/-- The first rune of a segment after `b[j] -= 32`. -/
theorem upper_of_lower (U : Unicode) (hU : U.AgreesOnAscii) (c : Char)
    (h : isLowerLetter c = true) :
    U.IsUpper (runeString ((c.toNat : Int) - 32)) = true ∧
    U.ToLower (runeString ((c.toNat : Int) - 32)) = c := by
  simp only [isLowerLetter, decide_eq_true_eq] at h
  have h1 : c.toNat < 123 := Nat.lt_succ_of_le h.2
  obtain ⟨a, b, d⟩ := upper_of_lower_code c.toNat h1 h.1
  obtain ⟨e1, e2⟩ := hU _ a
  rw [e1, e2, b, d, Char.ofNat_toNat]
  exact ⟨rfl, rfl⟩

/-- The other runes of a segment are not upper case and are their own lower
case. -/
theorem lower_fixed (U : Unicode) (hU : U.AgreesOnAscii) (c : Char)
    (h : (isLowerLetter c || isAsciiDigit c) = true) :
    U.IsUpper c = false ∧ U.ToLower c = c := by
  simp only [isLowerLetter, isAsciiDigit, Bool.or_eq_true, decide_eq_true_eq] at h
  have h1 : c.toNat < 123 := by
    rcases h with h | h
    · exact Nat.lt_succ_of_le h.2
    · exact Nat.lt_of_le_of_lt h.2 (by decide)
  have h2 : 48 ≤ c.toNat := by
    rcases h with h | h
    · exact Nat.le_trans (by decide) h.1
    · exact h.1
  have h3 : c.toNat ≤ 57 ∨ 97 ≤ c.toNat := by
    rcases h with h | h
    · exact Or.inr h.1
    · exact Or.inl h.2
  obtain ⟨a, b⟩ := lower_code_fixed c.toNat h1 h2 h3
  rw [Char.ofNat_toNat] at a b
  obtain ⟨e1, e2⟩ := hU c (Nat.lt_trans h1 (by decide))
  rw [e1, e2]
  exact ⟨a, b⟩

/-- The runes of a segment after the first are copied by `ConvertToCamel`. -/
theorem camelSegment_tail (cs : List Char) : ∀ n : Nat, 0 < n →
    (cs.enumFrom n).map
      (fun jc => if jc.1 = 0 then runeString ((jc.2.toNat : Int) - 32) else jc.2) = cs := by
  induction cs with
  | nil => intro n _; rfl
  | cons c cs ih =>
    intro n hn
    simp only [List.enumFrom_cons, List.map_cons, Nat.ne_of_gt hn, if_false]
    rw [ih (n + 1) (Nat.succ_pos n)]

/-- The loop of `ConvertToCamel` over the runes of one segment. -/
theorem camelSegment_cons (c : Char) (cs : List Char) :
    camelSegment (c :: cs) = runeString ((c.toNat : Int) - 32) :: cs := by
  simp only [camelSegment, List.enum, List.enumFrom_cons, List.map_cons, if_true]
  rw [camelSegment_tail cs (0 + 1) (Nat.succ_pos 0)]

/-- The literal transform after the first rune does not look at the index. -/
theorem literalSnake_tail (U : Unicode) (cs : List Char) : ∀ n : Nat, 0 < n →
    (cs.enumFrom n).flatMap
      (fun ic => if 0 < ic.1 ∧ U.IsUpper ic.2 = true then ['_', U.ToLower ic.2]
        else [U.ToLower ic.2]) =
    cs.flatMap fun c => if U.IsUpper c = true then ['_', U.ToLower c] else [U.ToLower c] := by
  induction cs with
  | nil => intro n _; rfl
  | cons c cs ih =>
    intro n hn
    simp only [List.enumFrom_cons, List.flatMap_cons, hn, true_and]
    rw [ih (n + 1) (Nat.succ_pos n)]

/-- The literal transform of a string from its second rune on. -/
theorem literalSnake_cons (U : Unicode) (c : Char) (cs : List Char) :
    literalSnake U (c :: cs) = U.ToLower c ::
      cs.flatMap fun c => if U.IsUpper c = true then ['_', U.ToLower c] else [U.ToLower c] := by
  simp only [literalSnake, List.enum, List.enumFrom_cons, List.flatMap_cons, Nat.lt_irrefl,
    false_and, if_false]
  rw [literalSnake_tail U cs (0 + 1) (Nat.succ_pos 0)]
  rfl

/-- The literal transform copies lower-case letters and digits. -/
theorem snake_fixed (U : Unicode) (hU : U.AgreesOnAscii) (cs : List Char)
    (h : cs.all (fun d => isLowerLetter d || isAsciiDigit d) = true) :
    (cs.flatMap fun c => if U.IsUpper c = true then ['_', U.ToLower c] else [U.ToLower c]) =
      cs := by
  induction cs with
  | nil => rfl
  | cons c cs ih =>
    simp only [List.all_cons, Bool.and_eq_true] at h
    obtain ⟨e1, e2⟩ := lower_fixed U hU c h.1
    simp only [List.flatMap_cons, e1, e2, Bool.false_eq_true, if_false]
    rw [ih h.2]
    rfl

/-- The literal transform of capitalised segments puts an underscore before
each of them. -/
theorem snake_segments (U : Unicode) (hU : U.AgreesOnAscii) (segs : List (List Char))
    (h : segs.all IsSegment = true) :
    ((segs.flatMap camelSegment).flatMap
      fun c => if U.IsUpper c = true then ['_', U.ToLower c] else [U.ToLower c]) =
      segs.flatMap fun seg => '_' :: seg := by
  induction segs with
  | nil => rfl
  | cons seg rest ih =>
    simp only [List.all_cons, Bool.and_eq_true] at h
    cases seg with
    | nil => simp [IsSegment] at h
    | cons c cs =>
      have hseg := h.1
      simp only [IsSegment, Bool.and_eq_true] at hseg
      obtain ⟨e1, e2⟩ := upper_of_lower U hU c hseg.1
      simp only [List.flatMap_cons, camelSegment_cons, List.flatMap_append, e1, e2, if_true,
        snake_fixed U hU cs hseg.2, ih h.2, List.cons_append, List.nil_append]

/-- Joining with one separator. -/
theorem intercalate_cons (sep : List Char) (a : List Char) (l : List (List Char)) :
    sep.intercalate (a :: l) = a ++ l.flatMap fun b => sep ++ b := by
  induction l generalizing a with
  | nil => simp [List.intercalate]
  | cons b l ih =>
    have := ih b
    simp only [List.intercalate, List.intersperse_cons_cons, List.flatten_cons,
      List.flatMap_cons] at this ⊢
    rw [this]
    simp

/-- The runes of `ConvertToCamel`. -/
theorem convertToCamel_runes (s : String) :
    (ConvertToCamel s).toList = (s.toList.splitOn '_').flatMap camelSegment := by
  have key : ∀ (l : List (List Char)) (acc : List Char),
      l.foldl (fun str b => str ++ camelSegment b) acc = acc ++ l.flatMap camelSegment := by
    intro l
    induction l with
    | nil => intro acc; simp
    | cons b l ih => intro acc; simp [ih, List.append_assoc]
  simp [ConvertToCamel, key]

/-- On the runes: the snake case of the camel case of a column name. -/
theorem round_trip_runes (U : Unicode) (hU : U.AgreesOnAscii) (rs : List Char)
    (h : (rs.splitOn '_').all IsSegment = true) :
    literalSnake U ((rs.splitOn '_').flatMap camelSegment) = rs := by
  have hrs : ['_'].intercalate (rs.splitOn '_') = rs := List.intercalate_splitOn rs '_'
  cases hsp : rs.splitOn '_' with
  | nil => exact absurd hsp (List.splitOnP_ne_nil _ _)
  | cons seg rest =>
    rw [hsp] at h hrs
    simp only [List.all_cons, Bool.and_eq_true] at h
    cases seg with
    | nil => simp [IsSegment] at h
    | cons c cs =>
      have hseg := h.1
      simp only [IsSegment, Bool.and_eq_true] at hseg
      obtain ⟨_, e2⟩ := upper_of_lower U hU c hseg.1
      rw [intercalate_cons] at hrs
      rw [List.flatMap_cons, camelSegment_cons, List.cons_append, literalSnake_cons, e2,
        List.flatMap_append, snake_fixed U hU cs hseg.2, snake_segments U hU rest h.2]
      simpa using hrs

/-! #### unmarshalRows and the rows of the cursor -/
/-- A loop of `unmarshalRows` whose body binds, scans and appends one row ends
as the run of the cursor does, with the elements it started with followed by
one element per row the cursor delivered. -/
theorem forNext_cursorRows {σ : Type} (scanner : rowsScanner σ)
    (body : RowsState σ → RowsState σ × Res Unit) (elem fresh : Value)
    (slots : Res (List Slot))
    (hbind : ∀ st e, slots = .err e →
      (body st).2 = .err e ∧ (body st).1.cursor = st.cursor ∧ (body st).1.items = st.items)
    (hpanic : ∀ st, slots = .panic → (body st).2 = .panic)
    (hscan : ∀ st values err, slots = .ok values →
      (scanner.Scan st.cursor values).2.2 = some err →
      (body st).2 = .err (.cursor err) ∧ (body st).1.cursor = (scanner.Scan st.cursor values).1 ∧
        (body st).1.items = st.items)
    (hrow : ∀ st values, slots = .ok values → (scanner.Scan st.cursor values).2.2 = none →
      (body st).2 = .panic ∨
      ((body st).2 = .ok () ∧ (body st).1.cursor = (scanner.Scan st.cursor values).1 ∧
        (body st).1.items = some (st.items.getD [] ++
          [rowElement elem (applyScan fresh values (scanner.Scan st.cursor values).2.1)])))
    (fuel : Nat) :
    ∀ (st : RowsState σ) (r : RowsState σ × Res Unit),
      forNext scanner body fuel st = some r → r.2 ≠ .panic →
      ∃ run, cursorRows scanner slots fuel st.cursor = some run ∧
        run.cursor = r.1.cursor ∧ run.result = r.2 ∧
        (run.rows = [] → r.1.items = st.items) ∧
        ((∀ values, slots ≠ .ok values) → run.rows = []) ∧
        ∀ values, slots = .ok values →
          r.1.items.getD [] = st.items.getD [] ++
            run.rows.map fun stored => rowElement elem (applyScan fresh values stored) := by
  induction fuel with
  | zero =>
    intro st r h _
    simp only [forNext] at h
    cases hn : (scanner.Next st.cursor).2 with
    | true => simp [hn] at h
    | false =>
      simp only [hn, Bool.not_false, if_true, Option.some.injEq] at h
      subst h
      exact ⟨(⟨[], (scanner.Next st.cursor).1, .ok ()⟩ : RowsRun σ),
        by simp [cursorRows, hn], rfl, rfl, fun _ => rfl, fun _ => rfl, fun _ _ => by simp⟩
  | succ fuel ih =>
    intro st r h hp
    simp only [forNext] at h
    cases hn : (scanner.Next st.cursor).2 with
    | false =>
      simp only [hn, Bool.not_false, if_true, Option.some.injEq] at h
      subst h
      exact ⟨(⟨[], (scanner.Next st.cursor).1, .ok ()⟩ : RowsRun σ),
        by simp [cursorRows, hn], rfl, rfl, fun _ => rfl, fun _ => rfl, fun _ _ => by simp⟩
    | true =>
      simp only [hn, Bool.not_true, Bool.false_eq_true, if_false] at h
      generalize hst1 : (⟨st.items, (scanner.Next st.cursor).1,
        st.events ++ [.next true]⟩ : RowsState σ) = st1 at h
      have hc1 : st1.cursor = (scanner.Next st.cursor).1 := by rw [← hst1]
      have hi1 : st1.items = st.items := by rw [← hst1]
      cases hs : slots with
      | err e =>
        obtain ⟨b1, b2, b3⟩ := hbind st1 e hs
        rw [b1] at h
        simp only [Option.some.injEq] at h
        subst h
        refine ⟨(⟨[], (scanner.Next st.cursor).1, .err e⟩ : RowsRun σ),
          by simp [cursorRows, hn], ?_, rfl, fun _ => ?_, fun _ => rfl, fun v hv => ?_⟩
        · rw [b2, hc1]
        · rw [b3, hi1]
        · cases hv
      | panic =>
        have b1 := hpanic st1 hs
        rw [b1] at h
        simp only [Option.some.injEq] at h
        subst h
        exact absurd rfl hp
      | ok values =>
        cases hsc : (scanner.Scan st1.cursor values).2.2 with
        | some err =>
          obtain ⟨b1, b2, b3⟩ := hscan st1 values err hs hsc
          rw [b1] at h
          simp only [Option.some.injEq] at h
          subst h
          rw [hc1] at hsc b2
          refine ⟨(⟨[], (scanner.Scan (scanner.Next st.cursor).1 values).1,
            .err (.cursor err)⟩ : RowsRun σ), by simp [cursorRows, hn, hsc], b2.symm,
            rfl, fun _ => ?_, fun _ => rfl, fun v _ => ?_⟩
          · rw [b3, hi1]
          · simp [b3, hi1]
        | none =>
          rcases hrow st1 values hs hsc with b1 | ⟨b1, b2, b3⟩
          · rw [b1] at h
            simp only [Option.some.injEq] at h
            subst h
            exact absurd rfl hp
          · rw [b1] at h
            simp only [] at h
            obtain ⟨run, e1, e2, e3, _, _, e6⟩ := ih _ r h hp
            rw [hc1] at hsc b2 b3
            rw [b2] at e1
            refine ⟨(⟨(scanner.Scan (scanner.Next st.cursor).1 values).2.1 :: run.rows,
              run.cursor, run.result⟩ : RowsRun σ),
              by rw [hs] at e1; simp [cursorRows, hn, hsc, e1], e2, e3,
              fun hnil => ?_, fun hno => absurd rfl (hno values), fun v hv => ?_⟩
            · simp at hnil
            · cases hv
              rw [e6 values hs, b3, hi1]
              simp

/-- The closure `fillFn` scans one row through the slot of the fresh value and
appends it. -/
theorem fillFn_run {σ : Type} (scanner : rowsScanner σ) (elem value : Value)
    (st : RowsState σ) :
    (∀ err, (scanner.Scan st.cursor [.addr [.elem]]).2.2 = some err →
      (fillFn scanner elem value st).2 = .err (.cursor err) ∧
      (fillFn scanner elem value st).1.cursor = (scanner.Scan st.cursor [.addr [.elem]]).1 ∧
      (fillFn scanner elem value st).1.items = st.items) ∧
    ((scanner.Scan st.cursor [.addr [.elem]]).2.2 = none →
      (fillFn scanner elem value st).2 = .panic ∨
      ((fillFn scanner elem value st).2 = .ok () ∧
        (fillFn scanner elem value st).1.cursor = (scanner.Scan st.cursor [.addr [.elem]]).1 ∧
        (fillFn scanner elem value st).1.items = some (st.items.getD [] ++
          [rowElement elem (applyScan value [.addr [.elem]]
            (scanner.Scan st.cursor [.addr [.elem]]).2.1)]))) := by
  simp only [fillFn]
  cases hs : (scanner.Scan st.cursor [.addr [.elem]]).2.2 with
  | some err => simp
  | none =>
    cases ha : appendFn elem st.items
        (applyScan value [.addr [.elem]] (scanner.Scan st.cursor [.addr [.elem]]).2.1) with
    | ok items =>
      refine ⟨fun e h => by simp at h, fun _ => Or.inr ⟨rfl, rfl, ?_⟩⟩
      exact appendFn_ok _ _ _ _ ha
    | err e => exact absurd ha (appendFn_ne_err _ _ _ _)
    | panic => simp

/-- The body of the loop over struct rows binds the fresh record, scans one
row through the slots of the binding and appends it. -/
theorem structRow_run {σ : Type} (U : Unicode) (scanner : rowsScanner σ) (elem base : Value)
    (columns : List String) (strict : Bool) (st : RowsState σ) :
    (∀ e, (mapStructFieldsIntoSlice U (.ptr false base.zero) Flag.new columns strict).2 =
        .err e →
      (structRow U scanner elem base columns strict st).2 = .err e ∧
      (structRow U scanner elem base columns strict st).1.cursor = st.cursor ∧
      (structRow U scanner elem base columns strict st).1.items = st.items) ∧
    ((mapStructFieldsIntoSlice U (.ptr false base.zero) Flag.new columns strict).2 = .panic →
      (structRow U scanner elem base columns strict st).2 = .panic) ∧
    (∀ values err,
      (mapStructFieldsIntoSlice U (.ptr false base.zero) Flag.new columns strict).2 =
        .ok values →
      (scanner.Scan st.cursor values).2.2 = some err →
      (structRow U scanner elem base columns strict st).2 = .err (.cursor err) ∧
      (structRow U scanner elem base columns strict st).1.cursor =
        (scanner.Scan st.cursor values).1 ∧
      (structRow U scanner elem base columns strict st).1.items = st.items) ∧
    (∀ values,
      (mapStructFieldsIntoSlice U (.ptr false base.zero) Flag.new columns strict).2 =
        .ok values →
      (scanner.Scan st.cursor values).2.2 = none →
      (structRow U scanner elem base columns strict st).2 = .panic ∨
      ((structRow U scanner elem base columns strict st).2 = .ok () ∧
        (structRow U scanner elem base columns strict st).1.cursor =
          (scanner.Scan st.cursor values).1 ∧
        (structRow U scanner elem base columns strict st).1.items =
          some (st.items.getD [] ++ [rowElement elem (applyScan
            (mapStructFieldsIntoSlice U (.ptr false base.zero) Flag.new columns strict).1
            values (scanner.Scan st.cursor values).2.1)]))) := by
  simp only [structRow]
  cases hm : (mapStructFieldsIntoSlice U (.ptr false base.zero) Flag.new columns strict).2 with
  | err e => simp
  | panic => simp
  | ok values =>
    refine ⟨fun e h => (by cases h), fun h => (by cases h), fun v err hv hsv => ?_,
      fun v hv hsv => ?_⟩
    · cases hv
      simp [hsv]
    · cases hv
      cases ha : appendFn elem st.items
          (applyScan (mapStructFieldsIntoSlice U (.ptr false base.zero) Flag.new columns strict).1
            values (scanner.Scan st.cursor values).2.1) with
      | ok items =>
        have := appendFn_ok _ _ _ _ ha
        simp [hsv, ha, this]
      | err e => exact absurd ha (appendFn_ne_err _ _ _ _)
      | panic => simp [hsv, ha]

/-- The loop `unmarshalRows` runs for a pointer to a slice of scalars. -/
theorem unmarshalRows_scalar {σ : Type} (U : Unicode) (d : RowsDest) (scanner : rowsScanner σ)
    (s : σ) (strict : Bool) (fuel : Nat) (rve : Value)
    (hv : d.v = some (.ptr false rve)) (hk : rve.Kind = .Slice)
    (hsc : isScalarKind d.slice.elem.Deref.Kind = true) :
    unmarshalRows U d scanner s strict fuel =
      (forNext scanner (fillFn scanner d.slice.elem (.ptr false d.slice.elem.Deref.zero)) fuel
        { items := d.slice.items, cursor := s, events := [] }).map (RowsOutcome.ofLoop d) := by
  unfold unmarshalRows
  simp [hv, ValidatePtr, Flag.root, Flag.CanSet, Flag.RO, hk, hsc]

/-- The loop `unmarshalRows` runs for a pointer to a slice of structs. -/
theorem unmarshalRows_struct {σ : Type} (U : Unicode) (d : RowsDest) (scanner : rowsScanner σ)
    (s : σ) (strict : Bool) (fuel : Nat) (rve : Value) (columns : List String)
    (hv : d.v = some (.ptr false rve)) (hk : rve.Kind = .Slice)
    (hst : d.slice.elem.Deref.Kind = .Struct) (hc : (scanner.Columns s).2 = .ok columns) :
    unmarshalRows U d scanner s strict fuel =
      (forNext scanner (structRow U scanner d.slice.elem d.slice.elem.Deref columns strict) fuel
        { items := d.slice.items, cursor := (scanner.Columns s).1,
          events := [.columns (.ok columns)] }).map (RowsOutcome.ofLoop d) := by
  unfold unmarshalRows
  simp [hv, ValidatePtr, Flag.root, Flag.CanSet, Flag.RO, hk, hst, isScalarKind, hc]

/-- The outcome of `unmarshalRows` against its own trace: it returns once the
fuel covers a measure of the cursor that every visited row decreases, more
fuel gives the same outcome, and the elements of the slice are the initial
elements followed by one element per successful `Scan` of the trace. -/
theorem unmarshalRows_trace {σ : Type} (U : Unicode) (d : RowsDest)
    (scanner : rowsScanner σ) (s : σ) (strict : Bool) (μ : σ → Nat)
    (hμ : ∀ s slots, (scanner.Next s).2 = true →
      μ (scanner.Scan (scanner.Next s).1 slots).1 < μ s) :
    (∀ fuel, max (μ s) (μ (scanner.Columns s).1) ≤ fuel →
      (unmarshalRows U d scanner s strict fuel).isSome = true) ∧
    (∀ fuel o, unmarshalRows U d scanner s strict fuel = some o →
      (∀ fuel', fuel ≤ fuel' → unmarshalRows U d scanner s strict fuel' = some o) ∧
      o.dest.v = d.v ∧ o.dest.slice.elem = d.slice.elem ∧
      (o.result ≠ .panic →
        o.dest.slice.items.getD [] = d.slice.items.getD [] ++
          scannedItems d.slice.elem (scanTarget U d (columnsOf scanner s) strict) o.events)) := by
  rcases unmarshalRows_cases U d scanner s strict with
    ⟨e, c, ev, hev, h⟩ | ⟨hsc, h⟩ | ⟨hsc, hst, columns, hc, h⟩
  · refine ⟨fun fuel _ => by rw [h fuel]; rfl, fun fuel o ho => ?_⟩
    rw [h fuel, Option.some.injEq] at ho
    subst ho
    exact ⟨fun fuel' _ => h fuel', rfl, rfl, fun _ => by simp [hev]⟩
  · have hns : d.slice.elem.Deref.Kind ≠ .Struct := by
      intro hk; rw [hk] at hsc; exact absurd hsc (by decide)
    have hfresh : scanTarget U d (columnsOf scanner s) strict =
        .ptr false d.slice.elem.Deref.zero := by simp [scanTarget, hns]
    refine ⟨fun fuel hf => ?_, fun fuel o ho => ?_⟩
    · rw [h fuel, Option.isSome_map']
      exact forNext_terminates scanner _ μ
        (fun st u hu => by
          obtain ⟨slots, _, hcur, _⟩ := (fillFn_spec scanner _ _ st).1 u hu
          exact ⟨slots, hcur⟩) hμ fuel _ (by simp only []; omega)
    · rw [h fuel, Option.map_eq_some'] at ho
      obtain ⟨r, hr, rfl⟩ := ho
      refine ⟨fun fuel' hle => ?_, rfl, rfl, fun hp => ?_⟩
      · rw [h fuel', forNext_mono scanner _ fuel _ r hr fuel' hle]; rfl
      · rw [hfresh]
        exact forNext_items scanner _ d.slice.elem _
          (fun st u hu => by
            obtain ⟨slots, stored, _, h1, h2⟩ := (fillFn_spec scanner _ _ st).1 u hu
            exact ⟨slots, stored, h1, h2⟩)
          (fun st e he => (fillFn_spec scanner _ _ st).2 e he)
          fuel _ r (d.slice.items.getD []) hr hp (by simp [scannedItems])
  · have hfresh : scanTarget U d (columnsOf scanner s) strict =
        (mapStructFieldsIntoSlice U (.ptr false d.slice.elem.Deref.zero) Flag.new
          columns strict).1 := by simp [scanTarget, hst, columnsOf, hc]
    refine ⟨fun fuel hf => ?_, fun fuel o ho => ?_⟩
    · rw [h fuel, Option.isSome_map']
      exact forNext_terminates scanner _ μ
        (fun st u hu => by
          obtain ⟨slots, _, hcur, _⟩ := (structRow_spec U scanner _ _ columns strict st).1 u hu
          exact ⟨slots, hcur⟩) hμ fuel _ (by simp only []; omega)
    · rw [h fuel, Option.map_eq_some'] at ho
      obtain ⟨r, hr, rfl⟩ := ho
      refine ⟨fun fuel' hle => ?_, rfl, rfl, fun hp => ?_⟩
      · rw [h fuel', forNext_mono scanner _ fuel _ r hr fuel' hle]; rfl
      · rw [hfresh]
        exact forNext_items scanner _ d.slice.elem _
          (fun st u hu => by
            obtain ⟨slots, stored, _, h1, h2⟩ :=
              (structRow_spec U scanner _ _ columns strict st).1 u hu
            exact ⟨slots, stored, h1, h2⟩)
          (fun st e he => (structRow_spec U scanner _ _ columns strict st).2 e he)
          fuel _ r (d.slice.items.getD []) hr hp (by simp [scannedItems])

/-- The outcome of `unmarshalRows` against the rows of the cursor: for a
pointer to a slice of a supported kind, the call ends as the run of the cursor
through the slots of the binding does, and the slice holds the initial
elements followed by one element per row the cursor delivered. -/
theorem unmarshalRows_rows {σ : Type} (U : Unicode) (d : RowsDest)
    (scanner : rowsScanner σ) (s : σ) (strict : Bool) (rve : Value)
    (hv : d.v = some (.ptr false rve)) (hk : rve.Kind = .Slice)
    (hsup : isScalarKind d.slice.elem.Deref.Kind = true ∨
      (d.slice.elem.Deref.Kind = .Struct ∧ ∃ columns, (scanner.Columns s).2 = .ok columns))
    (fuel : Nat) (o : RowsOutcome σ) (ho : unmarshalRows U d scanner s strict fuel = some o)
    (hp : o.result ≠ .panic) :
    ∃ run, cursorRows scanner (rowSlots U d (columnsOf scanner s) strict) fuel
        (if d.slice.elem.Deref.Kind = .Struct then (scanner.Columns s).1 else s) = some run ∧
      o.cursor = run.cursor ∧ o.result = run.result ∧
      (run.rows = [] → o.dest = d) ∧
      ((∀ values, rowSlots U d (columnsOf scanner s) strict ≠ .ok values) → run.rows = []) ∧
      ∀ values, rowSlots U d (columnsOf scanner s) strict = .ok values →
        o.dest.slice.items.getD [] = d.slice.items.getD [] ++
          run.rows.map fun stored => rowElement d.slice.elem
            (applyScan (scanTarget U d (columnsOf scanner s) strict) values stored) := by
  rcases hsup with hsc | ⟨hst, columns, hc⟩
  · have hns : d.slice.elem.Deref.Kind ≠ .Struct := by
      intro hk; rw [hk] at hsc; exact absurd hsc (by decide)
    have hfresh : scanTarget U d (columnsOf scanner s) strict =
        .ptr false d.slice.elem.Deref.zero := by simp [scanTarget, hns]
    have hslots : rowSlots U d (columnsOf scanner s) strict = .ok [.addr [.elem]] := by
      simp [rowSlots, hns]
    rw [unmarshalRows_scalar U d scanner s strict fuel rve hv hk hsc,
      Option.map_eq_some'] at ho
    obtain ⟨r, hr, rfl⟩ := ho
    rw [hslots, hfresh, if_neg hns]
    obtain ⟨run, e1, e2, e3, e4, e5, e6⟩ := forNext_cursorRows scanner _ d.slice.elem
      (.ptr false d.slice.elem.Deref.zero) (.ok [.addr [.elem]])
      (fun st e h => by cases h) (fun st h => by cases h)
      (fun st values err h hs => by cases h; exact (fillFn_run scanner _ _ st).1 err hs)
      (fun st values h hs => by cases h; exact (fillFn_run scanner _ _ st).2 hs)
      fuel _ r hr hp
    refine ⟨run, e1, e2.symm, e3.symm, fun hnil => ?_, e5, e6⟩
    have := e4 hnil
    simp only [] at this
    simp only [RowsOutcome.ofLoop, this]
  · have hcols : columnsOf scanner s = columns := by simp [columnsOf, hc]
    have hfresh : scanTarget U d columns strict =
        (mapStructFieldsIntoSlice U (.ptr false d.slice.elem.Deref.zero) Flag.new
          columns strict).1 := by simp [scanTarget, hst]
    have hslots : rowSlots U d columns strict =
        (mapStructFieldsIntoSlice U (.ptr false d.slice.elem.Deref.zero) Flag.new
          columns strict).2 := by simp [rowSlots, hst]
    rw [unmarshalRows_struct U d scanner s strict fuel rve columns hv hk hst hc,
      Option.map_eq_some'] at ho
    obtain ⟨r, hr, rfl⟩ := ho
    rw [hcols, hslots, hfresh, if_pos hst]
    obtain ⟨run, e1, e2, e3, e4, e5, e6⟩ := forNext_cursorRows scanner _ d.slice.elem
      (mapStructFieldsIntoSlice U (.ptr false d.slice.elem.Deref.zero) Flag.new
        columns strict).1
      (mapStructFieldsIntoSlice U (.ptr false d.slice.elem.Deref.zero) Flag.new
        columns strict).2
      (fun st e h => (structRow_run U scanner _ _ columns strict st).1 e h)
      (fun st h => (structRow_run U scanner _ _ columns strict st).2.1 h)
      (fun st values err h hs => (structRow_run U scanner _ _ columns strict st).2.2.1
        values err h hs)
      (fun st values h hs => (structRow_run U scanner _ _ columns strict st).2.2.2 values h hs)
      fuel _ r hr hp
    refine ⟨run, e1, e2.symm, e3.symm, fun hnil => ?_, e5, e6⟩
    have := e4 hnil
    simp only [] at this
    simp only [RowsOutcome.ofLoop, this]

/-- The rows of the in-memory cursor are its pending rows, in order, when
every row has one value per slot. -/
theorem cursorRows_memRows (values : List Slot) (columns : List String) :
    ∀ (rows : List (List Val)) (current : Option (List Val)),
      (∀ r ∈ rows, r.length = values.length) →
      cursorRows memRows (.ok values) rows.length
          { columns := columns, pending := rows, current := current } =
        some { rows := rows.map fun r => r.map some,
               cursor := { columns := columns, pending := [], current := none },
               result := .ok () } := by
  intro rows
  induction rows with
  | nil => intro current _; simp [cursorRows, memRows]
  | cons row rest ih =>
    intro current h
    have h1 : row.length = values.length := h row (List.mem_cons_self _ _)
    have h2 := ih (some row) (fun r hr => h r (List.mem_cons_of_mem _ hr))
    have hN : memRows.Next { columns := columns, pending := row :: rest, current := current } =
        ({ columns := columns, pending := rest, current := some row }, true) := rfl
    have hS : memRows.Scan { columns := columns, pending := rest, current := some row } values =
        ({ columns := columns, pending := rest, current := some row }, row.map some, none) := by
      simp [memRows, h1]
    simp only [List.length_cons, cursorRows, hN, hS, h2, Bool.not_true, Bool.false_eq_true,
      if_false, Option.map_some', List.map_cons]

/-- Whatever is read in the zero value of a type is a zero value. -/
theorem load_zero_both :
    (∀ (v : Value) (l : Loc) (w : Value), v.zero.load l = some w → w.zero = w) ∧
    (∀ (fs : FieldVals) (j : Nat) (l : Loc) (w : Value),
      fs.zero.load j l = some w → w.zero = w) := by
  apply Value.induct_both
  · intro k d l w h
    cases l with
    | nil =>
      simp only [Value.zero, Value.load, Option.some.injEq] at h
      subst h; rfl
    | cons s l => cases s <;> simp [Value.zero, Value.load] at h
  · intro n t ih l w h
    cases l with
    | nil =>
      simp only [Value.zero, Value.load, Option.some.injEq] at h
      subst h
      simp [Value.zero, zero_zero_both.1]
    | cons s l => cases s <;> simp [Value.zero, Value.load] at h
  · intro fs ih l w h
    cases l with
    | nil =>
      simp only [Value.zero, Value.load, Option.some.injEq] at h
      subst h
      simp [Value.zero, zero_zero_both.2]
    | cons s l =>
      cases s with
      | elem => simp [Value.zero, Value.load] at h
      | field j => exact ih j l w (by simpa [Value.zero, Value.load] using h)
  · intro j l w h
    simp [FieldVals.zero, FieldVals.load] at h
  · intro f v rest ihv ihr j l w h
    cases j with
    | zero => exact ihv l w (by simpa [FieldVals.zero, FieldVals.load] using h)
    | succ j => exact ihr j l w (by simpa [FieldVals.zero, FieldVals.load] using h)

theorem cons_eq_snoc {α : Type} (a x : α) (r q : List α) (h : a :: r = q ++ [x]) :
    (r = [] ∧ q = [] ∧ a = x) ∨ ∃ q', q = a :: q' ∧ r = q' ++ [x] := by
  cases q with
  | nil =>
    simp only [List.nil_append, List.cons.injEq] at h
    exact Or.inl ⟨h.2, rfl, h.1⟩
  | cons b q' =>
    simp only [List.cons_append, List.cons.injEq] at h
    exact Or.inr ⟨q', by rw [h.1], h.2⟩

set_option maxHeartbeats 3200000 in
/-- One step of the loop of `unwrapFields` that succeeds, field by field: what
the field holds afterwards. -/
theorem unwrapFieldsLoop_head (f : StructField) (child : Value) (rest : FieldVals)
    (loc : Loc) (fl : Flag) (i : Nat) (refs : List FieldRef)
    (h : (unwrapFieldsLoop (.cons f child rest) loc fl i).2 = .ok refs) :
    ∃ child' refs',
      (unwrapFieldsLoop (.cons f child rest) loc fl i).1 =
        .cons f child' (unwrapFieldsLoop rest loc fl (i + 1)).1 ∧
      (unwrapFieldsLoop rest loc fl (i + 1)).2 = .ok refs' ∧
      ((fl.Field f).CanSet = false → child' = child) ∧
      (∀ k d, child = .basic k d → child' = child) ∧
      (∀ cfs, child = .struct cfs → (f.Tag = "-" ∨ f.Anonymous = false) → child' = child) ∧
      (∀ cfs, child = .struct cfs → (fl.Field f).CanSet = true → f.Tag ≠ "-" →
        f.Anonymous = true →
        child' = .struct (unwrapFieldsLoop cfs (loc ++ [Step.field i]) (fl.Field f) 0).1 ∧
        ∃ inner, (unwrapFieldsLoop cfs (loc ++ [Step.field i]) (fl.Field f) 0).2 = .ok inner) ∧
      (∀ n t, child = .ptr n t → (fl.Field f).CanSet = true →
        (f.Tag = "-" ∨ ¬ (t.Kind = .Struct ∧ f.Anonymous = true)) →
        child' = .ptr false (if n then t.zero else t)) ∧
      (∀ n cfs, child = .ptr n (.struct cfs) → (fl.Field f).CanSet = true → f.Tag ≠ "-" →
        f.Anonymous = true →
        child' = .ptr false (.struct (unwrapFieldsLoop (if n then cfs.zero else cfs)
          (loc ++ [Step.field i, .elem]) (fl.Field f).Elem 0).1) ∧
        ∃ inner, (unwrapFieldsLoop (if n then cfs.zero else cfs)
          (loc ++ [Step.field i, .elem]) (fl.Field f).Elem 0).2 = .ok inner) := by
  cases child with
  | basic k d =>
    by_cases hcs : (fl.Field f).CanSet = true <;> by_cases ht : f.Tag = "-" <;>
      cases hr : (unwrapFieldsLoop rest loc fl (i + 1)).2 <;>
      simp [unwrapFieldsLoop, hcs, ht, hr] at h ⊢
  | struct cfs =>
    by_cases hcs : (fl.Field f).CanSet = true <;> by_cases ht : f.Tag = "-" <;>
      by_cases ha : f.Anonymous = true <;>
      cases hr : (unwrapFieldsLoop rest loc fl (i + 1)).2 <;>
      cases hc : (unwrapFieldsLoop cfs (loc ++ [Step.field i]) (fl.Field f) 0).2 <;>
      simp [unwrapFieldsLoop, hcs, ht, ha, hr, hc] at h ⊢
  | ptr n t =>
    by_cases hcs : (fl.Field f).CanSet = true
    · cases t with
      | basic k d =>
        have h1 : k.toKind ≠ Kind.Ptr := by simpa using toKind_ne_ptr k
        have h2 : k.toKind ≠ Kind.Struct := by simpa using toKind_ne_struct k
        cases hr : (unwrapFieldsLoop rest loc fl (i + 1)).2 <;>
          cases n <;> by_cases ht : f.Tag = "-" <;>
          simp [unwrapFieldsLoop, hcs, ht, hr, Value.Kind, h1, h2] at h ⊢
      | ptr n2 t2 =>
        cases hr : (unwrapFieldsLoop rest loc fl (i + 1)).2 <;>
          cases n <;> by_cases ht : f.Tag = "-" <;>
          simp [unwrapFieldsLoop, hcs, ht, hr, Value.Kind] at h ⊢
      | struct cfs =>
        cases n with
        | false =>
          cases hr : (unwrapFieldsLoop rest loc fl (i + 1)).2 <;>
            cases hc : (unwrapFieldsLoop cfs (loc ++ [Step.field i, .elem])
              (fl.Field f).Elem 0).2 <;>
            by_cases ht : f.Tag = "-" <;> by_cases ha : f.Anonymous = true <;>
            simp [unwrapFieldsLoop, unwrapFields, hcs, ht, ha, hr, hc, Value.Kind] at h ⊢
        | true =>
          cases hr : (unwrapFieldsLoop rest loc fl (i + 1)).2 <;>
            cases hc : (unwrapFieldsLoop cfs.zero (loc ++ [Step.field i, .elem])
              (fl.Field f).Elem 0).2 <;>
            by_cases ht : f.Tag = "-" <;> by_cases ha : f.Anonymous = true <;>
            simp [unwrapFieldsLoop, unwrapFresh_eq, unwrapFields, Value.zero, hcs, ht, ha, hr,
              hc, Value.Kind] at h ⊢
    · cases hr : (unwrapFieldsLoop rest loc fl (i + 1)).2 <;>
        simp [unwrapFieldsLoop, hcs, hr] at h ⊢

theorem allocStep_refl (a : Option Value) : AllocStep a a := by
  refine ⟨fun _ h => h, fun _ h => Or.inl h, fun h n t hb => ?_, fun n t hb => Or.inr ⟨n, t, hb⟩⟩
  rw [h] at hb
  cases hb

theorem allocStep_nil (t : Value) :
    AllocStep (some (.ptr true t)) (some (.ptr false t.zero)) := by
  refine ⟨fun _ h => ?_, fun t0 h => ?_, fun h => ?_, fun _ _ _ => Or.inr ⟨true, t, rfl⟩⟩
  · simp at h
  · simp only [Option.some.injEq, Value.ptr.injEq, true_and] at h
    subst h
    exact Or.inr rfl
  · simp at h

theorem allocStep_none_zero (b : Option Value) (h : ∀ w, b = some w → w.zero = w) :
    AllocStep none b := by
  refine ⟨fun _ h => ?_, fun _ h => ?_, fun _ n t hb => ?_, fun _ _ _ => Or.inl rfl⟩
  · simp at h
  · simp at h
  · have := h _ hb
    simp only [Value.zero, Value.ptr.injEq] at this
    exact this.2

theorem allocStep_of_zero (a b : Option Value) (h : AllocStep a b)
    (hz : ∀ w, a = some w → w.zero = w) : AllocStep none b := by
  refine ⟨fun _ h => (by simp at h), fun _ h => (by simp at h), fun _ n t hb => ?_,
    fun _ _ _ => Or.inl rfl⟩
  rcases h.2.2.2 n t hb with ha | ⟨n0, t0, ha⟩
  · exact h.2.2.1 ha n t hb
  · have hz0 := hz _ ha
    simp only [Value.zero, Value.ptr.injEq] at hz0
    obtain ⟨hn0, ht0⟩ := hz0
    subst hn0
    rcases h.2.1 t0 ha with hb' | hb'
    · rw [hb] at hb'
      simp only [Option.some.injEq, Value.ptr.injEq] at hb'
      rw [hb'.2]; exact ht0
    · rw [hb] at hb'
      simp only [Option.some.injEq, Value.ptr.injEq] at hb'
      rw [hb'.2]; exact zero_zero_both.1 t0

/-- Every entry of the flat catalog of a record has a slot below one of its
fields. -/
theorem flatCatalogFields_path (U : Unicode) (fs : FieldVals) : ∀ (loc : Loc) (i : Nat),
    ∀ e ∈ flatCatalogFields U fs loc i, ∃ j rel, e.2 = .addr (loc ++ .field (i + j) :: rel) := by
  induction fs using FieldVals.induct with
  | hn => intro loc i e he; simp [flatCatalogFields] at he
  | hc f child rest ih =>
    intro loc i e he
    simp only [flatCatalogFields, List.mem_append] at he
    rcases he with he | he
    · split at he
      · obtain ⟨rel, h⟩ := (flatCatalog_below_both U).1 child _ e he
        exact ⟨0, rel, by simpa using h⟩
      · simp only [List.mem_singleton] at he
        subst he
        cases child with
        | ptr _ _ => exact ⟨0, [.elem], by simp [leafSlot]⟩
        | basic _ _ => exact ⟨0, [], by simp [leafSlot]⟩
        | struct _ => exact ⟨0, [], by simp [leafSlot]⟩
    · obtain ⟨j, rel, h⟩ := ih loc (i + 1) e he
      exact ⟨j + 1, rel, by rw [h, Nat.add_assoc, Nat.add_comm 1 j]⟩

/-- What `unwrapFields` does at the pointer fields the catalog has a slot for,
at any depth. -/
theorem unwrapFieldsLoop_pointers (U : Unicode) (fs : FieldVals) :
    ∀ (loc : Loc) (fl : Flag) (i : Nat) (refs : List FieldRef),
      (unwrapFieldsLoop fs loc fl i).2 = .ok refs →
      ∀ e ∈ flatCatalogFields U fs loc i,
        ∃ j rel, e.2 = .addr (loc ++ .field (i + j) :: rel) ∧
          ∀ relp, rel = relp ++ [.elem] →
            AllocStep (fs.load j relp) ((unwrapFieldsLoop fs loc fl i).1.load j relp) := by
  induction fs using FieldVals.induct_zero with
  | hn => intro loc fl i refs _ e he; simp [flatCatalogFields] at he
  | hc f child rest ihs ihp ihr =>
    intro loc fl i refs h e he
    obtain ⟨child', refs', h1, h2, k1, k2, k3, k4, k5, k6⟩ :=
      unwrapFieldsLoop_head f child rest loc fl i refs h
    rw [h1]
    simp only [flatCatalogFields, List.mem_append] at he
    rcases he with he | he
    · have key : ∃ rel, e.2 = .addr (loc ++ [Step.field i] ++ rel) ∧
          ∀ relp, rel = relp ++ [.elem] → AllocStep (child.load relp) (child'.load relp) := by
        have same : child' = child → ∃ rel, e.2 = .addr (loc ++ [Step.field i] ++ rel) ∧
            ∀ relp, rel = relp ++ [.elem] →
              AllocStep (child.load relp) (child'.load relp) := by
          intro hsame
          have hpath : ∃ rel, e.2 = .addr (loc ++ [Step.field i] ++ rel) := by
            split at he
            · exact (flatCatalog_below_both U).1 child _ e he
            · simp only [List.mem_singleton] at he
              subst he
              cases child with
              | ptr _ _ => exact ⟨[.elem], by simp [leafSlot]⟩
              | basic _ _ => exact ⟨[], by simp [leafSlot]⟩
              | struct _ => exact ⟨[], by simp [leafSlot]⟩
          obtain ⟨rel, hrel⟩ := hpath
          exact ⟨rel, hrel, fun relp _ => by rw [hsame]; exact allocStep_refl _⟩
        by_cases hcs : (fl.Field f).CanSet = true
        swap
        · exact same (k1 (by simpa using hcs))
        split at he
        · rename_i hcond
          simp only [Bool.and_eq_true, beq_iff_eq] at hcond
          obtain ⟨hanon, hdk⟩ := hcond
          cases child with
          | basic k d =>
            have := toKind_ne_struct k
            simp [Value.DerefKind] at hdk
            simp [hdk] at this
          | struct cfs =>
            by_cases ht : f.Tag = "-"
            · exact same (k3 cfs rfl (Or.inl ht))
            · obtain ⟨hc', inner, hin⟩ := k4 cfs rfl hcs ht hanon
              obtain ⟨j2, rel2, hr2, hP2⟩ :=
                ihs cfs rfl (loc ++ [Step.field i]) (fl.Field f) 0 inner hin e he
              refine ⟨.field j2 :: rel2, by simpa using hr2, fun relp hp => ?_⟩
              rcases cons_eq_snoc _ _ _ _ hp with ⟨_, _, hx⟩ | ⟨q, rfl, hq⟩
              · cases hx
              · rw [hc']
                simpa [Value.load] using hP2 q hq
          | ptr n t =>
            cases t with
            | basic k d =>
              have := toKind_ne_struct k
              simp [Value.DerefKind] at hdk
              simp [hdk] at this
            | ptr _ _ => simp [flatCatalog] at he
            | struct cfs =>
              simp only [flatCatalog] at he
              by_cases ht : f.Tag = "-"
              · have hc' := k5 n _ rfl hcs (Or.inl ht)
                cases n with
                | false => exact same (by simpa using hc')
                | true =>
                  obtain ⟨j2, rel2, hr2⟩ := flatCatalogFields_path U cfs _ 0 e he
                  refine ⟨.elem :: .field j2 :: rel2, by simpa using hr2, fun relp hp => ?_⟩
                  rcases cons_eq_snoc _ _ _ _ hp with ⟨hnil, _, _⟩ | ⟨q, rfl, hq⟩
                  · cases hnil
                  · rw [hc']
                    simp only [Value.load, if_true]
                    exact allocStep_none_zero _ (fun w hw => load_zero_both.1 _ _ w hw)
              · obtain ⟨hc', inner, hin⟩ := k6 n cfs rfl hcs ht hanon
                cases n with
                | false =>
                  simp only [Bool.false_eq_true, if_false] at hc' hin
                  obtain ⟨j2, rel2, hr2, hP2⟩ := (ihp false cfs rfl).1
                    (loc ++ [Step.field i, .elem]) (fl.Field f).Elem 0 inner hin e
                    (by simpa using he)
                  refine ⟨.elem :: .field j2 :: rel2, by simpa using hr2, fun relp hp => ?_⟩
                  rcases cons_eq_snoc _ _ _ _ hp with ⟨hnil, _, _⟩ | ⟨q, rfl, hq⟩
                  · cases hnil
                  · rcases cons_eq_snoc _ _ _ _ hq with ⟨_, _, hx⟩ | ⟨q2, rfl, hq2⟩
                    · cases hx
                    · rw [hc']
                      simpa [Value.load] using hP2 q2 hq2
                | true =>
                  simp only [if_true] at hc' hin
                  obtain ⟨j2, rel2, hr2, hP2⟩ := (ihp true cfs rfl).2
                    (loc ++ [Step.field i, .elem]) (fl.Field f).Elem 0 inner hin e
                    (by rw [flatCatalogFields_zero]; simpa using he)
                  refine ⟨.elem :: .field j2 :: rel2, by simpa using hr2, fun relp hp => ?_⟩
                  rcases cons_eq_snoc _ _ _ _ hp with ⟨hnil, _, _⟩ | ⟨q, rfl, hq⟩
                  · cases hnil
                  · rcases cons_eq_snoc _ _ _ _ hq with ⟨_, _, hx⟩ | ⟨q2, rfl, hq2⟩
                    · cases hx
                    · rw [hc']
                      have := allocStep_of_zero _ _ (hP2 q2 hq2)
                        (fun w hw => load_zero_both.2 _ _ _ w hw)
                      simpa [Value.load] using this
        · rename_i hcond
          simp only [List.mem_singleton] at he
          subst he
          cases child with
          | basic k d => exact same (k2 k d rfl)
          | struct cfs =>
            refine ⟨[], by simp [leafSlot], fun relp hp => ?_⟩
            simp at hp
          | ptr n t =>
            have hleaf : ¬ (t.Kind = .Struct ∧ f.Anonymous = true) := by
              intro hk
              apply hcond
              simp [Value.DerefKind, hk.2, derefKind_of_kind_struct t hk.1]
            have hc' := k5 n t rfl hcs (Or.inr hleaf)
            refine ⟨[.elem], by simp [leafSlot], fun relp hp => ?_⟩
            have hnil : relp = [] := by
              cases relp with
              | nil => rfl
              | cons a r => simp at hp
            subst hnil
            rw [hc']
            cases n with
            | false => simpa [Value.load] using allocStep_refl (some (Value.ptr false t))
            | true => simpa [Value.load] using allocStep_nil t
      obtain ⟨rel, hrel, hP⟩ := key
      exact ⟨0, rel, by simpa using hrel, fun relp hp => by
        simpa [FieldVals.load] using hP relp hp⟩
    · obtain ⟨j, rel, hrel, hP⟩ := ihr loc fl (i + 1) refs' h2 e he
      exact ⟨j + 1, rel, by rw [hrel, Nat.add_assoc, Nat.add_comm 1 j], fun relp hp => by
        simpa [FieldVals.load] using hP relp hp⟩

/-- A successful `getValueInterface` on a pointer leaves it not nil, pointing
to its former target, or to a zero value when it was nil. -/
theorem getValueInterface_ptr (n : Bool) (t : Value) (loc : Loc) (fl : Flag) (a : Slot)
    (h : (getValueInterface (.ptr n t) loc fl).2 = .ok a) :
    (getValueInterface (.ptr n t) loc fl).1 = .ptr false (if n then t.zero else t) := by
  cases n <;> by_cases h1 : fl.CanInterface = true <;> by_cases h2 : fl.CanSet = true <;>
    by_cases h3 : t.Kind = .Ptr <;> simp [getValueInterface, h1, h2, h3] at h ⊢

set_option maxHeartbeats 1600000 in
/-- What `getTaggedFieldValueMap` does at the pointer fields the catalog has a
slot for, at any depth: each is a pointer before the call, and afterwards a
pointer that is not nil, to its former target or to a zero value when it was
nil. -/
theorem getTaggedLoop_pointers (U : Unicode) (fs : FieldVals) :
    ∀ (loc : Loc) (fl : Flag) (i : Nat) (result m : TaggedMap),
      (getTaggedLoop U fs loc fl i result).2 = .ok m →
      ∀ e ∈ flatCatalogFields U fs loc i,
        ∃ j rel, e.2 = .addr (loc ++ .field (i + j) :: rel) ∧
          ∀ relp, rel = relp ++ [.elem] →
            ∃ n t, fs.load j relp = some (.ptr n t) ∧
              (getTaggedLoop U fs loc fl i result).1.load j relp =
                some (.ptr false (if n then t.zero else t)) := by
  induction fs using FieldVals.induct_deep with
  | hn => intro loc fl i result m _ e he; simp [flatCatalogFields] at he
  | hc f child rest ihs ihp ihr =>
    intro loc fl i result m h e he
    simp only [flatCatalogFields, List.mem_append] at he
    by_cases hcond : (f.Anonymous && child.DerefKind == .Struct) = true
    · simp only [hcond, if_true] at he
      cases hc : (getTaggedFieldValueMap U child (loc ++ [Step.field i]) (fl.Field f)).2 with
      | err _ => simp [getTaggedLoop, hcond, hc] at h
      | panic => simp [getTaggedLoop, hcond, hc] at h
      | ok inner =>
        simp only [getTaggedLoop, hcond, hc, if_true] at h ⊢
        rcases he with he | he
        · cases child with
          | basic k d => simp [flatCatalog] at he
          | struct cfs =>
            simp only [flatCatalog] at he
            simp only [getTaggedFieldValueMap] at hc ⊢
            obtain ⟨j2, rel2, hr2, hP2⟩ :=
              ihs cfs rfl (loc ++ [Step.field i]) (fl.Field f) 0 [] inner hc e he
            refine ⟨0, .field j2 :: rel2, by simpa using hr2, fun relp hp => ?_⟩
            rcases cons_eq_snoc _ _ _ _ hp with ⟨_, _, hx⟩ | ⟨q, rfl, hq⟩
            · cases hx
            · simpa [FieldVals.load, Value.load] using hP2 q hq
          | ptr n t =>
            cases t with
            | basic k d => simp [flatCatalog] at he
            | ptr _ _ => simp [flatCatalog] at he
            | struct cfs =>
              simp only [flatCatalog] at he
              cases cfs with
              | nil => simp [flatCatalogFields] at he
              | cons g c r =>
                cases n with
                | true =>
                  simp [getTaggedFieldValueMap, Value.DerefNumField, FieldVals.length] at hc
                | false =>
                  have hc' : (getTaggedLoop U (.cons g c r) (loc ++ [Step.field i] ++ [.elem])
                      (fl.Field f).Elem 0 []).2 = .ok inner := by
                    simpa [getTaggedFieldValueMap, Value.DerefNumField, FieldVals.length]
                      using hc
                  have h1 : (getTaggedFieldValueMap U (.ptr false (.struct (.cons g c r)))
                      (loc ++ [Step.field i]) (fl.Field f)).1 =
                      .ptr false (.struct (getTaggedLoop U (.cons g c r)
                        (loc ++ [Step.field i] ++ [.elem]) (fl.Field f).Elem 0 []).1) := by
                    simp [getTaggedFieldValueMap, Value.DerefNumField, FieldVals.length]
                  obtain ⟨j2, rel2, hr2, hP2⟩ := ihp false _ rfl
                    (loc ++ [Step.field i] ++ [.elem]) (fl.Field f).Elem 0 [] inner hc' e he
                  refine ⟨0, .elem :: .field j2 :: rel2, by simpa using hr2, fun relp hp => ?_⟩
                  rcases cons_eq_snoc _ _ _ _ hp with ⟨hnil, _, _⟩ | ⟨q, rfl, hq⟩
                  · cases hnil
                  · rcases cons_eq_snoc _ _ _ _ hq with ⟨_, _, hx⟩ | ⟨q2, rfl, hq2⟩
                    · cases hx
                    · rw [h1]
                      simpa [FieldVals.load, Value.load] using hP2 q2 hq2
        · obtain ⟨j, rel, hrel, hP⟩ := ihr loc fl (i + 1) _ m h e he
          exact ⟨j + 1, rel, by rw [hrel, Nat.add_assoc, Nat.add_comm 1 j], fun relp hp => by
            simpa [FieldVals.load] using hP relp hp⟩
    · simp only [hcond, Bool.false_eq_true, if_false] at he
      cases hg : (getValueInterface child (loc ++ [Step.field i]) (fl.Field f)).2 with
      | err _ => simp [getTaggedLoop, hcond, hg] at h
      | panic => simp [getTaggedLoop, hcond, hg] at h
      | ok a =>
        simp only [getTaggedLoop, hcond, hg, Bool.false_eq_true, if_false] at h ⊢
        rcases he with he | he
        · simp only [List.mem_singleton] at he
          subst he
          cases child with
          | basic k d =>
            refine ⟨0, [], by simp [leafSlot], fun relp hp => ?_⟩
            simp at hp
          | struct cfs =>
            refine ⟨0, [], by simp [leafSlot], fun relp hp => ?_⟩
            simp at hp
          | ptr n t =>
            refine ⟨0, [.elem], by simp [leafSlot], fun relp hp => ?_⟩
            have hnil : relp = [] := by
              cases relp with
              | nil => rfl
              | cons a r => simp at hp
            subst hnil
            exact ⟨n, t, by simp [FieldVals.load, Value.load], by
              simp [FieldVals.load, Value.load, getValueInterface_ptr n t _ _ a hg]⟩
        · obtain ⟨j, rel, hrel, hP⟩ := ihr loc fl (i + 1) _ m h e he
          exact ⟨j + 1, rel, by rw [hrel, Nat.add_assoc, Nat.add_comm 1 j], fun relp hp => by
            simpa [FieldVals.load] using hP relp hp⟩

/-- A successful `unwrapFields` keeps the type of the record. -/
theorem unwrapFieldsLoop_zero (fs : FieldVals) :
    ∀ (loc : Loc) (fl : Flag) (i : Nat) (refs : List FieldRef),
      (unwrapFieldsLoop fs loc fl i).2 = .ok refs →
      (unwrapFieldsLoop fs loc fl i).1.zero = fs.zero := by
  induction fs using FieldVals.induct_zero with
  | hn => intro loc fl i refs _; rfl
  | hc f child rest ihs ihp ihr =>
    intro loc fl i refs h
    obtain ⟨child', refs', h1, h2, k1, k2, k3, k4, k5, k6⟩ :=
      unwrapFieldsLoop_head f child rest loc fl i refs h
    rw [h1]
    simp only [FieldVals.zero, ihr loc fl (i + 1) refs' h2]
    congr 1
    by_cases hcs : (fl.Field f).CanSet = true
    swap
    · rw [k1 (by simpa using hcs)]
    cases child with
    | basic k d => rw [k2 k d rfl]
    | struct cfs =>
      by_cases ht : f.Tag = "-"
      · rw [k3 cfs rfl (Or.inl ht)]
      · by_cases ha : f.Anonymous = true
        · obtain ⟨hc', inner, hin⟩ := k4 cfs rfl hcs ht ha
          rw [hc']
          simp [Value.zero, ihs cfs rfl _ _ _ inner hin]
        · rw [k3 cfs rfl (Or.inr (by simpa using ha))]
    | ptr n t =>
      by_cases hleaf : f.Tag = "-" ∨ ¬ (t.Kind = .Struct ∧ f.Anonymous = true)
      · rw [k5 n t rfl hcs hleaf]
        cases n <;> simp [Value.zero, zero_zero_both.1]
      · simp only [not_or, not_not] at hleaf
        obtain ⟨ht, hk, ha⟩ := hleaf
        cases t with
        | basic k d =>
          have := toKind_ne_struct k
          simp [Value.Kind] at hk
          simp [hk] at this
        | ptr _ _ => simp [Value.Kind] at hk
        | struct cfs =>
          obtain ⟨hc', inner, hin⟩ := k6 n cfs rfl hcs ht ha
          rw [hc']
          cases n with
          | false =>
            simp only [Bool.false_eq_true, if_false] at hin ⊢
            simp [Value.zero, (ihp false cfs rfl).1 _ _ _ inner hin]
          | true =>
            simp only [if_true] at hin ⊢
            simp [Value.zero, (ihp true cfs rfl).2 _ _ _ inner hin, zero_zero_both.2]

/-- A successful `unwrapFields` keeps the flat catalog of the record. -/
theorem unwrapFieldsLoop_catalog (U : Unicode) (fs : FieldVals) (loc : Loc) (fl : Flag)
    (i : Nat) (refs : List FieldRef) (h : (unwrapFieldsLoop fs loc fl i).2 = .ok refs)
    (loc' : Loc) (i' : Nat) :
    flatCatalogFields U (unwrapFieldsLoop fs loc fl i).1 loc' i' =
      flatCatalogFields U fs loc' i' := by
  rw [← flatCatalogFields_zero U (unwrapFieldsLoop fs loc fl i).1,
    unwrapFieldsLoop_zero fs loc fl i refs h, flatCatalogFields_zero]

/-- Every scalar read in the record after a successful `unwrapFields` was
there before, or is the zero value of its kind. -/
theorem unwrapFieldsLoop_scalar (fs : FieldVals) :
    ∀ (loc : Loc) (fl : Flag) (i : Nat) (refs : List FieldRef),
      (unwrapFieldsLoop fs loc fl i).2 = .ok refs →
      ∀ (j : Nat) (l : Loc) (k : BasicKind) (d : Val),
        (unwrapFieldsLoop fs loc fl i).1.load j l = some (.basic k d) →
        fs.load j l = some (.basic k d) ∨ d = zeroVal k := by
  induction fs using FieldVals.induct_zero with
  | hn => intro loc fl i refs _ j l k d h; simp [unwrapFieldsLoop, FieldVals.load] at h
  | hc f child rest ihs ihp ihr =>
    intro loc fl i refs h j l k d hl
    obtain ⟨child', refs', h1, h2, k1, k2, k3, k4, k5, k6⟩ :=
      unwrapFieldsLoop_head f child rest loc fl i refs h
    rw [h1] at hl
    cases j with
    | succ j =>
      simp only [FieldVals.load] at hl ⊢
      exact ihr loc fl (i + 1) refs' h2 j l k d hl
    | zero =>
      simp only [FieldVals.load] at hl ⊢
      have same : child' = child → child.load l = some (.basic k d) ∨ d = zeroVal k :=
        fun hs => Or.inl (by rw [← hs]; exact hl)
      have zeroed : ∀ (z : Value) (l' : Loc), z.zero.load l' = some (.basic k d) →
          d = zeroVal k := by
        intro z l' hz
        have := load_zero_both.1 z l' _ hz
        simp only [Value.zero, Value.basic.injEq, true_and] at this
        exact this.symm
      by_cases hcs : (fl.Field f).CanSet = true
      swap
      · exact same (k1 (by simpa using hcs))
      cases child with
      | basic k0 d0 => exact same (k2 k0 d0 rfl)
      | struct cfs =>
        by_cases ht : f.Tag = "-"
        · exact same (k3 cfs rfl (Or.inl ht))
        · by_cases ha : f.Anonymous = true
          · obtain ⟨hc', inner, hin⟩ := k4 cfs rfl hcs ht ha
            rw [hc'] at hl
            obtain ⟨j2, l2, rfl, hl2⟩ := load_struct_field _ l k d hl
            simpa [Value.load] using ihs cfs rfl _ _ _ inner hin j2 l2 k d hl2
          · exact same (k3 cfs rfl (Or.inr (by simpa using ha)))
      | ptr n t =>
        by_cases hleaf : f.Tag = "-" ∨ ¬ (t.Kind = .Struct ∧ f.Anonymous = true)
        · have hc' := k5 n t rfl hcs hleaf
          cases n with
          | false => exact same (by simpa using hc')
          | true =>
            rw [hc'] at hl
            obtain ⟨_, l', rfl, hl'⟩ := load_ptr_elem _ _ l k d hl
            exact Or.inr (zeroed t l' (by simpa using hl'))
        · simp only [not_or, not_not] at hleaf
          obtain ⟨ht, hk, ha⟩ := hleaf
          cases t with
          | basic k0 d0 =>
            have := toKind_ne_struct k0
            simp [Value.Kind] at hk
            simp [hk] at this
          | ptr _ _ => simp [Value.Kind] at hk
          | struct cfs =>
            obtain ⟨hc', inner, hin⟩ := k6 n cfs rfl hcs ht ha
            rw [hc'] at hl
            obtain ⟨_, l', rfl, hl'⟩ := load_ptr_elem _ _ l k d hl
            obtain ⟨j2, l2, rfl, hl2⟩ := load_struct_field _ l' k d hl'
            cases n with
            | false =>
              simp only [Bool.false_eq_true, if_false] at hin hl2
              simpa [Value.load] using (ihp false cfs rfl).1 _ _ _ inner hin j2 l2 k d hl2
            | true =>
              simp only [if_true] at hin hl2
              rcases (ihp true cfs rfl).2 _ _ _ inner hin j2 l2 k d hl2 with hz | hz
              · have := load_zero_both.2 cfs j2 l2 _ hz
                simp only [Value.zero, Value.basic.injEq, true_and] at this
                exact Or.inr this.symm
              · exact Or.inr hz

/-- The call `getValueInterface` changes nothing but a nil pointer. -/
theorem getValueInterface_other (v : Value) (loc : Loc) (fl : Flag)
    (h : ∀ t, v ≠ .ptr true t) : (getValueInterface v loc fl).1 = v := by
  cases v with
  | basic k d => simp only [getValueInterface]; split <;> rfl
  | struct fs => simp only [getValueInterface]; split <;> rfl
  | ptr n t =>
    cases n with
    | false => exact getValueInterface_nonnil t loc fl
    | true => exact absurd rfl (h t)

/-- Every scalar read in the record after a successful
`getTaggedFieldValueMap` was there before, or is the zero value of its kind. -/
theorem getTagged_scalar_both (U : Unicode) :
    (∀ (v : Value) (loc : Loc) (fl : Flag) (m : TaggedMap),
      (getTaggedFieldValueMap U v loc fl).2 = .ok m →
      ∀ (l : Loc) (k : BasicKind) (d : Val),
        (getTaggedFieldValueMap U v loc fl).1.load l = some (.basic k d) →
        v.load l = some (.basic k d) ∨ d = zeroVal k) ∧
    (∀ (fs : FieldVals) (loc : Loc) (fl : Flag) (i : Nat) (result m : TaggedMap),
      (getTaggedLoop U fs loc fl i result).2 = .ok m →
      ∀ (j : Nat) (l : Loc) (k : BasicKind) (d : Val),
        (getTaggedLoop U fs loc fl i result).1.load j l = some (.basic k d) →
        fs.load j l = some (.basic k d) ∨ d = zeroVal k) := by
  apply Value.induct_both
  · intro k d loc fl m h
    simp [getTaggedFieldValueMap] at h
  · intro n t ih loc fl m h l k d hl
    cases t with
    | basic _ _ => simp [getTaggedFieldValueMap, Value.DerefNumField] at h
    | ptr n2 t2 =>
      simp only [getTaggedFieldValueMap] at h hl
      split at h
      · simp at h
      · rename_i h0
        simp only [h0] at hl
        exact Or.inl hl
      · split at h <;> simp at h
    | struct fs =>
      cases fs with
      | nil =>
        exact Or.inl (by
          simpa [getTaggedFieldValueMap, Value.DerefNumField, FieldVals.length] using hl)
      | cons g c r =>
        cases n with
        | true =>
          simp [getTaggedFieldValueMap, Value.DerefNumField, FieldVals.length] at h
        | false =>
          have h' : (getTaggedLoop U (.cons g c r) (loc ++ [.elem]) fl.Elem 0 []).2 = .ok m := by
            simpa [getTaggedFieldValueMap, Value.DerefNumField, FieldVals.length] using h
          have hl' : (Value.ptr false (.struct (getTaggedLoop U (.cons g c r) (loc ++ [.elem])
              fl.Elem 0 []).1)).load l = some (.basic k d) := by
            simpa [getTaggedFieldValueMap, Value.DerefNumField, FieldVals.length] using hl
          obtain ⟨_, l', rfl, hl''⟩ := load_ptr_elem _ _ l k d hl'
          have := ih (loc ++ [.elem]) fl.Elem m (by simpa [getTaggedFieldValueMap] using h')
            l' k d (by simpa [getTaggedFieldValueMap] using hl'')
          simpa [Value.load] using this
  · intro fs ih loc fl m h l k d hl
    simp only [getTaggedFieldValueMap] at h hl
    obtain ⟨j, l', rfl, hl'⟩ := load_struct_field _ l k d hl
    simpa [Value.load] using ih loc fl 0 [] m h j l' k d hl'
  · intro loc fl i result m _ j l k d hl
    simp [getTaggedLoop, FieldVals.load] at hl
  · intro f child rest ihc ihr loc fl i result m h j l k d hl
    by_cases hcond : (f.Anonymous && child.DerefKind == .Struct) = true
    · cases hc : (getTaggedFieldValueMap U child (loc ++ [Step.field i]) (fl.Field f)).2 with
      | err _ => simp [getTaggedLoop, hcond, hc] at h
      | panic => simp [getTaggedLoop, hcond, hc] at h
      | ok inner =>
        simp only [getTaggedLoop, hcond, hc, if_true] at h hl
        cases j with
        | succ j =>
          simp only [FieldVals.load] at hl ⊢
          exact ihr loc fl (i + 1) _ m h j l k d hl
        | zero =>
          simp only [FieldVals.load] at hl ⊢
          exact ihc _ _ inner hc l k d hl
    · cases hg : (getValueInterface child (loc ++ [Step.field i]) (fl.Field f)).2 with
      | err _ => simp [getTaggedLoop, hcond, hg] at h
      | panic => simp [getTaggedLoop, hcond, hg] at h
      | ok a =>
        simp only [getTaggedLoop, hcond, hg, Bool.false_eq_true, if_false] at h hl
        cases j with
        | succ j =>
          simp only [FieldVals.load] at hl ⊢
          exact ihr loc fl (i + 1) _ m h j l k d hl
        | zero =>
          simp only [FieldVals.load] at hl ⊢
          cases child with
          | basic k0 d0 =>
            rw [getValueInterface_other _ _ _ (fun t => by simp)] at hl
            exact Or.inl hl
          | struct cfs =>
            rw [getValueInterface_other _ _ _ (fun t => by simp)] at hl
            exact Or.inl hl
          | ptr n t =>
            rw [getValueInterface_ptr n t _ _ a hg] at hl
            cases n with
            | false => exact Or.inl (by simpa using hl)
            | true =>
              obtain ⟨_, l', rfl, hl'⟩ := load_ptr_elem _ _ l k d hl
              have := load_zero_both.1 t l' _ (by simpa using hl')
              simp only [Value.zero, Value.basic.injEq, true_and] at this
              exact Or.inr this.symm

/-- What is read at a location is read below what is read on the way. -/
theorem load_append_both :
    (∀ (v : Value) (q r : Loc) (w : Value), v.load (q ++ r) = some w →
      ∃ u, v.load q = some u ∧ u.load r = some w) ∧
    (∀ (fs : FieldVals) (j : Nat) (q r : Loc) (w : Value), fs.load j (q ++ r) = some w →
      ∃ u, fs.load j q = some u ∧ u.load r = some w) := by
  apply Value.induct_both
  · intro k d q r w h
    cases q with
    | nil => exact ⟨.basic k d, by simp [Value.load], by simpa using h⟩
    | cons s q => cases s <;> simp [Value.load] at h
  · intro n t ih q r w h
    cases q with
    | nil => exact ⟨.ptr n t, by simp [Value.load], by simpa using h⟩
    | cons s q =>
      cases s with
      | field _ => simp [Value.load] at h
      | elem =>
        cases n with
        | true => simp [Value.load] at h
        | false => simpa [Value.load] using ih q r w (by simpa [Value.load] using h)
  · intro fs ih q r w h
    cases q with
    | nil => exact ⟨.struct fs, by simp [Value.load], by simpa using h⟩
    | cons s q =>
      cases s with
      | elem => simp [Value.load] at h
      | field j => simpa [Value.load] using ih j q r w (by simpa [Value.load] using h)
  · intro j q r w h
    simp [FieldVals.load] at h
  · intro f v rest ihv ihr j q r w h
    cases j with
    | zero => simpa [FieldVals.load] using ihv q r w (by simpa [FieldVals.load] using h)
    | succ j => simpa [FieldVals.load] using ihr j q r w (by simpa [FieldVals.load] using h)

/-- What is read through a pointer is its target, and the pointer is not nil. -/
theorem load_elem (u : Value) (r : Loc) (w : Value) (h : u.load (.elem :: r) = some w) :
    ∃ t, u = .ptr false t ∧ t.load r = some w := by
  cases u with
  | basic k d => simp [Value.load] at h
  | struct fs => simp [Value.load] at h
  | ptr n t =>
    cases n with
    | true => simp [Value.load] at h
    | false => exact ⟨t, rfl, by simpa [Value.load] using h⟩

/-- What is read at `l` is a pointer that is not nil exactly when its target
is read at the element of `l`. -/
theorem load_snoc_elem_both :
    (∀ (v : Value) (l : Loc) (w : Value),
      v.load l = some (.ptr false w) → v.load (l ++ [.elem]) = some w) ∧
    (∀ (fs : FieldVals) (j : Nat) (l : Loc) (w : Value),
      fs.load j l = some (.ptr false w) → fs.load j (l ++ [.elem]) = some w) := by
  apply Value.induct_both
  · intro k d l w h
    cases l with
    | nil => simp [Value.load] at h
    | cons s l => cases s <;> simp [Value.load] at h
  · intro n t ih l w h
    cases l with
    | nil =>
      simp only [Value.load, Option.some.injEq, Value.ptr.injEq] at h
      obtain ⟨rfl, rfl⟩ := h
      simp [Value.load]
    | cons s l =>
      cases s with
      | field _ => simp [Value.load] at h
      | elem =>
        cases n with
        | true => simp [Value.load] at h
        | false => simpa [Value.load] using ih l w (by simpa [Value.load] using h)
  · intro fs ih l w h
    cases l with
    | nil => simp [Value.load] at h
    | cons s l =>
      cases s with
      | elem => simp [Value.load] at h
      | field j => simpa [Value.load] using ih j l w (by simpa [Value.load] using h)
  · intro j l w h
    simp [FieldVals.load] at h
  · intro f v rest ihv ihr j l w h
    cases j with
    | zero => simpa [FieldVals.load] using ihv l w (by simpa [FieldVals.load] using h)
    | succ j => simpa [FieldVals.load] using ihr j l w (by simpa [FieldVals.load] using h)

theorem toList_zero (fs : FieldVals) :
    fs.zero.toList = fs.toList.map fun e => (e.1, e.2.zero) := by
  induction fs using FieldVals.induct with
  | hn => rfl
  | hc f v rest ih => simp [FieldVals.zero, FieldVals.toList, ih]

/-- A successful `getTaggedFieldValueMap` keeps the type of the record. -/
theorem getTagged_zero_both (U : Unicode) :
    (∀ (v : Value) (loc : Loc) (fl : Flag) (m : TaggedMap),
      (getTaggedFieldValueMap U v loc fl).2 = .ok m →
      (getTaggedFieldValueMap U v loc fl).1.zero = v.zero) ∧
    (∀ (fs : FieldVals) (loc : Loc) (fl : Flag) (i : Nat) (result m : TaggedMap),
      (getTaggedLoop U fs loc fl i result).2 = .ok m →
      (getTaggedLoop U fs loc fl i result).1.zero = fs.zero) := by
  apply Value.induct_both
  · intro k d loc fl m h
    simp [getTaggedFieldValueMap] at h
  · intro n t ih loc fl m h
    cases t with
    | basic _ _ => simp [getTaggedFieldValueMap, Value.DerefNumField] at h
    | ptr n2 t2 =>
      simp only [getTaggedFieldValueMap] at h ⊢
      split at h
      · simp at h
      · rename_i h0
        simp only [h0]
      · split at h <;> simp at h
    | struct fs =>
      cases fs with
      | nil => simp [getTaggedFieldValueMap, Value.DerefNumField, FieldVals.length]
      | cons g c r =>
        cases n with
        | true =>
          simp [getTaggedFieldValueMap, Value.DerefNumField, FieldVals.length] at h
        | false =>
          have h' : (getTaggedLoop U (.cons g c r) (loc ++ [.elem]) fl.Elem 0 []).2 = .ok m := by
            simpa [getTaggedFieldValueMap, Value.DerefNumField, FieldVals.length] using h
          have := ih (loc ++ [.elem]) fl.Elem m (by simpa [getTaggedFieldValueMap] using h')
          simp only [getTaggedFieldValueMap, Value.zero, Value.struct.injEq] at this
          simp [getTaggedFieldValueMap, Value.DerefNumField, FieldVals.length, Value.zero, this]
  · intro fs ih loc fl m h
    simp only [getTaggedFieldValueMap] at h ⊢
    simp [Value.zero, ih loc fl 0 [] m h]
  · intro loc fl i result m _
    rfl
  · intro f child rest ihc ihr loc fl i result m h
    by_cases hcond : (f.Anonymous && child.DerefKind == .Struct) = true
    · cases hc : (getTaggedFieldValueMap U child (loc ++ [Step.field i]) (fl.Field f)).2 with
      | err _ => simp [getTaggedLoop, hcond, hc] at h
      | panic => simp [getTaggedLoop, hcond, hc] at h
      | ok inner =>
        simp only [getTaggedLoop, hcond, hc, if_true] at h ⊢
        simp [FieldVals.zero, ihc _ _ inner hc, ihr loc fl (i + 1) _ m h]
    · cases hg : (getValueInterface child (loc ++ [Step.field i]) (fl.Field f)).2 with
      | err _ => simp [getTaggedLoop, hcond, hg] at h
      | panic => simp [getTaggedLoop, hcond, hg] at h
      | ok a =>
        simp only [getTaggedLoop, hcond, hg, Bool.false_eq_true, if_false] at h ⊢
        simp only [FieldVals.zero, ihr loc fl (i + 1) _ m h]
        congr 1
        cases child with
        | basic k0 d0 => rw [getValueInterface_other _ _ _ (fun t => by simp)]
        | struct cfs => rw [getValueInterface_other _ _ _ (fun t => by simp)]
        | ptr n t =>
          rw [getValueInterface_ptr n t _ _ a hg]
          cases n <;> simp [Value.zero, zero_zero_both.1]

/-- After a successful `unwrapFields` a pointer field that can be set is not
nil. -/
theorem unwrapFieldsLoop_nonnil (fs : FieldVals) :
    ∀ (loc : Loc) (fl : Flag) (i : Nat) (refs : List FieldRef) (j : Nat) (f : StructField)
      (n : Bool) (t : Value),
      (unwrapFieldsLoop fs loc fl i).2 = .ok refs → fs.toList[j]? = some (f, .ptr n t) →
      (fl.Field f).CanSet = true →
      ∃ t', (unwrapFieldsLoop fs loc fl i).1.toList[j]? = some (f, .ptr false t') := by
  induction fs using FieldVals.induct with
  | hn => intro loc fl i refs j f n t _ hf; simp [FieldVals.toList] at hf
  | hc g child rest ih =>
    intro loc fl i refs j f n t h hf hcs
    obtain ⟨child', refs', h1, h2, _, h4, _⟩ := unwrapFieldsLoop_step g child rest loc fl i refs h
    rw [h1]
    cases j with
    | zero =>
      simp only [FieldVals.toList, List.getElem?_cons_zero, Option.some.injEq,
        Prod.mk.injEq] at hf ⊢
      obtain ⟨rfl, rfl⟩ := hf
      obtain ⟨t', ht'⟩ := h4 n t rfl hcs
      exact ⟨t', rfl, ht'⟩
    | succ j =>
      simp only [FieldVals.toList, List.getElem?_cons_succ] at hf ⊢
      exact ih loc fl (i + 1) refs' j f n t h2 hf hcs

/-- The call `getTaggedFieldValueMap` leaves a pointer that is not nil not nil. -/
theorem getTagged_ptr_nonnil (U : Unicode) (t : Value) (loc : Loc) (fl : Flag) :
    ∃ t', (getTaggedFieldValueMap U (.ptr false t) loc fl).1 = .ptr false t' := by
  cases t with
  | basic k d => exact ⟨.basic k d, by simp [getTaggedFieldValueMap, Value.DerefNumField]⟩
  | ptr n2 t2 =>
    simp only [getTaggedFieldValueMap]
    split
    · exact ⟨_, rfl⟩
    · exact ⟨_, rfl⟩
    · exact ⟨_, rfl⟩
  | struct fs =>
    simp only [getTaggedFieldValueMap]
    split
    · exact ⟨_, rfl⟩
    · exact ⟨_, rfl⟩
    · exact ⟨_, rfl⟩

/-- After a successful `getTaggedFieldValueMap` loop a pointer field that was
not nil is not nil. -/
theorem getTaggedLoop_nonnil (U : Unicode) (fs : FieldVals) :
    ∀ (loc : Loc) (fl : Flag) (i : Nat) (result m : TaggedMap) (j : Nat) (f : StructField)
      (t : Value),
      (getTaggedLoop U fs loc fl i result).2 = .ok m → fs.toList[j]? = some (f, .ptr false t) →
      ∃ t', (getTaggedLoop U fs loc fl i result).1.toList[j]? = some (f, .ptr false t') := by
  induction fs using FieldVals.induct with
  | hn => intro loc fl i result m j f t _ hf; simp [FieldVals.toList] at hf
  | hc g child rest ih =>
    intro loc fl i result m j f t h hf
    by_cases hcond : (g.Anonymous && child.DerefKind == .Struct) = true
    · cases hc : (getTaggedFieldValueMap U child (loc ++ [Step.field i]) (fl.Field g)).2 with
      | err _ => simp [getTaggedLoop, hcond, hc] at h
      | panic => simp [getTaggedLoop, hcond, hc] at h
      | ok inner =>
        simp only [getTaggedLoop, hcond, hc, if_true] at h ⊢
        cases j with
        | zero =>
          simp only [FieldVals.toList, List.getElem?_cons_zero, Option.some.injEq,
            Prod.mk.injEq] at hf ⊢
          obtain ⟨rfl, rfl⟩ := hf
          obtain ⟨t', ht'⟩ := getTagged_ptr_nonnil U t (loc ++ [Step.field i]) (fl.Field g)
          exact ⟨t', rfl, ht'⟩
        | succ j =>
          simp only [FieldVals.toList, List.getElem?_cons_succ] at hf ⊢
          exact ih loc fl (i + 1) _ m j f t h hf
    · cases hg : (getValueInterface child (loc ++ [Step.field i]) (fl.Field g)).2 with
      | err _ => simp [getTaggedLoop, hcond, hg] at h
      | panic => simp [getTaggedLoop, hcond, hg] at h
      | ok a =>
        simp only [getTaggedLoop, hcond, hg, Bool.false_eq_true, if_false] at h ⊢
        cases j with
        | zero =>
          simp only [FieldVals.toList, List.getElem?_cons_zero, Option.some.injEq,
            Prod.mk.injEq] at hf ⊢
          obtain ⟨rfl, rfl⟩ := hf
          exact ⟨t, rfl, getValueInterface_nonnil t _ _⟩
        | succ j =>
          simp only [FieldVals.toList, List.getElem?_cons_succ] at hf ⊢
          exact ih loc fl (i + 1) _ m j f t h hf

/-! ### unmarshalRow without a row -/

/-- C1: when the first `Next()` returns false, `unmarshalRow` returns the
error of the cursor if `Err()` is non-nil and `ErrRecordNotFound` exactly when
`Err()` is nil; the only calls made on the cursor are `Next` and `Err` (neither
`Columns` nor `Scan`), and the destination is not modified. -/
theorem unmarshalRow_no_row {σ : Type} (U : Unicode) (v : Option Value)
    (scanner : rowsScanner σ) (s : σ) (strict : Bool)
    (h : (scanner.Next s).2 = false) :
    (unmarshalRow U v scanner s strict).dest = v ∧
    (unmarshalRow U v scanner s strict).calls = [Call.Next, Call.Err] ∧
    (∀ e, (scanner.Err (scanner.Next s).1).2 = some e →
      (unmarshalRow U v scanner s strict).result = .err (.cursor e)) ∧
    ((unmarshalRow U v scanner s strict).result = .err .ErrRecordNotFound ↔
      (scanner.Err (scanner.Next s).1).2 = none) := by
  unfold unmarshalRow
  simp only [h]
  cases hE : (scanner.Err (scanner.Next s).1).2 <;> simp

/-- Witness of C1: the in-memory cursor without rows. -/
theorem unmarshalRow_no_row_witness :
    (memRows.Next ⟨["id"], [], none⟩).2 = false ∧
    (unmarshalRow ascii (some (.ptr false (.basic .Int (.int 7)))) memRows
      ⟨["id"], [], none⟩ true).result = .err .ErrRecordNotFound :=
  ⟨rfl, ((unmarshalRow_no_row ascii (some (.ptr false (.basic .Int (.int 7)))) memRows
      ⟨["id"], [], none⟩ true rfl).2.2.2).2 rfl⟩

/-! ### Binding by name and by position -/

/-- C2: `struct { Id int; Name string }` carries no tag and has two leaf
fields, at field 0 and field 1, so that two columns should be bound to them in
declaration order whatever their names.  The code binds by name instead: with
the columns `name`, `id` slot 0 is the address of field 1 and slot 1 the
address of field 0, and with the columns `x`, `y` both slots are throwaway
variables, so that `unmarshalRow` on the row `(1, "a")` returns nil and leaves
the record `{0, ""}`: the row is dropped. -/
theorem positional_binding_counterexample :
    FlatUntagged idNameFields ∧
    (unwrapFields (.struct idNameFields) [] Flag.root).2 =
      .ok [⟨[.field 0], Flag.root⟩, ⟨[.field 1], Flag.root⟩] ∧
    (mapStructFieldsIntoSlice ascii (.struct idNameFields) Flag.root ["name", "id"] true).2 =
      .ok [.addr [.field 1], .addr [.field 0]] ∧
    (mapStructFieldsIntoSlice ascii (.struct idNameFields) Flag.root ["x", "y"] true).2 =
      .ok [.anonymous 0, .anonymous 1] ∧
    (unmarshalRow ascii (some (.ptr false (.struct idNameFields))) memRows
      ⟨["x", "y"], [[.int 1, .str "a"]], none⟩ true).result = .ok () ∧
    (unmarshalRow ascii (some (.ptr false (.struct idNameFields))) memRows
      ⟨["x", "y"], [[.int 1, .str "a"]], none⟩ true).dest =
      some (.ptr false (.struct idNameFields)) :=
  ⟨flatUntagged_idName, by decide, by decide, by decide, by decide, by decide⟩

/-- What the code does for a record all of whose fields (those of embedded
records included) are exported, none tagged `-`, none a pointer to a pointer:
it binds by name.  With as many columns as the record has leaf fields,
`mapStructFieldsIntoSlice` succeeds, replaces the nil pointers of the record,
and slot `i` is the slot of the leaf field whose external name is
`columns[i]` (of the last such field), or the throwaway variable of column `i`
when no field carries that name; the external name of an untagged field is
the snake-case form of its name. -/
theorem untagged_binds_by_name (U : Unicode) (fs : FieldVals) (columns : List String)
    (strict : Bool) (hb : fs.Bindable = true)
    (hlen : columns.length = (flatCatalog U (.struct fs) []).length) :
    mapStructFieldsIntoSlice U (.struct fs) Flag.root columns strict =
      (.struct fs.alloc, .ok (slotsByName (flatCatalog U (.struct fs) []) columns)) ∧
    ∀ f : StructField, f.Tag = "" → fieldKey U f = ConvertCamelToSnake U f.Name := by
  refine ⟨mapStruct_bindable U fs columns strict hb (Or.inr (Nat.le_of_eq hlen.symm)) ?_,
    fun f hf => fieldKey_untagged U f hf⟩
  by_cases hne : flatCatalog U (.struct fs) [] = []
  · right
    exact List.eq_nil_of_length_eq_zero (by rw [hlen, hne]; rfl)
  · left
    exact hne

/-- An instance of binding by name: `struct { *Base; Age int }` with `Base`
nil and the columns `age`, `name`, `id`. -/
theorem untagged_binds_by_name_witness :
    nilEmbeddedFields.Bindable = true ∧
    mapStructFieldsIntoSlice ascii (.struct nilEmbeddedFields) Flag.root
        ["age", "name", "id"] true =
      (.struct nilEmbeddedFields.alloc,
        .ok [.addr [.field 1], .addr [.field 0, .elem, .field 1],
          .addr [.field 0, .elem, .field 0]]) :=
  ⟨by decide,
    (untagged_binds_by_name ascii nilEmbeddedFields ["age", "name", "id"] true (by decide)
      (by decide)).1⟩

/-- C3: `struct { Id int; Name string }` carries no tag and has two leaf
fields; with the three columns `id`, `name`, `extra` and `strict = true` the
call should return `ErrNotMatchDestination`.  The code returns three slots,
the last one a throwaway variable, and no error, so that `unmarshalRow` on the
row `(1, "a", "lost")` returns nil and the value of the third column is
discarded. -/
theorem strict_surplus_column_counterexample :
    (unwrapFields (.struct idNameFields) [] Flag.root).2 =
      .ok [⟨[.field 0], Flag.root⟩, ⟨[.field 1], Flag.root⟩] ∧
    (mapStructFieldsIntoSlice ascii (.struct idNameFields) Flag.root
        ["id", "name", "extra"] true).2 =
      .ok [.addr [.field 0], .addr [.field 1], .anonymous 2] ∧
    (unmarshalRow ascii (some (.ptr false (.struct idNameFields))) memRows
      ⟨["id", "name", "extra"], [[.int 1, .str "a", .str "lost"]], none⟩ true).result =
      .ok () ∧
    (unmarshalRow ascii (some (.ptr false (.struct idNameFields))) memRows
      ⟨["id", "name", "extra"], [[.int 1, .str "a", .str "lost"]], none⟩ true).dest =
      some (.ptr false (.struct (idNameFields.setRow [.int 1, .str "a"]))) :=
  ⟨by decide, by decide, by decide, by decide⟩

/-- What the strict check of the code does: with `strict = true`,
`mapStructFieldsIntoSlice` returns `ErrNotMatchDestination` when there are
fewer columns than leaf fields; when
there are more columns than leaf fields it returns `ErrNotMatchDestination`
only if the catalog is empty, and with a non-empty catalog it returns one slot
per column, the columns without a catalog entry bound to throwaway variables. -/
theorem strict_count_mismatch (U : Unicode) (v : Value) (fl : Flag) (columns : List String)
    (fields : List FieldRef) (m : TaggedMap)
    (hu : (unwrapFields v [] fl).2 = .ok fields)
    (hm : (getTaggedFieldValueMap U (unwrapFields v [] fl).1 [] fl).2 = .ok m) :
    (columns.length < fields.length →
      (mapStructFieldsIntoSlice U v fl columns true).2 = .err .ErrNotMatchDestination) ∧
    (fields.length < columns.length → m = [] →
      (mapStructFieldsIntoSlice U v fl columns true).2 = .err .ErrNotMatchDestination) ∧
    (fields.length < columns.length → m ≠ [] →
      (mapStructFieldsIntoSlice U v fl columns true).2 = .ok (taggedLoop m columns 0) ∧
      (taggedLoop m columns 0).length = columns.length ∧
      ∀ i, i < columns.length → m.get (columns.getD i "") = none →
        (taggedLoop m columns 0)[i]? = some (.anonymous i)) := by
  refine ⟨fun hlt => mapStruct_strict_mismatch U v fl columns fields hu hlt,
    fun hlt he => mapStruct_empty_catalog U v fl columns true fields hu (he ▸ hm) hlt,
    fun hlt hne => ⟨?_, taggedLoop_length m columns 0, ?_⟩⟩
  · rw [mapStruct_tagged U v fl columns true fields m hu (Or.inr (Nat.le_of_lt hlt)) hm hne]
  · intro i hi hnone
    rw [taggedLoop_getElem m columns i hi]
    rw [List.getD_eq_getElem columns "" hi] at hnone
    rw [hnone]
    rfl

/-- Instances of the strict check of the code: `struct { Id int; Name string }`
with one column is rejected and with three columns it is bound; the empty
struct with one column is rejected. -/
theorem strict_count_mismatch_witness :
    (mapStructFieldsIntoSlice ascii (.struct idNameFields) Flag.root ["id"] true).2 =
      .err .ErrNotMatchDestination ∧
    (mapStructFieldsIntoSlice ascii (.struct .nil) Flag.root ["x"] true).2 =
      .err .ErrNotMatchDestination ∧
    (mapStructFieldsIntoSlice ascii (.struct idNameFields) Flag.root
        ["id", "name", "extra"] true).2 =
      .ok (taggedLoop [("name", .addr [.field 1]), ("id", .addr [.field 0])]
        ["id", "name", "extra"] 0) :=
  ⟨(strict_count_mismatch ascii (.struct idNameFields) Flag.root ["id"]
      [⟨[.field 0], Flag.root⟩, ⟨[.field 1], Flag.root⟩]
      [("name", .addr [.field 1]), ("id", .addr [.field 0])] (by decide) (by decide)).1
      (by decide),
    (strict_count_mismatch ascii (.struct .nil) Flag.root ["x"] [] [] (by decide)
      (by decide)).2.1 (by decide) rfl,
    ((strict_count_mismatch ascii (.struct idNameFields) Flag.root ["id", "name", "extra"]
      [⟨[.field 0], Flag.root⟩, ⟨[.field 1], Flag.root⟩]
      [("name", .addr [.field 1]), ("id", .addr [.field 0])] (by decide) (by decide)).2.2
      (by decide) (by decide)).1⟩

/-! ### Default naming -/

/-- C4: for a record whose fields are exported, untagged, non-embedded scalars
with pairwise distinct snake-case names, and the column list made of
`ConvertCamelToSnake` of each field name in declaration order,
`mapStructFieldsIntoSlice` succeeds and slot `i` is the address of field `i`;
hence `unmarshalRow` on a cursor that has a row, reports these columns and
stores the values of `row` through the slots it is given returns nil and
leaves the record holding the values of `row`, field by field. -/
theorem default_naming_round_trip {σ : Type} (U : Unicode) (fs : FieldVals) (strict : Bool)
    (row : List Val) (scanner : rowsScanner σ) (s : σ)
    (hflat : FlatUntagged fs) (hnd : (defaultNames U fs).Nodup)
    (hrow : row.length = fs.length)
    (hnext : (scanner.Next s).2 = true)
    (hcols : (scanner.Columns (scanner.Next s).1).2 = .ok (defaultNames U fs))
    (hscan : (scanner.Scan (scanner.Columns (scanner.Next s).1).1
      ((List.range fs.length).map fun i => Slot.addr [.field i])).2 = (row.map some, none)) :
    mapStructFieldsIntoSlice U (.struct fs) Flag.root (defaultNames U fs) strict =
      (.struct fs, .ok ((List.range fs.length).map fun i => Slot.addr [.field i])) ∧
    (unmarshalRow U (some (.ptr false (.struct fs))) scanner s true).result = .ok () ∧
    (unmarshalRow U (some (.ptr false (.struct fs))) scanner s true).dest =
      some (.ptr false (.struct (fs.setRow row))) := by
  have hlen : (defaultNames U fs).length = fs.length := by
    simp [defaultNames, length_toList]
  have hmap : ∀ strict, mapStructFieldsIntoSlice U (.struct fs) Flag.root (defaultNames U fs)
      strict = (.struct fs, .ok ((List.range fs.length).map fun i => Slot.addr [.field i])) := by
    intro strict
    rw [mapStruct_flat U fs _ strict hflat hlen, slotsByName_default U fs hnd]
  refine ⟨hmap strict, ?_, ?_⟩
  · simp [unmarshalRow, hnext, ValidatePtr, isScalarKind, Value.Kind, hcols, hmap true, hscan,
      errorResult]
  · simp [unmarshalRow, hnext, ValidatePtr, isScalarKind, Value.Kind, hcols, hmap true, hscan,
      applyScan_row fs row hflat hrow]

/-- Witness of C4: `struct { Id int; Name string }`, the in-memory cursor with
the columns `id`, `name` and the row `(1, "a")` give `{Id: 1, Name: "a"}`. -/
theorem default_naming_round_trip_witness :
    FlatUntagged idNameFields ∧ (defaultNames ascii idNameFields).Nodup ∧
    defaultNames ascii idNameFields = ["id", "name"] ∧
    (unmarshalRow ascii (some (.ptr false (.struct idNameFields))) memRows
      ⟨["id", "name"], [[.int 1, .str "a"]], none⟩ true).dest =
        some (.ptr false (.struct
          (.cons ⟨"Id", true, "", false⟩ (.basic .Int (.int 1))
            (.cons ⟨"Name", true, "", false⟩ (.basic .String (.str "a")) .nil)))) :=
  ⟨flatUntagged_idName, by decide, by decide,
    (default_naming_round_trip ascii idNameFields true [.int 1, .str "a"] memRows
      ⟨["id", "name"], [[.int 1, .str "a"]], none⟩
      flatUntagged_idName (by decide) rfl rfl rfl rfl).2.2⟩

/-! ### Slots in column order -/

/-- C5: whenever `mapStructFieldsIntoSlice` succeeds, the catalog `m` it built
exists, and when `m` is not empty the call returns exactly `len(columns)`
slots; slot `i` is the catalog entry of `columns[i]` when that name is in the
catalog, and otherwise the throwaway variable declared for column `i`, which
is the address of no location of the record and is shared with no other
column. -/
theorem slots_follow_columns (U : Unicode) (v : Value) (fl : Flag) (columns : List String)
    (strict : Bool) (slots : List Slot)
    (h : (mapStructFieldsIntoSlice U v fl columns strict).2 = .ok slots) :
    ∃ m, (getTaggedFieldValueMap U (unwrapFields v [] fl).1 [] fl).2 = .ok m ∧
      (m ≠ [] →
        slots.length = columns.length ∧
        ∀ i, i < columns.length →
          (∀ a, m.get (columns.getD i "") = some a → slots[i]? = some a) ∧
          (m.get (columns.getD i "") = none →
            slots[i]? = some (.anonymous i) ∧
            (∀ loc, slots[i]? ≠ some (.addr loc)) ∧
            ∀ j, j ≠ i → slots[j]? ≠ some (.anonymous i))) := by
  obtain ⟨fields, m, _, hm, _, hslots⟩ := mapStruct_ok_inv U v fl columns strict slots h
  refine ⟨m, hm, fun hne => ?_⟩
  rw [hslots hne]
  refine ⟨taggedLoop_length m columns 0, fun i hi => ⟨fun a ha => ?_, fun hnone => ?_⟩⟩
  · rw [taggedLoop_getElem m columns i hi]
    rw [List.getD_eq_getElem columns "" hi] at ha
    rw [ha]
    rfl
  · have hi' : (taggedLoop m columns 0)[i]? = some (.anonymous i) := by
      rw [taggedLoop_getElem m columns i hi]
      rw [List.getD_eq_getElem columns "" hi] at hnone
      rw [hnone]
      rfl
    refine ⟨hi', fun loc => by rw [hi']; simp, fun j hj hcon => ?_⟩
    by_cases hjl : j < columns.length
    · rw [taggedLoop_getElem m columns j hjl] at hcon
      cases hg : m.get columns[j] with
      | none =>
        rw [hg] at hcon
        simp only [Option.getD_none, Option.some.injEq, Slot.anonymous.injEq] at hcon
        exact hj hcon
      | some a =>
        rw [hg] at hcon
        simp only [Option.getD_some, Option.some.injEq] at hcon
        obtain ⟨rel, hrel⟩ := getTagged_values_addr U _ [] fl m hm _ a hg
        rw [hrel] at hcon
        simp at hcon
    · rw [List.getElem?_eq_none (by rw [taggedLoop_length]; omega)] at hcon
      simp at hcon

/-- Witness of C5: the tagged record `{Id, Name}` with the columns `name` and
`extra`. -/
theorem slots_follow_columns_witness :
    (mapStructFieldsIntoSlice ascii (.struct taggedFields) Flag.root ["name", "extra"]
      false).2 = .ok [.addr [.field 1], .anonymous 1] ∧
    ∃ m, (getTaggedFieldValueMap ascii
        (unwrapFields (.struct taggedFields) [] Flag.root).1 [] Flag.root).2 = .ok m ∧
      (m ≠ [] →
        [Slot.addr [.field 1], Slot.anonymous 1].length = ["name", "extra"].length ∧
        ∀ i, i < ["name", "extra"].length →
          (∀ a, m.get (["name", "extra"].getD i "") = some a →
            [Slot.addr [.field 1], Slot.anonymous 1][i]? = some a) ∧
          (m.get (["name", "extra"].getD i "") = none →
            [Slot.addr [.field 1], Slot.anonymous 1][i]? = some (.anonymous i) ∧
            (∀ loc, [Slot.addr [.field 1], Slot.anonymous 1][i]? ≠ some (.addr loc)) ∧
            ∀ j, j ≠ i → [Slot.addr [.field 1], Slot.anonymous 1][j]? ≠
              some (.anonymous i))) :=
  ⟨by decide,
    slots_follow_columns ascii (.struct taggedFields) Flag.root ["name", "extra"] false
      [.addr [.field 1], .anonymous 1] (by decide)⟩

/-! ### Missing columns -/

/-- C6 (counterexample): the tagged record `{Id, Name}` with the single column
`id` is rejected with `strict = true`; and binding `{Id, Nick *string}` to the
single column `id` with `strict = false` replaces the nil pointer `Nick`, which
no column names, by a pointer to a fresh string. -/
theorem tagged_missing_column_counterexample :
    (mapStructFieldsIntoSlice ascii (.struct taggedFields) Flag.root ["id"] true).2 =
      .err .ErrNotMatchDestination ∧
    Value.load (.struct nickFields) [.field 1] =
      some (.ptr true (.basic .String (.str ""))) ∧
    (mapStructFieldsIntoSlice ascii (.struct nickFields) Flag.root ["id"] false).2 =
      .ok [.addr [.field 0]] ∧
    (mapStructFieldsIntoSlice ascii (.struct nickFields) Flag.root ["id"] false).1.load
      [.field 1] = some (.ptr false (.basic .String (.str ""))) :=
  ⟨by decide, by decide, by decide, by decide⟩

/-- C6 (amended): for a record whose catalog `m` is built and not empty, a
column list with fewer columns than leaf fields is rejected with
`ErrNotMatchDestination` when `strict = true`; with `strict = false` binding
succeeds for every column list, and whatever `Scan` stores through the
returned slots, every scalar leaf of the record that no column is bound to
keeps the value it had before the call. -/
theorem tagged_missing_columns (U : Unicode) (v : Value) (fl : Flag) (columns : List String)
    (fields : List FieldRef) (m : TaggedMap)
    (hu : (unwrapFields v [] fl).2 = .ok fields)
    (hm : (getTaggedFieldValueMap U (unwrapFields v [] fl).1 [] fl).2 = .ok m)
    (hne : m ≠ []) :
    (columns.length < fields.length →
      (mapStructFieldsIntoSlice U v fl columns true).2 = .err .ErrNotMatchDestination) ∧
    (mapStructFieldsIntoSlice U v fl columns false).2 = .ok (taggedLoop m columns 0) ∧
    ∀ (xs : List (Option Val)) (l : Loc) (k : BasicKind) (d : Val),
      v.load l = some (.basic k d) → (∀ c ∈ columns, m.get c ≠ some (.addr l)) →
      (applyScan (mapStructFieldsIntoSlice U v fl columns false).1
        (taggedLoop m columns 0) xs).load l = some (.basic k d) := by
  have hmap := mapStruct_tagged U v fl columns false fields m hu (Or.inl rfl) hm hne
  refine ⟨fun hlt => mapStruct_strict_mismatch U v fl columns fields hu hlt, ?_, ?_⟩
  · rw [hmap]
  · intro xs l k d hl hfree
    rw [hmap]
    refine applyScan_frame _ _ xs l k d ?_ ?_
    · exact (getTagged_load_both U).1 _ [] fl l k d
        (unwrapFields_load_both.1 v [] fl l k d hl)
    · intro hmem
      rcases mem_taggedLoop m columns 0 _ hmem with ⟨c, hc, hget⟩ | ⟨j, hj⟩
      · exact hfree c hc hget
      · simp at hj

/-- Witness of C6 (amended): the tagged record `{Id, Name}` with the single
column `id`; `Name` keeps its value when the column is scanned. -/
theorem tagged_missing_columns_witness :
    (mapStructFieldsIntoSlice ascii (.struct taggedFields) Flag.root ["id"] true).2 =
      .err .ErrNotMatchDestination ∧
    (mapStructFieldsIntoSlice ascii (.struct taggedFields) Flag.root ["id"] false).2 =
      .ok (taggedLoop [("name", .addr [.field 1]), ("id", .addr [.field 0])] ["id"] 0) ∧
    (applyScan (mapStructFieldsIntoSlice ascii (.struct taggedFields) Flag.root ["id"] false).1
      (taggedLoop [("name", .addr [.field 1]), ("id", .addr [.field 0])] ["id"] 0)
      [some (.int 5)]).load [.field 1] = some (.basic .String (.str "")) :=
  ⟨(tagged_missing_columns ascii (.struct taggedFields) Flag.root ["id"]
      [⟨[.field 0], Flag.root⟩, ⟨[.field 1], Flag.root⟩]
      [("name", .addr [.field 1]), ("id", .addr [.field 0])] (by decide) (by decide)
      (by decide)).1 (by decide),
    (tagged_missing_columns ascii (.struct taggedFields) Flag.root ["id"]
      [⟨[.field 0], Flag.root⟩, ⟨[.field 1], Flag.root⟩]
      [("name", .addr [.field 1]), ("id", .addr [.field 0])] (by decide) (by decide)
      (by decide)).2.1,
    (tagged_missing_columns ascii (.struct taggedFields) Flag.root ["id"]
      [⟨[.field 0], Flag.root⟩, ⟨[.field 1], Flag.root⟩]
      [("name", .addr [.field 1]), ("id", .addr [.field 0])] (by decide) (by decide)
      (by decide)).2.2 [some (.int 5)] [.field 1] .String (.str "") (by decide)
      (by decide)⟩

/-! ### Ignored fields -/

/-- C7 (the code at the failing input): for `struct { Id int; Secret string }`
with `Secret` tagged `esql:"-"`, `unwrapFields` leaves `Secret` out, but the
map of `getTaggedFieldValueMap` has the key `-` bound to the address of
`Secret`; with the columns `id`, `-` the second slot is the address of
`Secret`, and `unmarshalRow` on the row `(1, "x")` overwrites `Secret`. -/
theorem ignored_field_in_catalog :
    (unwrapFields (.struct secretFields) [] Flag.root).2 = .ok [⟨[.field 0], Flag.root⟩] ∧
    (getTaggedFieldValueMap ascii (.struct secretFields) [] Flag.root).2 =
      .ok [("-", .addr [.field 1]), ("id", .addr [.field 0])] ∧
    (mapStructFieldsIntoSlice ascii (.struct secretFields) Flag.root ["id", "-"] true).2 =
      .ok [.addr [.field 0], .addr [.field 1]] ∧
    (unmarshalRow ascii (some (.ptr false (.struct secretFields))) memRows
      ⟨["id", "-"], [[.int 1, .str "x"]], none⟩ true).dest =
        some (.ptr false (.struct
          (.cons ⟨"Id", true, "", false⟩ (.basic .Int (.int 1))
            (.cons ⟨"Secret", true, "-", false⟩ (.basic .String (.str "x")) .nil)))) :=
  ⟨by decide, by decide, by decide, by decide⟩

/-! ### Embedded records -/

/-- C8: when the catalog `m` of a record is built, every leaf field of a
record embedded in it (by value or through a pointer, at any depth below the
embedded field `i`) is in `m` under its own external name `k`, with no name
put before it, provided no other field of the record resolves to `k`; the
entry is the address `s` of that field inside the parent instance, below
field `i`, and a value stored through `s` is read back through the parent
record. -/
theorem embedded_flattening (U : Unicode) (fs : FieldVals) (fl : Flag) (m : TaggedMap)
    (hm : (getTaggedFieldValueMap U (.struct fs) [] fl).2 = .ok m)
    (i : Nat) (f : StructField) (child : Value)
    (hi : fs.toList[i]? = some (f, child)) (ha : f.Anonymous = true)
    (hk : child.DerefKind = .Struct) (k : String) (s : Slot)
    (hmem : (k, s) ∈ flatCatalog U child [.field i])
    (huniq : ∀ s', (k, s') ∈ flatCatalog U (.struct fs) [] → s' = s) :
    m.get k = some s ∧
    ∃ rel t, s = .addr (.field i :: rel) ∧
      (getTaggedFieldValueMap U (.struct fs) [] fl).1.load (.field i :: rel) = some t ∧
      ∀ x, ((getTaggedFieldValueMap U (.struct fs) [] fl).1.store (.field i :: rel) x).load
        (.field i :: rel) = some (t.withData x) := by
  have hin : (k, s) ∈ flatCatalog U (.struct fs) [] := by
    have := flatCatalog_embedded U fs [] 0 i f child hi ha hk (k, s) (by simpa using hmem)
    simpa [flatCatalog] using this
  refine ⟨?_, ?_⟩
  · rw [((getTagged_spec_both U).1 (.struct fs) [] fl m hm).2 k]
    exact lastEntry_of_mem_unique _ k s hin huniq
  · obtain ⟨rel, hrel⟩ := (flatCatalog_below_both U).1 child [.field i] (k, s) hmem
    obtain ⟨rel', hrel', t, ht⟩ := (getTagged_valid_both U).1 (.struct fs) [] fl m hm (k, s) hin
    simp only [List.nil_append] at hrel'
    simp only [List.singleton_append] at hrel
    have he : rel' = .field i :: rel := by
      rw [hrel] at hrel'
      exact (Slot.addr.inj hrel').symm
    subst he
    refine ⟨rel, t, hrel, ht, fun x => ?_⟩
    rw [Value.store, (load_modify_both (Value.withData x)).1, ht]
    rfl

/-- Witness of C8: `struct { *Base; Age int }` with `Base = { Id; Name }`; the
field `Name` of `Base` is in the catalog under `name`, at its address below
the embedded pointer. -/
theorem embedded_flattening_witness :
    (getTaggedFieldValueMap ascii (.struct embeddedFields) [] Flag.root).2 =
      .ok [("age", .addr [.field 1]), ("id", .addr [.field 0, .elem, .field 0]),
        ("name", .addr [.field 0, .elem, .field 1])] ∧
    TaggedMap.get [("age", .addr [.field 1]), ("id", .addr [.field 0, .elem, .field 0]),
        ("name", .addr [.field 0, .elem, .field 1])] "name" =
      some (.addr [.field 0, .elem, .field 1]) ∧
    ∃ rel t, Slot.addr [.field 0, .elem, .field 1] = .addr (.field 0 :: rel) ∧
      (getTaggedFieldValueMap ascii (.struct embeddedFields) [] Flag.root).1.load
        (.field 0 :: rel) = some t ∧
      ∀ x, ((getTaggedFieldValueMap ascii (.struct embeddedFields) [] Flag.root).1.store
        (.field 0 :: rel) x).load (.field 0 :: rel) = some (t.withData x) :=
  ⟨by decide,
    embedded_flattening ascii embeddedFields Flag.root
      [("age", .addr [.field 1]), ("id", .addr [.field 0, .elem, .field 0]),
        ("name", .addr [.field 0, .elem, .field 1])] (by decide) 0
      ⟨"Base", true, "", true⟩ (.ptr false (.struct idNameFields)) (by decide) rfl
      (by decide) "name" (.addr [.field 0, .elem, .field 1]) (by decide)
      (fun s' hs => by rw [flatCatalog_embeddedFields] at hs; simpa using hs)⟩

/-! ### Duplicate external names -/

/-- C9 (counterexample): for `struct { A int; B int }` with both fields tagged
`esql:"x"`, building the catalog succeeds and keeps only the second field. -/
theorem duplicate_names_counterexample :
    (getTaggedFieldValueMap ascii (.struct duplicateFields) [] Flag.root).2 =
      .ok [("x", .addr [.field 1])] ∧
    (mapStructFieldsIntoSlice ascii (.struct duplicateFields) Flag.root ["x", "x"] true).2 =
      .ok [.addr [.field 1], .addr [.field 1]] :=
  ⟨by decide, by decide⟩

/-- C9 (amended): building the catalog never fails because of a name: the only
error it returns is `ErrNotReadableValue`, and when it succeeds every name
maps to the slot of the field declared last among the fields that resolve to
that name (after flattening embedded records), the earlier ones being
replaced silently. -/
theorem duplicate_names_last_wins (U : Unicode) (v : Value) (loc : Loc) (fl : Flag) :
    (∀ e, (getTaggedFieldValueMap U v loc fl).2 = .err e → e = .ErrNotReadableValue) ∧
    (∀ m, (getTaggedFieldValueMap U v loc fl).2 = .ok m →
      ∀ k, m.get k = lastEntry (flatCatalog U v loc) k) :=
  ⟨fun e he => (getTagged_error_both U).1 v loc fl e he,
    fun m hm => ((getTagged_spec_both U).1 v loc fl m hm).2⟩

/-- Witness of C9 (amended): `struct { A int; B int }` with both fields tagged
`esql:"x"`; the name `x` maps to `B`. -/
theorem duplicate_names_last_wins_witness :
    (getTaggedFieldValueMap ascii (.struct duplicateFields) [] Flag.root).2 =
      .ok [("x", .addr [.field 1])] ∧
    flatCatalog ascii (.struct duplicateFields) [] =
      [("x", .addr [.field 0]), ("x", .addr [.field 1])] ∧
    TaggedMap.get [("x", .addr [.field 1])] "x" =
      lastEntry (flatCatalog ascii (.struct duplicateFields) []) "x" :=
  ⟨by decide, by decide,
    (duplicate_names_last_wins ascii (.struct duplicateFields) [] Flag.root).2
      [("x", .addr [.field 1])] (by decide) "x"⟩

/-! ### ConvertCamelToSnake -/

/-- C10: for every string, `ConvertCamelToSnake` equals the literal transform
(scan the characters in order, emit an underscore before each upper-case
character at an index greater than zero, then the character lowercased); the
result is longer than the input by the number of upper-case characters after
the first position, which is also the number of underscores added;
`UserName` gives `user_name`, `UserID` gives `user_i_d` and the empty string
gives the empty string. -/
theorem ConvertCamelToSnake_literal (U : Unicode) (s : String) :
    ConvertCamelToSnake U s = String.mk (literalSnake U s.toList) ∧
    (ConvertCamelToSnake U s).length = s.length + upperAfterFirst U s.toList ∧
    (ConvertCamelToSnake U s).toList.count '_' =
      upperAfterFirst U s.toList + (s.toList.map U.ToLower).count '_' ∧
    ConvertCamelToSnake ascii "UserName" = "user_name" ∧
    ConvertCamelToSnake ascii "UserID" = "user_i_d" ∧
    ConvertCamelToSnake U "" = "" := by
  refine ⟨?_, ?_, ?_, by decide, by decide, ?_⟩
  · simp [ConvertCamelToSnake, convertCamelToSnakeRunes_eq]
  · rw [ConvertCamelToSnake, convertCamelToSnakeRunes_eq]
    exact literalSnake_length U s.toList
  · simp [ConvertCamelToSnake, convertCamelToSnakeRunes_eq, literalSnake_count]
  · rfl

/-! ### unmarshalRows: zero rows -/

/-- C11, counterexample: with a nil slice of `struct { Id int; Name string }`
and a cursor that has no row and no error, `unmarshalRows` returns success and
the slice is still nil, not an empty non-nil slice. -/
theorem unmarshalRows_nil_slice_counterexample :
    (memRows.Next noRows).2 = false ∧ (memRows.Err (memRows.Next noRows).1).2 = none ∧
    (unmarshalRows ascii (RowsDest.ofSlice (.struct idNameFields) none) memRows noRows true 0).map
        (fun o => (o.result, o.dest.slice.items)) = some (.ok (), none) ∧
    (none : Option (List Value)) ≠ some [] := by
  refine ⟨by decide, by decide, by decide, by decide⟩

/-- C11, amended: for every pointer to a slice whose dereferenced element kind
is a supported scalar or a struct, and every cursor that reports its columns
and yields no row and no error, `unmarshalRows` returns success whatever the
fuel and leaves the destination as it was: a nil slice stays nil and the
elements already there stay; the cursor it leaves reports no error. -/
theorem unmarshalRows_no_rows {σ : Type} (U : Unicode) (d : RowsDest)
    (scanner : rowsScanner σ) (s : σ) (strict : Bool) (fuel : Nat) (rve : Value)
    (hv : d.v = some (.ptr false rve)) (hk : rve.Kind = .Slice)
    (hscalar : isScalarKind d.slice.elem.Deref.Kind = true →
      (scanner.Next s).2 = false ∧ (scanner.Err (scanner.Next s).1).2 = none)
    (hstruct : isScalarKind d.slice.elem.Deref.Kind = false →
      d.slice.elem.Deref.Kind = .Struct ∧ (∃ columns, (scanner.Columns s).2 = .ok columns) ∧
      (scanner.Next (scanner.Columns s).1).2 = false ∧
      (scanner.Err (scanner.Next (scanner.Columns s).1).1).2 = none) :
    ∃ o, unmarshalRows U d scanner s strict fuel = some o ∧ o.result = .ok () ∧ o.dest = d ∧
      (scanner.Err o.cursor).2 = none := by
  cases hsc : isScalarKind d.slice.elem.Deref.Kind with
  | true =>
    obtain ⟨hn, he⟩ := hscalar hsc
    refine ⟨RowsOutcome.ofLoop d
      ((⟨d.slice.items, (scanner.Next s).1, [.next false]⟩ : RowsState σ), .ok ()),
      ?_, rfl, rfl, he⟩
    unfold unmarshalRows
    simp only [hv, ValidatePtr, Flag.root, Flag.CanSet, Flag.RO, hk, hsc, Bool.not_true,
      Bool.and_true, Bool.or_self, Bool.not_false, Bool.false_eq_true, if_false, if_true]
    rw [forNext_no_rows scanner _ fuel _ hn]
    rfl
  | false =>
    obtain ⟨hst, ⟨columns, hc⟩, hn, he⟩ := hstruct hsc
    refine ⟨RowsOutcome.ofLoop d
      ((⟨d.slice.items, (scanner.Next (scanner.Columns s).1).1,
        [.columns (.ok columns), .next false]⟩ : RowsState σ), .ok ()), ?_, rfl, rfl, he⟩
    unfold unmarshalRows
    simp only [hv, ValidatePtr, Flag.root, Flag.CanSet, Flag.RO, hk, hst, isScalarKind, hc,
      Bool.not_true, Bool.and_true, Bool.or_self, Bool.not_false, Bool.false_eq_true, if_false,
      if_true]
    rw [forNext_no_rows scanner _ fuel _ hn]
    rfl

/-- Witness of the amended C11: the slice holding `{7, "z"}` and a cursor with
no row and no error. -/
theorem unmarshalRows_no_rows_witness :
    ∃ o, unmarshalRows ascii idNameSlice memRows noRows true 0 = some o ∧
      o.result = .ok () ∧ o.dest = idNameSlice ∧ (memRows.Err o.cursor).2 = none :=
  unmarshalRows_no_rows ascii idNameSlice memRows noRows true 0 (.basic .Slice .null) rfl rfl
    (fun h => absurd h (by decide)) (fun _ => ⟨rfl, ⟨_, rfl⟩, rfl, rfl⟩)

/-! ### unmarshalRows: the terminal error of the cursor -/

/-- C12: on a cursor whose `Next` returns false while `Err` reports an error,
before any row and after one row, `unmarshalRows` returns success (after one
row with that row appended) and never calls `Err`, where `unmarshalRow` on the
same cursor returns the error. -/
theorem unmarshalRows_drops_cursor_error :
    (brokenRows.Next noRows).2 = false ∧
    (brokenRows.Err (brokenRows.Next noRows).1).2 = some ⟨"driver: bad connection"⟩ ∧
    (unmarshalRows ascii idNameSlice brokenRows noRows true 0).map (fun o => o.result) =
      some (.ok ()) ∧
    (unmarshalRows ascii (RowsDest.ofSlice (.struct idNameFields) none) brokenRows
        { noRows with pending := [[.int 1, .str "a"]] } true 1).map
        (fun o => (o.result, o.dest.slice.items,
          (brokenRows.Next o.cursor).2, (brokenRows.Err o.cursor).2)) =
      some (.ok (), some [.struct (idNameFields.setRow [.int 1, .str "a"])], false,
        some ⟨"driver: bad connection"⟩) ∧
    (unmarshalRow ascii (some (.ptr false (.struct idNameFields))) brokenRows noRows
        true).result = .err (.cursor ⟨"driver: bad connection"⟩) := by
  refine ⟨by decide, by decide, by decide, by decide, by decide⟩

/-! ### unmarshalRows: append semantics -/

/-- C13: for every destination and every cursor, `unmarshalRows` returns once
the fuel covers a measure of the cursor that every visited row decreases, and
more fuel gives the same outcome; whenever it returns, with success or with an
error, the interface value and the element type are unchanged and the elements
of the slice are the initial elements followed by one element per successful
call of `Scan`, in cursor order.  For a pointer to a slice of a supported
kind the call ends as the run of the cursor does (`cursorRows`: the rows
`Next` yields, each scanned through the slots of the binding, up to the first
row on which the binding or `Scan` fails), and the slice holds the initial
elements followed by one element per row of that run, element `i` being what
`Scan` stored for row `i` into a fresh value (the pointer itself for a slice
of pointers, a copy of its target for a slice of values); with no row scanned
the destination is as it was.  The run of the in-memory cursor delivers its
pending rows, in order. -/
theorem unmarshalRows_appends {σ : Type} (U : Unicode) (d : RowsDest)
    (scanner : rowsScanner σ) (s : σ) (strict : Bool) (μ : σ → Nat)
    (hμ : ∀ s slots, (scanner.Next s).2 = true →
      μ (scanner.Scan (scanner.Next s).1 slots).1 < μ s) :
    (∀ fuel, max (μ s) (μ (scanner.Columns s).1) ≤ fuel →
      (unmarshalRows U d scanner s strict fuel).isSome = true) ∧
    (∀ fuel o, unmarshalRows U d scanner s strict fuel = some o →
      (∀ fuel', fuel ≤ fuel' → unmarshalRows U d scanner s strict fuel' = some o) ∧
      o.dest.v = d.v ∧ o.dest.slice.elem = d.slice.elem ∧
      (o.result ≠ .panic →
        o.dest.slice.items.getD [] = d.slice.items.getD [] ++
          scannedItems d.slice.elem (scanTarget U d (columnsOf scanner s) strict) o.events)) ∧
    (∀ rve, d.v = some (.ptr false rve) → rve.Kind = .Slice →
      (isScalarKind d.slice.elem.Deref.Kind = true ∨
        (d.slice.elem.Deref.Kind = .Struct ∧
          ∃ columns, (scanner.Columns s).2 = .ok columns)) →
      ∀ fuel o, unmarshalRows U d scanner s strict fuel = some o → o.result ≠ .panic →
      ∃ run, cursorRows scanner (rowSlots U d (columnsOf scanner s) strict) fuel
          (if d.slice.elem.Deref.Kind = .Struct then (scanner.Columns s).1 else s) =
          some run ∧
        o.cursor = run.cursor ∧ o.result = run.result ∧
        (run.rows = [] → o.dest = d) ∧
        ((∀ values, rowSlots U d (columnsOf scanner s) strict ≠ .ok values) →
          run.rows = []) ∧
        ∀ values, rowSlots U d (columnsOf scanner s) strict = .ok values →
          o.dest.slice.items.getD [] = d.slice.items.getD [] ++
            run.rows.map fun stored => rowElement d.slice.elem
              (applyScan (scanTarget U d (columnsOf scanner s) strict) values stored)) ∧
    (∀ (values : List Slot) (columns : List String) (rows : List (List Val))
      (current : Option (List Val)), (∀ r ∈ rows, r.length = values.length) →
      cursorRows memRows (.ok values) rows.length
          { columns := columns, pending := rows, current := current } =
        some { rows := rows.map fun r => r.map some,
               cursor := { columns := columns, pending := [], current := none },
               result := .ok () }) :=
  ⟨(unmarshalRows_trace U d scanner s strict μ hμ).1,
    (unmarshalRows_trace U d scanner s strict μ hμ).2,
    fun rve hv hk hsup fuel o ho hp =>
      unmarshalRows_rows U d scanner s strict rve hv hk hsup fuel o ho hp,
    fun values columns rows current h => cursorRows_memRows values columns rows current h⟩

/-- Witness of C13: the in-memory cursor with the rows `(1, "a")`, `(2, "b")`
delivers these two rows and `unmarshalRows` appends `{1, "a"}` and `{2, "b"}`
after the element `{7, "z"}`; when `Scan` fails on the second row the run has
the first row only and that row stays appended. -/
theorem unmarshalRows_appends_witness :
    (∀ s slots, (memRows.Next s).2 = true →
      (memRows.Scan (memRows.Next s).1 slots).1.pending.length < s.pending.length) ∧
    (unmarshalRows ascii idNameSlice memRows twoRows true 2).isSome = true ∧
    (cursorRows memRows (rowSlots ascii idNameSlice ["id", "name"] true) 2 twoRows).map
        (fun run => run.rows) =
      some [[some (.int 1), some (.str "a")], [some (.int 2), some (.str "b")]] ∧
    (unmarshalRows ascii idNameSlice memRows twoRows true 2).map
        (fun o => (o.result, o.dest.slice.items)) =
      some (.ok (), some [.struct (idNameFields.setRow [.int 7, .str "z"]),
        .struct (idNameFields.setRow [.int 1, .str "a"]),
        .struct (idNameFields.setRow [.int 2, .str "b"])]) ∧
    (cursorRows memRows (rowSlots ascii idNameSlice ["id", "name"] true) 3 badSecondRow).map
        (fun run => (run.rows, run.result)) =
      some ([[some (.int 1), some (.str "a")]],
        .err (.cursor ⟨"sql: wrong number of destination arguments in Scan"⟩)) ∧
    (unmarshalRows ascii idNameSlice memRows badSecondRow true 3).map
        (fun o => (o.result, o.dest.slice.items)) =
      some (.err (.cursor ⟨"sql: wrong number of destination arguments in Scan"⟩),
        some [.struct (idNameFields.setRow [.int 7, .str "z"]),
          .struct (idNameFields.setRow [.int 1, .str "a"])]) :=
  ⟨memRows_measure,
    (unmarshalRows_appends ascii idNameSlice memRows twoRows true
      (fun s => s.pending.length) memRows_measure).1 2 (by decide),
    by decide, by decide, by decide, by decide⟩

/-! ### Unsupported destinations -/

/-- C14: `unmarshalRows` returns the error of `ValidatePtr` for every
destination that is not a non-nil pointer, and `ErrUnsupportedValueType` for
every pointer to a value that is not a slice and for every pointer to a slice
whose dereferenced element kind is neither a supported scalar nor a struct; in
these cases it makes no call on the cursor, whatever the fuel, and leaves the
destination and the cursor as they were.  `unmarshalRow`, once `Next` has
returned true, returns `ErrUnsupportedValueType` for every pointer to a value
whose kind is neither a supported scalar nor a struct, after that one call and
with the destination as it was. -/
theorem unsupported_destinations {σ : Type} (U : Unicode) (scanner : rowsScanner σ) (s : σ)
    (strict : Bool) :
    (∀ d fuel, (∀ rve, d.v ≠ some (.ptr false rve)) →
      unmarshalRows U d scanner s strict fuel =
        some { dest := d, cursor := s, result := .err .notValidPointer, events := [] }) ∧
    (∀ d fuel rve, d.v = some (.ptr false rve) → rve.Kind ≠ .Slice →
      unmarshalRows U d scanner s strict fuel =
        some { dest := d, cursor := s, result := .err .ErrUnsupportedValueType, events := [] }) ∧
    (∀ d fuel rve, d.v = some (.ptr false rve) → rve.Kind = .Slice →
      isScalarKind d.slice.elem.Deref.Kind = false → d.slice.elem.Deref.Kind ≠ .Struct →
      unmarshalRows U d scanner s strict fuel =
        some { dest := d, cursor := s, result := .err .ErrUnsupportedValueType, events := [] }) ∧
    (∀ rve, (scanner.Next s).2 = true → isScalarKind rve.Kind = false → rve.Kind ≠ .Struct →
      unmarshalRow U (some (.ptr false rve)) scanner s strict =
        { dest := some (.ptr false rve), cursor := (scanner.Next s).1,
          result := .err .ErrUnsupportedValueType, calls := [.Next] }) := by
  refine ⟨?_, ?_, ?_, ?_⟩
  · intro d fuel h
    unfold unmarshalRows
    cases hd : d.v with
    | none => rfl
    | some v =>
      cases v with
      | ptr n t =>
        cases n with
        | false => exact absurd hd (h t)
        | true => rfl
      | basic k x => rfl
      | struct fs => rfl
  · intro d fuel rve hv hk
    unfold unmarshalRows
    simp [hv, ValidatePtr, Flag.root, Flag.CanSet, Flag.RO, hk]
  · intro d fuel rve hv hk hsc hst
    unfold unmarshalRows
    simp [hv, ValidatePtr, Flag.root, Flag.CanSet, Flag.RO, hk, hsc, hst]
  · intro rve hn hsc hst
    unfold unmarshalRow
    simp [hn, ValidatePtr, hsc, hst]

/-- Witness of C14: a nil interface, a pointer to an `int`, a pointer to a
slice of maps, and `unmarshalRow` on a pointer to a map. -/
theorem unsupported_destinations_witness :
    unmarshalRows ascii { v := none, slice := ⟨.basic .Int (.int 0), none⟩ } memRows twoRows
        true 0 =
      some { dest := { v := none, slice := ⟨.basic .Int (.int 0), none⟩ }, cursor := twoRows,
             result := .err .notValidPointer, events := [] } ∧
    unmarshalRows ascii { v := some (.ptr false (.basic .Int (.int 0))),
                          slice := ⟨.basic .Int (.int 0), none⟩ } memRows twoRows true 0 =
      some { dest := { v := some (.ptr false (.basic .Int (.int 0))),
                       slice := ⟨.basic .Int (.int 0), none⟩ }, cursor := twoRows,
             result := .err .ErrUnsupportedValueType, events := [] } ∧
    unmarshalRows ascii (RowsDest.ofSlice (.basic .Map .null) none) memRows twoRows true 0 =
      some { dest := RowsDest.ofSlice (.basic .Map .null) none, cursor := twoRows,
             result := .err .ErrUnsupportedValueType, events := [] } ∧
    unmarshalRow ascii (some (.ptr false (.basic .Map .null))) memRows twoRows true =
      { dest := some (.ptr false (.basic .Map .null)), cursor := (memRows.Next twoRows).1,
        result := .err .ErrUnsupportedValueType, calls := [.Next] } :=
  ⟨(unsupported_destinations ascii memRows twoRows true).1 _ 0 (fun _ h => by cases h),
    (unsupported_destinations ascii memRows twoRows true).2.1 _ 0 _ rfl (by decide),
    (unsupported_destinations ascii memRows twoRows true).2.2.1 _ 0 _ rfl rfl rfl (by decide),
    (unsupported_destinations ascii memRows twoRows true).2.2.2 _ rfl rfl (by decide)⟩

/-! ### Allocate-if-absent -/

/-- C15: for every struct record and every successful call of
`mapStructFieldsIntoSlice` on it, with `r` the record after the call.
(1) Every exported pointer field of the record that is not an embedded record:
afterwards it holds a pointer that is not nil, to the zero value of its
element type when it was nil and to the target it had when it was not, and the
catalog has, under the name of the field, the address of that target.
(2) Every entry of the catalog, at any depth (so also the fields of an
embedded record, by value or behind a pointer, nil or not): the slots are the
ones bound by name, and when no other entry carries the name every column so
named gets the slot of the entry; the slot is an address inside `r`, every
pointer on the way to it is not nil; and when the slot is the target of a
pointer field, that field holds in `r` a pointer that is not nil, to the zero
value of its element type when the field was nil, to the target it had when it
was not nil, to a zero value when the field was behind a nil pointer, and a
value stored through the slot is read back through the field of `r`.
(3) When the catalog is not empty or `unwrapFields` returns no field (which
leaves out only a record whose leaf fields are all embedded pointers to
pointers): every scalar read in the record before the call is read in `r`,
every scalar read in `r` was there before or is the zero value of its kind,
and every exported pointer field, embedded or not, holds in `r` a pointer that
is not nil, to a value of the type of its element, all scalars of which are
zero when the field was nil and which keeps the scalars it had when the field
was not nil. -/
theorem allocate_if_absent (U : Unicode) (fs : FieldVals) (columns : List String)
    (strict : Bool) (r : Value) (slots : List Slot)
    (h : mapStructFieldsIntoSlice U (.struct fs) Flag.root columns strict = (r, .ok slots)) :
    (∀ (j : Nat) (f : StructField) (isNil : Bool) (target : Value),
      fs.toList[j]? = some (f, .ptr isNil target) → f.Exported = true →
      ¬ (f.Anonymous = true ∧ target.DerefKind = .Struct) →
      r.load [.field j] = some (.ptr false (if isNil then target.zero else target)) ∧
      (fieldKey U f, Slot.addr [.field j, .elem]) ∈ flatCatalog U (.struct fs) []) ∧
    (∀ (key : String) (p : Loc), (key, Slot.addr p) ∈ flatCatalog U (.struct fs) [] →
      slots = slotsByName (flatCatalog U (.struct fs) []) columns ∧
      ((∀ s', (key, s') ∈ flatCatalog U (.struct fs) [] → s' = .addr p) →
        ∀ c : Nat, columns[c]? = some key → slots[c]? = some (Slot.addr p)) ∧
      (∃ w, r.load p = some w) ∧
      (∀ q q', p = q ++ .elem :: q' → ∃ t, r.load q = some (.ptr false t)) ∧
      (∀ l, p = l ++ [.elem] →
        ∃ t, r.load l = some (.ptr false t) ∧
          (∀ target, (Value.struct fs).load l = some (.ptr true target) → t = target.zero) ∧
          (∀ target, (Value.struct fs).load l = some (.ptr false target) → t = target) ∧
          ((Value.struct fs).load l = none → t.zero = t) ∧
          ∀ x, (r.store p x).load l = some (.ptr false (t.withData x)))) ∧
    ((flatCatalog U (.struct fs) [] ≠ [] ∨
        (unwrapFields (.struct fs) [] Flag.root).2 = .ok []) →
      (∀ l k d, (Value.struct fs).load l = some (.basic k d) → r.load l = some (.basic k d)) ∧
      (∀ l k d, r.load l = some (.basic k d) →
        (Value.struct fs).load l = some (.basic k d) ∨ d = zeroVal k) ∧
      (∀ (j : Nat) (f : StructField) (isNil : Bool) (target : Value),
        fs.toList[j]? = some (f, .ptr isNil target) → f.Exported = true →
        ∃ t, r.load [.field j] = some (.ptr false t) ∧ t.zero = target.zero ∧
          (isNil = true → ∀ l k d, t.load l = some (.basic k d) → d = zeroVal k) ∧
          (isNil = false → ∀ l k d, target.load l = some (.basic k d) →
            t.load l = some (.basic k d)))) := by
  have h1 : (mapStructFieldsIntoSlice U (.struct fs) Flag.root columns strict).1 = r := by
    rw [h]
  have h2 : (mapStructFieldsIntoSlice U (.struct fs) Flag.root columns strict).2 =
      .ok slots := by rw [h]
  obtain ⟨fields, m, hu, hm, hs, hslots⟩ := mapStruct_ok_inv U _ _ _ _ _ h2
  have hu' : (unwrapFieldsLoop fs [] Flag.root 0).2 = .ok fields := by
    simpa [unwrapFields] using hu
  have hue : (unwrapFields (.struct fs) [] Flag.root).1 =
      .struct (unwrapFieldsLoop fs [] Flag.root 0).1 := by simp [unwrapFields]
  have hm0 := hm
  rw [hue] at hm
  have hm' : (getTaggedLoop U (unwrapFieldsLoop fs [] Flag.root 0).1 [] Flag.root 0 []).2 =
      .ok m := by simpa [getTaggedFieldValueMap] using hm
  have hcat : flatCatalogFields U (unwrapFieldsLoop fs [] Flag.root 0).1 [] 0 =
      flatCatalogFields U fs [] 0 := unwrapFieldsLoop_catalog U fs [] Flag.root 0 fields hu' [] 0
  have hget : ∀ k, m.get k = lastEntry (flatCatalog U (.struct fs) []) k := by
    intro k
    rw [flatCatalog_struct, ← hcat, ← flatCatalog_struct]
    exact ((getTagged_spec_both U).1 _ [] Flag.root m hm).2 k
  have hne : flatCatalog U (.struct fs) [] ≠ [] → m ≠ [] := by
    intro hc he
    obtain ⟨k, s, hk⟩ := lastEntry_exists _ hc
    rw [← hget k, he] at hk
    simp [TaggedMap.get] at hk
  have hv : (m ≠ [] ∨ fields = []) →
      r = .struct (getTaggedLoop U (unwrapFieldsLoop fs [] Flag.root 0).1 [] Flag.root 0 []).1 := by
    intro hor
    by_cases he : m = []
    · have hf : fields = [] := hor.elim (fun h' => absurd he h') id
      subst he
      subst hf
      have hx := h1
      simp only [mapStructFieldsIntoSlice, hu, hm0, List.length_nil, Nat.not_lt_zero,
        decide_False, Bool.and_false, Bool.false_eq_true, if_false, if_true, List.take_nil,
        positionalLoop] at hx
      split at hx
      · rename_i hlt
        have hy := h2
        simp [mapStructFieldsIntoSlice, hu, hm0, hlt] at hy
      · rw [← hx, hue]
        simp [getTaggedFieldValueMap]
    · have hfull :=
        mapStruct_tagged U (.struct fs) Flag.root columns strict fields m hu hs hm0 he
      rw [← h1, hfull, hue]
      simp [getTaggedFieldValueMap]
  -- every entry of the catalog
  have hentry : ∀ (key : String) (p : Loc),
      (key, Slot.addr p) ∈ flatCatalog U (.struct fs) [] →
      slots = slotsByName (flatCatalog U (.struct fs) []) columns ∧
      ((∀ s', (key, s') ∈ flatCatalog U (.struct fs) [] → s' = .addr p) →
        ∀ c : Nat, columns[c]? = some key → slots[c]? = some (Slot.addr p)) ∧
      (∃ w, r.load p = some w) ∧
      (∀ q q', p = q ++ .elem :: q' → ∃ t, r.load q = some (.ptr false t)) ∧
      (∀ l, p = l ++ [.elem] →
        ∃ t, r.load l = some (.ptr false t) ∧
          (∀ target, (Value.struct fs).load l = some (.ptr true target) → t = target.zero) ∧
          (∀ target, (Value.struct fs).load l = some (.ptr false target) → t = target) ∧
          ((Value.struct fs).load l = none → t.zero = t) ∧
          ∀ x, (r.store p x).load l = some (.ptr false (t.withData x))) := by
    intro key p hmem
    have hm1 : m ≠ [] := hne (List.ne_nil_of_mem hmem)
    have hr := hv (Or.inl hm1)
    have hsl : slots = taggedLoop m columns 0 := hslots hm1
    have hmemf : (key, Slot.addr p) ∈ flatCatalogFields U fs [] 0 := by
      simpa [flatCatalog] using hmem
    have hmemu : (key, Slot.addr p) ∈
        flatCatalogFields U (unwrapFieldsLoop fs [] Flag.root 0).1 [] 0 := by
      rw [hcat]; exact hmemf
    have hload : ∃ w, r.load p = some w := by
      obtain ⟨j, rel, hp, t, ht⟩ := (getTagged_valid_both U).2 _ [] Flag.root 0 [] m hm' _ hmemu
      simp only [List.nil_append, Nat.zero_add, Slot.addr.injEq] at hp
      exact ⟨t, by rw [hr, hp]; simpa [Value.load] using ht⟩
    refine ⟨?_, ?_, hload, ?_, ?_⟩
    · rw [hsl]; exact taggedLoop_of_spec m _ columns hget
    · intro huniq c hc
      have hlt : c < columns.length := by
        rcases Nat.lt_or_ge c columns.length with h | h
        · exact h
        · simp [List.getElem?_eq_none h] at hc
      have hcc : columns[c] = key := by
        simpa [List.getElem?_eq_getElem hlt] using hc
      rw [hsl, taggedLoop_getElem m columns c hlt, hcc, hget,
        lastEntry_of_mem_unique _ _ _ hmem huniq]
      rfl
    · intro q q' hp
      obtain ⟨w, hw⟩ := hload
      rw [hp] at hw
      obtain ⟨u, hq, hu2⟩ := load_append_both.1 r q _ w hw
      obtain ⟨t, rfl, _⟩ := load_elem u q' w hu2
      exact ⟨t, hq⟩
    · intro l hp
      obtain ⟨j, rel, hpj, hG⟩ :=
        getTaggedLoop_pointers U _ [] Flag.root 0 [] m hm' _ hmemu
      obtain ⟨j', rel', hpj', hU⟩ :=
        unwrapFieldsLoop_pointers U fs [] Flag.root 0 fields hu' _ hmemf
      simp only [List.nil_append, Nat.zero_add, Slot.addr.injEq] at hpj hpj'
      have hjj : j' = j ∧ rel' = rel := by
        rw [hpj] at hpj'
        simp only [List.cons.injEq, Step.field.injEq] at hpj'
        exact ⟨hpj'.1.symm, hpj'.2.symm⟩
      obtain ⟨rfl, rfl⟩ := hjj
      rw [hp] at hpj
      rcases cons_eq_snoc _ _ _ _ hpj.symm with ⟨_, _, hx⟩ | ⟨relp, rfl, hrel⟩
      · cases hx
      · obtain ⟨n1, t1, hu1, hr1⟩ := hG relp hrel
        have hA := hU relp hrel
        rw [hu1] at hA
        have hrl : r.load (Step.field j' :: relp) =
            some (.ptr false (if n1 then t1.zero else t1)) := by
          rw [hr]; simpa [Value.load] using hr1
        refine ⟨_, hrl, fun target ht => ?_, fun target ht => ?_, fun ht => ?_, fun x => ?_⟩
        · simp only [Value.load] at ht
          rcases hA.2.1 target ht with hb | hb
          · simp only [Option.some.injEq, Value.ptr.injEq] at hb
            obtain ⟨rfl, rfl⟩ := hb
            rfl
          · simp only [Option.some.injEq, Value.ptr.injEq] at hb
            obtain ⟨rfl, rfl⟩ := hb
            rfl
        · simp only [Value.load] at ht
          have hb := hA.1 target ht
          simp only [Option.some.injEq, Value.ptr.injEq] at hb
          obtain ⟨rfl, rfl⟩ := hb
          rfl
        · simp only [Value.load] at ht
          have hz := hA.2.2.1 ht n1 t1 rfl
          cases n1 with
          | true => simpa using zero_zero_both.1 t1
          | false => simpa using hz
        · have hpe : r.load p = some (if n1 then t1.zero else t1) := by
            rw [hp]; exact load_snoc_elem_both.1 r _ _ hrl
          have hst : (r.store p x).load p =
              some (Value.withData x (if n1 then t1.zero else t1)) := by
            rw [Value.store, (load_modify_both _).1 r p, hpe]; rfl
          rw [hp] at hst ⊢
          obtain ⟨u, hq, hu2⟩ := load_append_both.1 _ _ _ _ hst
          obtain ⟨t, rfl, ht⟩ := load_elem u [] _ hu2
          simp only [Value.load, Option.some.injEq] at ht
          rw [hq, ht]
  -- scalars before and after
  have hfwd : (m ≠ [] ∨ fields = []) → ∀ l k d,
      (Value.struct fs).load l = some (.basic k d) → r.load l = some (.basic k d) := by
    intro he l k d hl
    obtain ⟨j, l', rfl, hl'⟩ := load_struct_field fs l k d hl
    rw [hv he]
    simp only [Value.load]
    exact (getTagged_load_both U).2 _ [] Flag.root 0 [] j l' k d
      (unwrapFields_load_both.2 fs [] Flag.root 0 j l' k d hl')
  have hbwd : (m ≠ [] ∨ fields = []) → ∀ l k d, r.load l = some (.basic k d) →
      (Value.struct fs).load l = some (.basic k d) ∨ d = zeroVal k := by
    intro he l k d hl
    rw [hv he] at hl
    obtain ⟨j, l', rfl, hl'⟩ := load_struct_field _ l k d hl
    simp only [Value.load]
    rcases (getTagged_scalar_both U).2 _ [] Flag.root 0 [] m hm' j l' k d hl' with hg | hg
    · exact unwrapFieldsLoop_scalar fs [] Flag.root 0 fields hu' j l' k d hg
    · exact Or.inr hg
  refine ⟨?_, hentry, ?_⟩
  · intro j f isNil target hf hexp hleaf
    have hmem : (fieldKey U f, Slot.addr [.field j, .elem]) ∈ flatCatalog U (.struct fs) [] := by
      have := mem_flatCatalogFields U fs [] 0 j f _ hf (by simpa [Value.DerefKind] using hleaf)
      simpa [flatCatalog, leafSlot] using this
    obtain ⟨_, _, _, _, hP⟩ := hentry _ _ hmem
    obtain ⟨t, ht, hnil, hkeep, _, _⟩ := hP [.field j] rfl
    have hold : (Value.struct fs).load [.field j] = some (.ptr isNil target) := by
      simp only [Value.load]
      rw [load_of_toList fs j f _ [] hf]
      simp [Value.load]
    refine ⟨?_, hmem⟩
    rw [ht]
    cases isNil with
    | true => rw [hnil target hold]; rfl
    | false => rw [hkeep target hold]; rfl
  · intro hc
    have he : m ≠ [] ∨ fields = [] := by
      rcases hc with hc | hc
      · exact Or.inl (hne hc)
      · rw [hu] at hc
        simp only [Res.ok.injEq] at hc
        exact Or.inr hc
    refine ⟨hfwd he, hbwd he, ?_⟩
    intro j f isNil target hf hexp
    have hcs : (Flag.root.Field f).CanSet = true := by rw [flag_field_root f hexp]; rfl
    obtain ⟨t1, h1'⟩ := unwrapFieldsLoop_nonnil fs [] Flag.root 0 fields j f isNil target hu' hf hcs
    obtain ⟨t2, h2'⟩ := getTaggedLoop_nonnil U _ [] Flag.root 0 [] m j f t1 hm' h1'
    have hload : ∀ l, r.load (.field j :: l) = (Value.ptr false t2).load l := by
      intro l
      rw [hv he]
      simp only [Value.load]
      exact load_of_toList _ j f _ l h2'
    have hold : ∀ l, (Value.struct fs).load (.field j :: l) = (Value.ptr isNil target).load l := by
      intro l
      simp only [Value.load]
      exact load_of_toList fs j f _ l hf
    have hz : (getTaggedLoop U (unwrapFieldsLoop fs [] Flag.root 0).1 [] Flag.root 0 []).1.zero =
        fs.zero := by
      rw [(getTagged_zero_both U).2 _ [] Flag.root 0 [] m hm',
        unwrapFieldsLoop_zero fs [] Flag.root 0 fields hu']
    have hz' := congrArg (fun x => x.toList[j]?) hz
    simp only [toList_zero, List.getElem?_map, h2', hf, Option.map_some', Value.zero,
      Option.some.injEq, Prod.mk.injEq, Value.ptr.injEq, true_and] at hz'
    refine ⟨t2, by rw [hload]; simp [Value.load], hz', fun hn l k d hl => ?_,
      fun hn l k d hl => ?_⟩
    · subst hn
      have hl' : r.load (.field j :: .elem :: l) = some (.basic k d) := by
        rw [hload]; simpa [Value.load] using hl
      rcases hbwd he _ k d hl' with hb | hb
      · rw [hold] at hb
        simp [Value.load] at hb
      · exact hb
    · subst hn
      have hl' : (Value.struct fs).load (.field j :: .elem :: l) = some (.basic k d) := by
        rw [hold]; simpa [Value.load] using hl
      have := hfwd he _ k d hl'
      rw [hload] at this
      simpa [Value.load] using this

/-- Witness of C15: `struct { Id int; Nick *string; *Base }` with `Base` the
struct `{ Name *string }`, the three pointers nil, bound to the columns `id`,
`nick`, `name`: `Nick` points to the empty string afterwards, and `Name`,
behind the embedded pointer that was nil, to a zero value that a store through
its slot replaces. -/
theorem allocate_if_absent_witness :
    (mapStructFieldsIntoSlice ascii (.struct profileFields) Flag.root ["id", "nick", "name"]
        true).2 =
      .ok [.addr [.field 0], .addr [.field 1, .elem],
        .addr [.field 2, .elem, .field 0, .elem]] ∧
    (mapStructFieldsIntoSlice ascii (.struct profileFields) Flag.root ["id", "nick", "name"]
        true).1.load [.field 1] = some (.ptr false (.basic .String (.str ""))) ∧
    (∃ t, (mapStructFieldsIntoSlice ascii (.struct profileFields) Flag.root
          ["id", "nick", "name"] true).1.load [.field 2, .elem, .field 0] =
        some (.ptr false t) ∧
      t.zero = t ∧
      ∀ x, ((mapStructFieldsIntoSlice ascii (.struct profileFields) Flag.root
          ["id", "nick", "name"] true).1.store [.field 2, .elem, .field 0, .elem] x).load
          [.field 2, .elem, .field 0] = some (.ptr false (t.withData x))) := by
  have hok : (mapStructFieldsIntoSlice ascii (.struct profileFields) Flag.root
      ["id", "nick", "name"] true).2 =
      .ok [.addr [.field 0], .addr [.field 1, .elem],
        .addr [.field 2, .elem, .field 0, .elem]] := by decide
  have hall := allocate_if_absent ascii profileFields ["id", "nick", "name"] true
    (mapStructFieldsIntoSlice ascii (.struct profileFields) Flag.root ["id", "nick", "name"]
      true).1
    [.addr [.field 0], .addr [.field 1, .elem], .addr [.field 2, .elem, .field 0, .elem]]
    (Prod.ext rfl hok)
  refine ⟨hok, ?_, ?_⟩
  · exact (hall.1 1 ⟨"Nick", true, "nick", false⟩ true (.basic .String (.str "stale")) rfl rfl
      (by decide)).1
  · obtain ⟨t, h1, _, _, h4, h5⟩ :=
      (hall.2.1 "name" [.field 2, .elem, .field 0, .elem] (by decide)).2.2.2.2
        [.field 2, .elem, .field 0] rfl
    exact ⟨t, h1, h4 (by decide), h5⟩

/-! ### Transaction -/

/-- C16: for every database handle, callback and connection state: if `Begin`
fails, `Transaction` returns its error and calls nothing else; otherwise
`Begin` and the callback are called exactly once, `Commit` is called if and
only if the callback returns nil, `Rollback` is called (once, last) if and
only if the callback or `Commit` returns an error or panics, so never after a
successful `Commit`, and the call ends as the callback did when that is not
nil, and as `Commit` did when the callback returned nil. -/
theorem Transaction_spec {σ ε : Type} (e : sqlDB σ ε) (fn : σ → σ × Ret ε) (s : σ) :
    (∀ err, (e.Begin s).2 = some err →
      (Transaction e fn s).result = .err err ∧ (Transaction e fn s).calls = [.Begin] ∧
      (Transaction e fn s).state = (e.Begin s).1) ∧
    ((e.Begin s).2 = none →
      (Transaction e fn s).calls.count .Begin = 1 ∧
      (Transaction e fn s).calls.count .Fn = 1 ∧
      (Transaction e fn s).calls.count .Commit ≤ 1 ∧
      (Transaction e fn s).calls.count .Rollback ≤ 1 ∧
      (TxCall.Commit ∈ (Transaction e fn s).calls ↔ (fn (e.Begin s).1).2 = .nil) ∧
      (TxCall.Rollback ∈ (Transaction e fn s).calls ↔
        ¬ ((fn (e.Begin s).1).2 = .nil ∧ (e.Commit (fn (e.Begin s).1).1).2 = .nil)) ∧
      (Transaction e fn s).calls =
        [.Begin, .Fn] ++ (if (fn (e.Begin s).1).2.isNil then [.Commit] else []) ++
          (if TxCall.Rollback ∈ (Transaction e fn s).calls then [.Rollback] else []) ∧
      (∀ r, (fn (e.Begin s).1).2 = r → r ≠ .nil → (Transaction e fn s).result = r) ∧
      ((fn (e.Begin s).1).2 = .nil →
        (Transaction e fn s).result = (e.Commit (fn (e.Begin s).1).1).2)) := by
  rcases hb : e.Begin s with ⟨s1, _ | berr⟩
  · rcases hf : fn s1 with ⟨s2, _ | ferr | _⟩
    · rcases hc : e.Commit s2 with ⟨s3, _ | cerr | _⟩ <;>
        simp [Transaction, transactionDeferred, Ret.isNil, hb, hf, hc]
    · simp [Transaction, transactionDeferred, Ret.isNil, hb, hf]
    · simp [Transaction, transactionDeferred, Ret.isNil, hb, hf]
  · simp [Transaction, hb]

/-- Witness for C16: a failing `Begin`, a callback that returns an error, a
callback that panics, a failing `Commit` and a successful transaction. -/
theorem Transaction_spec_witness :
    ((failingBeginDB.Begin 0).2 = some "no connection" ∧
      (Transaction failingBeginDB (fun s => (s, .nil)) 0).calls = [.Begin]) ∧
    ((countingDB.Begin 0).2 = none ∧
      (Transaction countingDB (fun s => (s, .err "boom")) 0).result = .err "boom" ∧
      (Transaction countingDB (fun s => (s, .err "boom")) 0).calls =
        [.Begin, .Fn, .Rollback]) ∧
    ((Transaction countingDB (fun s => (s, .panic)) 0).result = .panic ∧
      (Transaction countingDB (fun s => (s, .panic)) 0).calls = [.Begin, .Fn, .Rollback]) ∧
    ((Transaction failingCommitDB (fun s => (s, .nil)) 0).result = .err "commit failed" ∧
      (Transaction failingCommitDB (fun s => (s, .nil)) 0).calls =
        [.Begin, .Fn, .Commit, .Rollback]) ∧
    ((Transaction countingDB (fun s => (s, .nil)) 0).result = .nil ∧
      (Transaction countingDB (fun s => (s, .nil)) 0).calls = [.Begin, .Fn, .Commit]) :=
  ⟨⟨rfl, ((Transaction_spec failingBeginDB (fun s => (s, .nil)) 0).1
      "no connection" rfl).2.1⟩,
    ⟨rfl, ((Transaction_spec countingDB (fun s => (s, .err "boom")) 0).2 rfl).2.2.2.2.2.2.2.1
      (.err "boom") rfl (by decide), by decide⟩,
    ⟨by decide, by decide⟩, ⟨by decide, by decide⟩, ⟨by decide, by decide⟩⟩

/-! ### RemoveFieldName -/

/-- C17: for every slice `xs` and every list of names `strs`, `RemoveFieldName`
returns exactly the elements of `xs` equal to none of `strs`, in their original
order; the result is a sublist of `xs`, contains no removed name, keeps every
other element, and the backing array of the slice of the caller is as it was. -/
theorem RemoveFieldName_filter (xs strs : List String) :
    (RemoveFieldName xs strs).out = xs.filter (fun x => decide (x ∉ strs)) ∧
    (RemoveFieldName xs strs).out.Sublist xs ∧
    (∀ x ∈ (RemoveFieldName xs strs).out, x ∉ strs) ∧
    (∀ x ∈ xs, x ∉ strs → x ∈ (RemoveFieldName xs strs).out) ∧
    (RemoveFieldName xs strs).strings = xs := by
  have h : (RemoveFieldName xs strs).out = xs.filter (fun x => decide (x ∉ strs)) := by
    simp only [RemoveFieldName]; exact removePasses_eq strs xs
  refine ⟨h, ?_, ?_, ?_, rfl⟩
  · rw [h]; exact List.filter_sublist xs
  · intro x hx; rw [h] at hx; simpa using (List.mem_filter.1 hx).2
  · intro x hx hn; rw [h]; exact List.mem_filter.2 ⟨hx, by simpa using hn⟩

/-! ### RawUpdateFieldsWithPlaceHolder -/

/-- C18: `RawUpdateFieldsWithPlaceHolder` returns the text `=?`, one
placeholder, when no field is given and when the only field is excluded, where
the comma-join of the remaining names each followed by `=?` is the empty text;
for every input the result is that join when a field remains and `=?` when
none does. -/
theorem RawUpdateFieldsWithPlaceHolder_empty :
    RawUpdateFieldsWithPlaceHolder [] [] = "=?" ∧
    RawUpdateFieldsWithPlaceHolder ["id"] ["id"] = "=?" ∧
    (RemoveFieldName ["id"] ["id"]).out = [] ∧
    ",".intercalate (([] : List String).map fun x => x ++ "=?") = "" ∧
    (∀ fieldNames str : List String,
      RawUpdateFieldsWithPlaceHolder fieldNames str =
        if (RemoveFieldName fieldNames str).out = [] then "=?"
        else ",".intercalate ((RemoveFieldName fieldNames str).out.map fun x => x ++ "=?")) := by
  refine ⟨by decide, by decide, by decide, by decide, ?_⟩
  intro fieldNames str
  simp only [RawUpdateFieldsWithPlaceHolder]
  cases h : (RemoveFieldName fieldNames str).out with
  | nil => decide
  | cons a rest =>
    simp only [String.intercalate, List.map_cons, if_neg (List.cons_ne_nil _ _)]
    exact intercalate_go_placeholder rest a

/-! ### ConvertToCamel -/

/-- C19: `ConvertToCamel` subtracts 32 from the first character of every
segment whatever it is: `user_name` gives `UserName`, but `User_name` gives
`5serName` (the upper-case `U` becomes the digit `5`) and `1st` starts with the
control character of code 17. -/
theorem ConvertToCamel_subtracts_32 :
    ConvertToCamel "user_name" = "UserName" ∧
    ConvertToCamel "User_name" = "5serName" ∧
    ConvertToCamel "1st" = String.mk [Char.ofNat 17, 's', 't'] := by
  refine ⟨by decide, by decide, by decide⟩

/-! ### RawFieldNames -/

/-- C20: on `struct { *Base; Age int }` with `Base` the struct
`{ Id int; Name string }` untagged, `RawFieldNames` lists the two fields of
`Base` both under the name of the outer field, `base`, instead of `id` and
`name`; with the fields of the nested struct tagged the tags are listed. -/
theorem RawFieldNames_nested_outer_name :
    RawFieldNames ascii (.struct embeddedFields) false =
      .ok ["`base`", "`base`", "`age`"] ∧
    RawFieldNames ascii (.ptr false (.struct embeddedFields)) true =
      .ok ["base", "base", "age"] ∧
    RawFieldNames ascii (.struct nestedTaggedFields) false =
      .ok ["`id`", "`id`", "`name`"] := by
  refine ⟨by decide, by decide, by decide⟩

/-! ### The ordered leaf-field list -/

/-- C21: for every struct record (handed over directly or through a pointer),
`unwrapFields` returns the ordered leaf-field list of the specification (in
declaration order the settable fields not tagged `-`, an embedded record
replaced in place by its own list, a pointer field by its target) unless a
field it reaches is a nil pointer to a pointer, where it panics; it never
returns an error.  Every handle of the list is settable, and the strict check
of `mapStructFieldsIntoSlice` compares the number of columns with the length
of that list: the ignored field of `struct { Id int; Secret string }` and the
embedded record of `struct { *Base; Age int }` are not counted. -/
theorem unwrapFields_leaf_list (fs : FieldVals) (loc : Loc) (fl : Flag) :
    (unwrapFields (.struct fs) loc fl).2 =
      (if Unwrappable fs fl then .ok (leafFields fs loc fl 0) else .panic) ∧
    (unwrapFields (.ptr false (.struct fs)) loc fl).2 =
      (if Unwrappable fs fl.Elem then .ok (leafFields fs (loc ++ [.elem]) fl.Elem 0)
        else .panic) ∧
    (∀ r ∈ leafFields fs loc fl 0, r.fl.CanSet = true) ∧
    (∀ (U : Unicode) (columns : List String), Unwrappable fs fl = true →
      columns.length < (leafFields fs [] fl 0).length →
      (mapStructFieldsIntoSlice U (.struct fs) fl columns true).2 =
        .err .ErrNotMatchDestination) ∧
    leafFields secretFields [] Flag.root 0 = [{ loc := [.field 0], fl := Flag.root }] ∧
    leafFields embeddedFields [] Flag.root 0 =
      [{ loc := [.field 0, .elem, .field 0], fl := Flag.root },
        { loc := [.field 0, .elem, .field 1], fl := Flag.root },
        { loc := [.field 1], fl := Flag.root }] ∧
    (unwrapFields (.struct mixedFields) [] Flag.root).2 =
      .ok [{ loc := [.field 0], fl := Flag.root },
        { loc := [.field 2, .elem, .field 0], fl := Flag.root },
        { loc := [.field 2, .elem, .field 1], fl := Flag.root }] := by
  have h1 : (unwrapFields (.struct fs) loc fl).2 =
      (if Unwrappable fs fl then .ok (leafFields fs loc fl 0) else .panic) := by
    simp only [unwrapFields]; exact unwrapFieldsLoop_eq fs loc fl 0
  refine ⟨h1, ?_, leafFields_settable fs loc fl 0, ?_, by decide, by decide, by decide⟩
  · simp only [unwrapFields]; exact unwrapFieldsLoop_eq fs (loc ++ [.elem]) fl.Elem 0
  · intro U columns hu hlt
    have h2 : (unwrapFields (.struct fs) [] fl).2 = .ok (leafFields fs [] fl 0) := by
      simp only [unwrapFields]; rw [unwrapFieldsLoop_eq fs [] fl 0, if_pos hu]
    exact mapStruct_strict_mismatch U _ fl columns _ h2 hlt

/-- Witness of C21: `struct { Id int; Secret string }` with `Secret` tagged `-`
has one leaf field, so the strict check fails with no column and passes with
the one column `id`. -/
theorem unwrapFields_leaf_list_witness :
    Unwrappable secretFields Flag.root = true ∧
    (leafFields secretFields [] Flag.root 0).length = 1 ∧
    (mapStructFieldsIntoSlice ascii (.struct secretFields) Flag.root [] true).2 =
      .err .ErrNotMatchDestination ∧
    (mapStructFieldsIntoSlice ascii (.struct secretFields) Flag.root ["id"] true).2 =
      .ok [.addr [.field 0]] :=
  ⟨by decide, by decide,
    (unwrapFields_leaf_list secretFields [] Flag.root).2.2.2.1 ascii [] (by decide) (by decide),
    by decide⟩

/-! ### Unreadable fields -/

/-- C22: for every struct record that declares an unexported field that is not
embedded, building the catalog never succeeds: `getTaggedFieldValueMap` returns
`ErrNotReadableValue` unless it panics, and `mapStructFieldsIntoSlice` returns
`ErrNotReadableValue` or (from the strict count check, which runs first)
`ErrNotMatchDestination` unless it panics, for every column list, whether or
not a column names the field; for a record of scalar leaves no call panics:
the catalog fails with `ErrNotReadableValue` and the bind fails with
`ErrNotMatchDestination` when the strict check rejects the column count and
with `ErrNotReadableValue` otherwise. -/
theorem unexported_field_fails (U : Unicode) (fs : FieldVals) (j : Nat) (f : StructField)
    (child : Value) (hf : fs.toList[j]? = some (f, child)) (hexp : f.Exported = false)
    (hanon : f.Anonymous = false) :
    (∀ loc fl, (getTaggedFieldValueMap U (.struct fs) loc fl).2 = .err .ErrNotReadableValue ∨
      (getTaggedFieldValueMap U (.struct fs) loc fl).2 = .panic) ∧
    (∀ fl columns strict,
      (mapStructFieldsIntoSlice U (.struct fs) fl columns strict).2 = .err .ErrNotReadableValue ∨
      (mapStructFieldsIntoSlice U (.struct fs) fl columns strict).2 =
        .err .ErrNotMatchDestination ∨
      (mapStructFieldsIntoSlice U (.struct fs) fl columns strict).2 = .panic) ∧
    (fs.Scalars = true →
      (∀ loc fl, (getTaggedFieldValueMap U (.struct fs) loc fl).2 = .err .ErrNotReadableValue) ∧
      ∀ fl columns strict, (mapStructFieldsIntoSlice U (.struct fs) fl columns strict).2 =
        .err (if strict && decide (columns.length < (leafFields fs [] fl 0).length)
          then .ErrNotMatchDestination else .ErrNotReadableValue)) := by
  have hcat : ∀ (gs : FieldVals) (child' : Value), gs.toList[j]? = some (f, child') →
      ∀ loc fl, (getTaggedFieldValueMap U (.struct gs) loc fl).2 = .err .ErrNotReadableValue ∨
        (getTaggedFieldValueMap U (.struct gs) loc fl).2 = .panic := by
    intro gs child' hg loc fl
    cases h : (getTaggedFieldValueMap U (.struct gs) loc fl).2 with
    | ok m =>
      exfalso
      have h' : (getTaggedLoop U gs loc fl 0 []).2 = .ok m := by
        simpa [getTaggedFieldValueMap] using h
      exact getTaggedLoop_unexported U gs loc fl 0 [] m j f child' hg hexp hanon h'
    | err e => rw [(getTagged_error_both U).1 _ loc fl e h]; exact Or.inl rfl
    | panic => exact Or.inr rfl
  have hmap : ∀ fl columns strict,
      (mapStructFieldsIntoSlice U (.struct fs) fl columns strict).2 =
        .err .ErrNotReadableValue ∨
      (mapStructFieldsIntoSlice U (.struct fs) fl columns strict).2 =
        .err .ErrNotMatchDestination ∨
      (mapStructFieldsIntoSlice U (.struct fs) fl columns strict).2 = .panic := by
    intro fl columns strict
    have hue : (unwrapFields (.struct fs) [] fl).1 =
        .struct (unwrapFieldsLoop fs [] fl 0).1 := by simp [unwrapFields]
    cases hu : (unwrapFields (.struct fs) [] fl).2 with
    | err e =>
      exfalso
      have h' : (unwrapFieldsLoop fs [] fl 0).2 = .err e := by simpa [unwrapFields] using hu
      rw [unwrapFieldsLoop_eq] at h'
      split at h' <;> simp at h'
    | panic => exact Or.inr (Or.inr (by simp [mapStructFieldsIntoSlice, hu]))
    | ok fields =>
      have hu' : (unwrapFieldsLoop fs [] fl 0).2 = .ok fields := by
        simpa [unwrapFields] using hu
      obtain ⟨child', hd⟩ := unwrapFieldsLoop_descriptor fs [] fl 0 fields j f child hu' hf
      by_cases hs : (strict && decide (columns.length < fields.length)) = true
      · exact Or.inr (Or.inl (by simp [mapStructFieldsIntoSlice, hu, hs]))
      · rcases hcat _ child' hd [] fl with h | h
        · refine Or.inl ?_
          rw [← hue] at h
          simp [mapStructFieldsIntoSlice, hu, hs, h]
        · refine Or.inr (Or.inr ?_)
          rw [← hue] at h
          simp [mapStructFieldsIntoSlice, hu, hs, h]
  refine ⟨hcat fs child hf, hmap, fun hsc => ?_⟩
  have hget : ∀ loc fl,
      (getTaggedFieldValueMap U (.struct fs) loc fl).2 = .err .ErrNotReadableValue := by
    intro loc fl
    rcases hcat fs child hf loc fl with h | h
    · exact h
    · exfalso
      have h' : (getTaggedLoop U fs loc fl 0 []).2 = .panic := by
        simpa [getTaggedFieldValueMap] using h
      exact getTaggedLoop_scalars U fs loc fl 0 [] hsc h'
  refine ⟨hget, fun fl columns strict => ?_⟩
  have hu : unwrapFields (.struct fs) [] fl = (.struct fs, .ok (leafFields fs [] fl 0)) := by
    simp only [unwrapFields, unwrapFieldsLoop_scalars fs [] fl 0 hsc, unwrapFieldsLoop_eq,
      unwrappable_of_scalars fs fl hsc, if_true]
  by_cases hs : (strict && decide (columns.length < (leafFields fs [] fl 0).length)) = true
  · simp [mapStructFieldsIntoSlice, hu, hs]
  · simp [mapStructFieldsIntoSlice, hu, hs, hget [] fl]

/-- Witness of C22: `struct { Id int; secret string }` bound to the one column
`id`, which does not name the unexported field. -/
theorem unexported_field_fails_witness :
    unexportedFields.Scalars = true ∧
    (getTaggedFieldValueMap ascii (.struct unexportedFields) [] Flag.root).2 =
      .err .ErrNotReadableValue ∧
    (mapStructFieldsIntoSlice ascii (.struct unexportedFields) Flag.root ["id"] false).2 =
      .err .ErrNotReadableValue ∧
    (mapStructFieldsIntoSlice ascii (.struct unexportedFields) Flag.root ["id"] true).2 =
      .err .ErrNotReadableValue :=
  ⟨by decide,
    ((unexported_field_fails ascii unexportedFields 1 ⟨"secret", false, "", false⟩
      (.basic .String (.str "")) rfl rfl rfl).2.2 (by decide)).1 [] Flag.root,
    by decide, by decide⟩

/-! ### Generated names -/

/-- C23: for Unicode tables that agree with ASCII on the ASCII runes, and every
column name made of one or more segments separated by single underscores, each
a lower-case ASCII letter followed by lower-case ASCII letters and digits,
`ConvertCamelToSnake (ConvertToCamel s)` is `s`; so the key of the untagged
exported field named `ConvertToCamel s` is `s`, and a record with that one
field binds the column `s` to the address of the field. -/
theorem camel_snake_round_trip (U : Unicode) (hU : U.AgreesOnAscii) (s : String)
    (hs : IsColumnName s = true) :
    ConvertCamelToSnake U (ConvertToCamel s) = s ∧
    fieldKey U ⟨ConvertToCamel s, true, "", false⟩ = s ∧
    ∀ (k : BasicKind) (d : Val) (strict : Bool),
      mapStructFieldsIntoSlice U
        (.struct (.cons ⟨ConvertToCamel s, true, "", false⟩ (.basic k d) .nil)) Flag.root [s]
        strict = (.struct (.cons ⟨ConvertToCamel s, true, "", false⟩ (.basic k d) .nil),
          .ok [.addr [.field 0]]) := by
  have h1 : ConvertCamelToSnake U (ConvertToCamel s) = s := by
    rw [ConvertCamelToSnake, convertCamelToSnakeRunes_eq, convertToCamel_runes,
      round_trip_runes U hU s.toList hs]
    rfl
  have h2 : fieldKey U ⟨ConvertToCamel s, true, "", false⟩ = s := by
    rw [fieldKey_untagged U _ rfl]; exact h1
  refine ⟨h1, h2, fun k d strict => ?_⟩
  have hflat : FlatUntagged (.cons ⟨ConvertToCamel s, true, "", false⟩ (.basic k d) .nil) := by
    intro e he
    simp only [FieldVals.toList, List.mem_singleton] at he
    subst he
    exact ⟨rfl, rfl, rfl, k, d, rfl⟩
  rw [mapStruct_flat U _ [s] strict hflat rfl]
  simp [slotsByName, namedSlots, FieldVals.toList, lastEntry, List.lookup, h1]

/-- Witness of C23: the column name `user_name2` becomes `UserName2` and comes
back. -/
theorem camel_snake_round_trip_witness :
    IsColumnName "user_name2" = true ∧
    ConvertToCamel "user_name2" = "UserName2" ∧
    ConvertCamelToSnake ascii (ConvertToCamel "user_name2") = "user_name2" ∧
    fieldKey ascii ⟨ConvertToCamel "user_name2", true, "", false⟩ = "user_name2" :=
  ⟨by decide, by decide,
    (camel_snake_round_trip ascii (fun _ _ => ⟨rfl, rfl⟩) "user_name2" (by decide)).1,
    (camel_snake_round_trip ascii (fun _ _ => ⟨rfl, rfl⟩) "user_name2" (by decide)).2.1⟩

end Esql
